import Mathlib

/-!
# CallingConvEmitter

A shallow embedding of `llvm/utils/TableGen/CallingConvEmitter.cpp`, the TableGen
backend that turns calling-convention records into classification procedures and
per-convention register tables, followed by theorems about it.

* The output stream `O` is the text a function appends to it.
* The emitter object (`Counter`, `CurrentAction`, `SwiftAction` and the three maps)
  is passed explicitly as an `Emitter` value.
* `PrintFatalError` ends the process: functions that can reach it return `Except Failure`.
* `std::map` and `std::set` keyed by `std::string` are lists kept in increasing key order.
* Loops whose trip count is not fixed by their input take a fuel argument and return
  `none` when it runs out.
-/

namespace CallingConvEmitter

/-! ## Ordered string containers -/

/-- Order of `std::less<std::string>`: lexicographic on the characters. -/
def strLess (a b : String) : Prop := a.toList < b.toList

instance strLessDecidable (a b : String) : Decidable (strLess a b) :=
  inferInstanceAs (Decidable (a.toList < b.toList))

/-- A `std::set<std::string>`, its elements in increasing order. -/
abbrev StringSet := List String

/-- A `std::map<std::string, std::set<std::string>>`, its entries in increasing key order. -/
abbrev StringSetMap := List (String × StringSet)

/-- `S.insert(x)`. -/
def setInsert (x : String) : StringSet → StringSet
  | [] => [x]
  | y :: S =>
    if strLess x y then x :: y :: S
    else if x = y then y :: S
    else y :: setInsert x S

/-- `S.insert(Src.begin(), Src.end())`. -/
def setInsertRange (Src : StringSet) (S : StringSet) : StringSet :=
  Src.foldl (fun acc x => setInsert x acc) S

/-- `S.erase(S.find(x))` for an `x` that was found. -/
def setErase (x : String) (S : StringSet) : StringSet :=
  S.filter (fun y => decide (y ≠ x))

/-- `M.find(k)`, walking the entries in key order. -/
def mapFind (k : String) : StringSetMap → Option StringSet
  | [] => none
  | (k', v) :: M =>
    if strLess k k' then none
    else if k = k' then some v
    else mapFind k M

/-- The set a map holds for `k`, empty when it holds none. -/
def usage (M : StringSetMap) (k : String) : StringSet :=
  (mapFind k M).getD []

/-- `f(M[k])`: `operator[]` creates an empty entry for an absent key, then `f` acts on
the referenced set. -/
def mapSubscript (k : String) (f : StringSet → StringSet) : StringSetMap → StringSetMap
  | [] => [(k, f [])]
  | (k', v) :: M =>
    if strLess k k' then (k, f []) :: (k', v) :: M
    else if k = k' then (k', f v) :: M
    else (k', v) :: mapSubscript k f M

/-- `M.erase(k)`. -/
def mapErase (k : String) (M : StringSetMap) : StringSetMap :=
  M.filter (fun e => decide (e.1 ≠ k))

/-! ## Records -/

/-- What the emitter reads of a value-type record: `getEnumName(getValueType(VT))` and
`MVT(getValueType(VT)).isFloatingPoint()`. Both functions are declared outside this file. -/
structure ValueType where
  EnumName : String
  isFloatingPoint : Bool
deriving DecidableEq, Repr

/-- The values of an action record. `SuperClasses` holds the names of the classes the
record derives from; registers are held by their `getQualifiedName`, the delegate target
`CC` by its name. -/
structure ActionRecord where
  SuperClasses : List String
  VTs : List ValueType := []
  Predicate : String := ""
  CC : String := ""
  RegList : List String := []
  ShadowRegList : List String := []
  Size : Int := 0
  Align : Int := 0
  DestTy : ValueType := ⟨"", false⟩
  FuncName : String := ""
deriving DecidableEq, Repr

/-- `Action->isSubClassOf(Name)`. -/
def ActionRecord.isSubClassOf (R : ActionRecord) (Name : String) : Bool :=
  R.SuperClasses.contains Name

/-- An action record: with a `SubAction` field (`sub`) or without one (`leaf`). -/
inductive Action where
  | leaf (R : ActionRecord)
  | sub (R : ActionRecord) (SubAction : Action)
deriving DecidableEq, Repr

/-- The values of the record at the root of an action. -/
def Action.record : Action → ActionRecord
  | .leaf R => R
  | .sub R _ => R

/-- A `CallingConv` record. -/
structure CallingConv where
  Name : String
  Custom : Bool := false
  Entry : Bool := false
  Actions : List Action := []
deriving DecidableEq, Repr

/-! ## Emitter state and failures -/

/-- The data members of `class CallingConvEmitter`. -/
structure Emitter where
  Counter : Nat := 0
  CurrentAction : String := ""
  SwiftAction : Bool := false
  AssignedRegsMap : StringSetMap := []
  AssignedSwiftRegsMap : StringSetMap := []
  DelegateToMap : StringSetMap := []
deriving DecidableEq, Repr

/-- How a run ends without output: `PrintFatalError` with its message, or the read of a
list element past the end of the list (`getElementAsRecord` on an index that is not
below the size). -/
inductive Failure where
  | fatal (Msg : String)
  | outOfRange
deriving DecidableEq, Repr

/-! ## Text helpers -/

/-- `std::string(N, ' ')`, also what `O << indent(N)` prints. -/
def spaces (N : Nat) : String := String.mk (List.replicate N ' ')

/-- Names written through a `ListSeparator`: separated by a comma and a blank. -/
def commaList (Names : List String) : String := String.intercalate ", " Names

/-- `++Counter` on an `unsigned`. -/
def nextCounter (Counter : Nat) : Nat := (Counter + 1) % 4294967296

/-- Conversion of the 64-bit result of `getValueAsInt` to `int`. -/
def toInt (V : Int) : Int := (V + 2147483648) % 4294967296 - 2147483648

/-- The `starts_with("CCIfSwift")` test of a class name. -/
def startsWithCCIfSwift (Name : String) : Bool :=
  "CCIfSwift".toList.isPrefixOf Name.toList

/-- The `Size` and `Align` arguments of an emitted `AllocateStack` call, each replaced
by a data-layout query when zero (shared by `CCAssignToRegAndStack` and `CCAssignToStack`). -/
def stackArgs (Indent : Nat) (Size Align : Int) : String :=
  (if Size ≠ 0 then toString Size ++ ", "
   else "\n" ++ spaces Indent ++
     "  State.getMachineFunction().getDataLayout()." ++
     "getTypeAllocSize(EVT(LocVT).getTypeForEVT(State.getContext()))," ++ " ") ++
  (if Align ≠ 0 then "Align(" ++ toString Align ++ ")"
   else "\n" ++ spaces Indent ++
     "  State.getMachineFunction().getDataLayout()." ++
     "getABITypeAlign(EVT(LocVT).getTypeForEVT(State.getContext()" ++ "))")

/-- One `AssignedSwiftRegsMap[CurrentAction].insert(Name)` or
`AssignedRegsMap[CurrentAction].insert(Name)`, chosen by `SwiftAction`. -/
def recordReg (E : Emitter) (Name : String) : Emitter :=
  if E.SwiftAction then
    { E with AssignedSwiftRegsMap :=
        mapSubscript E.CurrentAction (setInsert Name) E.AssignedSwiftRegsMap }
  else
    { E with AssignedRegsMap :=
        mapSubscript E.CurrentAction (setInsert Name) E.AssignedRegsMap }

/-! ## emitAction -/

/-- The condition of a predicate action (lines 131-145): the value-type tests of a
`CCIfType`, the `Predicate` string of a `CCIf`, a fatal error for any other class. -/
def predicateCondition (R : ActionRecord) (Indent : Nat) : Except Failure String :=
  if R.isSubClassOf "CCIfType" then
    .ok (String.intercalate (" ||\n    " ++ spaces Indent)
      (R.VTs.map (fun VT => "LocVT == " ++ VT.EnumName)))
  else if R.isSubClassOf "CCIf" then
    .ok R.Predicate
  else
    .error (.fatal "Unknown CCPredicateAction!")

/-- The lines closing an emitted register allocation: `addLoc`, for a
`CCAssignToRegAndStack` the stack allocation, and the return. -/
def assignToRegTail (R : ActionRecord) (Indent : Nat) : String :=
  spaces Indent ++ "  State.addLoc(CCValAssign::getReg(ValNo, ValVT, " ++
    "Reg, LocVT, LocInfo));\n" ++
  (if R.isSubClassOf "CCAssignToRegAndStack" then
     spaces Indent ++ "  (void)State.AllocateStack(" ++
       stackArgs Indent (toInt R.Size) (toInt R.Align) ++ ");\n"
   else "") ++
  spaces Indent ++ "  return false;\n" ++
  spaces Indent ++ "\x7d\n"

/-- Lines 151-156: `CCDelegateTo`. The call of the target is written and the target is
inserted into `DelegateToMap[CurrentAction]`. -/
def emitDelegateTo (R : ActionRecord) (Indent : Nat) (E : Emitter) :
    Except Failure (String × Emitter) :=
  .ok (spaces Indent ++ "if (!" ++ R.CC ++
         "(ValNo, ValVT, LocVT, LocInfo, ArgFlags, State))\n" ++
         spaces (Indent + 2) ++ "return false;\n",
       { E with DelegateToMap :=
           mapSubscript E.CurrentAction (setInsert R.CC) E.DelegateToMap })

/-- Lines 157-210: `CCAssignToReg` and `CCAssignToRegAndStack`. Every register of
`RegList` is recorded. -/
def emitAssignToReg (R : ActionRecord) (Indent : Nat) (E : Emitter) :
    Except Failure (String × Emitter) :=
  match R.RegList with
  | [Name] =>
    .ok (spaces Indent ++ "if (MCRegister Reg = State.AllocateReg(" ++ Name ++
           ")) \x7b\n" ++ assignToRegTail R Indent,
         recordReg E Name)
  | RegList =>
    let E1 := { E with Counter := nextCounter E.Counter }
    .ok (spaces Indent ++ "static const MCPhysReg RegList" ++ toString E1.Counter ++
           "[] = \x7b\n" ++
           spaces Indent ++ "  " ++ commaList RegList ++
           "\n" ++ spaces Indent ++ "\x7d;\n" ++
           spaces Indent ++ "if (MCRegister Reg = State.AllocateReg(RegList" ++
           toString E1.Counter ++ ")) \x7b\n" ++ assignToRegTail R Indent,
         RegList.foldl recordReg E1)

/-- Lines 211-251: `CCAssignToRegWithShadow`. With a single register, element 0 of
`ShadowRegList` is read whether or not the list has one. -/
def emitAssignToRegWithShadow (R : ActionRecord) (Indent : Nat) (E : Emitter) :
    Except Failure (String × Emitter) :=
  if R.ShadowRegList ≠ [] ∧ R.ShadowRegList.length ≠ R.RegList.length then
    .error (.fatal "Invalid length of list of shadowed registers")
  else
    match R.RegList with
    | [Name] =>
      match R.ShadowRegList.head? with
      | none => .error .outOfRange
      | some Shadow =>
        .ok (spaces Indent ++ "if (MCRegister Reg = State.AllocateReg(" ++ Name ++
               ", " ++ Shadow ++ ")) \x7b\n" ++
               spaces Indent ++ "  State.addLoc(CCValAssign::getReg(ValNo, ValVT, " ++
               "Reg, LocVT, LocInfo));\n" ++
               spaces Indent ++ "  return false;\n" ++
               spaces Indent ++ "\x7d\n",
             E)
    | RegList =>
      let RegListNumber := nextCounter E.Counter
      let ShadowRegListNumber := nextCounter RegListNumber
      .ok (spaces Indent ++ "static const MCPhysReg RegList" ++ toString RegListNumber ++
             "[] = \x7b\n" ++
             spaces Indent ++ "  " ++ commaList RegList ++
             "\n" ++ spaces Indent ++ "\x7d;\n" ++
             spaces Indent ++ "static const MCPhysReg RegList" ++
             toString ShadowRegListNumber ++ "[] = \x7b\n" ++
             spaces Indent ++ "  " ++ commaList R.ShadowRegList ++
             "\n" ++ spaces Indent ++ "\x7d;\n" ++
             spaces Indent ++ "if (MCRegister Reg = State.AllocateReg(RegList" ++
             toString RegListNumber ++ ", " ++ "RegList" ++
             toString ShadowRegListNumber ++ ")) \x7b\n" ++
             spaces Indent ++ "  State.addLoc(CCValAssign::getReg(ValNo, ValVT, " ++
             "Reg, LocVT, LocInfo));\n" ++
             spaces Indent ++ "  return false;\n" ++
             spaces Indent ++ "\x7d\n",
           { E with Counter := ShadowRegListNumber })

/-- Lines 252-276: `CCAssignToStack`. -/
def emitAssignToStack (R : ActionRecord) (Indent : Nat) (E : Emitter) :
    Except Failure (String × Emitter) :=
  let E1 := { E with Counter := nextCounter E.Counter }
  .ok (spaces Indent ++ "int64_t Offset" ++ toString E1.Counter ++
         " = State.AllocateStack(" ++ stackArgs Indent (toInt R.Size) (toInt R.Align) ++
         ");\n" ++
         spaces Indent ++ "State.addLoc(CCValAssign::getMem(ValNo, ValVT, Offset" ++
         toString E1.Counter ++ ", LocVT, LocInfo));\n" ++
         spaces Indent ++ "return false;\n",
       E1)

/-- Lines 277-298: `CCAssignToStackWithShadow`. The shadow registers are written into
an anonymous list. -/
def emitAssignToStackWithShadow (R : ActionRecord) (Indent : Nat) (E : Emitter) :
    Except Failure (String × Emitter) :=
  let ShadowRegListNumber := nextCounter E.Counter
  let E1 := { E with Counter := nextCounter ShadowRegListNumber }
  .ok (spaces Indent ++ "static const MCPhysReg ShadowRegList" ++
         toString ShadowRegListNumber ++ "[] = \x7b\n" ++
         spaces Indent ++ "  " ++ commaList R.ShadowRegList ++
         "\n" ++ spaces Indent ++ "\x7d;\n" ++
         spaces Indent ++ "int64_t Offset" ++ toString E1.Counter ++
         " = State.AllocateStack(" ++ toString (toInt R.Size) ++ ", Align(" ++
         toString (toInt R.Align) ++ "), " ++
         "ShadowRegList" ++ toString ShadowRegListNumber ++ ");\n" ++
         spaces Indent ++ "State.addLoc(CCValAssign::getMem(ValNo, ValVT, Offset" ++
         toString E1.Counter ++ ", LocVT, LocInfo));\n" ++
         spaces Indent ++ "return false;\n",
       E1)

/-- Lines 299-312: `CCPromoteToType`. -/
def emitPromoteToType (R : ActionRecord) (Indent : Nat) (E : Emitter) :
    Except Failure (String × Emitter) :=
  .ok (spaces Indent ++ "LocVT = " ++ R.DestTy.EnumName ++ ";\n" ++
         (if R.DestTy.isFloatingPoint then
            spaces Indent ++ "LocInfo = CCValAssign::FPExt;\n"
          else
            spaces Indent ++ "if (ArgFlags.isSExt())\n" ++
            spaces Indent ++ "  LocInfo = CCValAssign::SExt;\n" ++
            spaces Indent ++ "else if (ArgFlags.isZExt())\n" ++
            spaces Indent ++ "  LocInfo = CCValAssign::ZExt;\n" ++
            spaces Indent ++ "else\n" ++
            spaces Indent ++ "  LocInfo = CCValAssign::AExt;\n"),
       E)

/-- Lines 313-328: `CCPromoteToUpperBitsInType`. -/
def emitPromoteToUpperBitsInType (R : ActionRecord) (Indent : Nat) (E : Emitter) :
    Except Failure (String × Emitter) :=
  if R.DestTy.isFloatingPoint then
    .error (.fatal "CCPromoteToUpperBitsInType does not handle floating point")
  else
    .ok (spaces Indent ++ "LocVT = " ++ R.DestTy.EnumName ++ ";\n" ++
           spaces Indent ++ "if (ArgFlags.isSExt())\n" ++
           spaces Indent ++ "  LocInfo = CCValAssign::SExtUpper;\n" ++
           spaces Indent ++ "else if (ArgFlags.isZExt())\n" ++
           spaces Indent ++ "  LocInfo = CCValAssign::ZExtUpper;\n" ++
           spaces Indent ++ "else\n" ++
           spaces Indent ++ "  LocInfo = CCValAssign::AExtUpper;\n",
         E)

/-- Lines 329-340: `CCBitConvertToType`, `CCTruncToType` and `CCPassIndirect`, which
differ in the `LocInfo` they set. -/
def emitConvert (LocInfo : String) (R : ActionRecord) (Indent : Nat) (E : Emitter) :
    Except Failure (String × Emitter) :=
  .ok (spaces Indent ++ "LocVT = " ++ R.DestTy.EnumName ++ ";\n" ++
         spaces Indent ++ "LocInfo = CCValAssign::" ++ LocInfo ++ ";\n", E)

/-- Lines 341-346: `CCPassByVal`. -/
def emitPassByVal (R : ActionRecord) (Indent : Nat) (E : Emitter) :
    Except Failure (String × Emitter) :=
  .ok (spaces Indent ++ "State.HandleByVal(ValNo, ValVT, LocVT, LocInfo, " ++
         toString (toInt R.Size) ++ ", Align(" ++ toString (toInt R.Align) ++
         "), ArgFlags);\n" ++
         spaces Indent ++ "return false;\n", E)

/-- Lines 347-351: `CCCustom`. -/
def emitCustom (R : ActionRecord) (Indent : Nat) (E : Emitter) :
    Except Failure (String × Emitter) :=
  .ok (spaces Indent ++ "if (" ++ R.FuncName ++ "(ValNo, ValVT, " ++
         "LocVT, LocInfo, ArgFlags, State))\n" ++
         spaces Indent ++ "  return false;\n", E)

/-- The `else` branch of `emitAction` (lines 150-356): the chain of `isSubClassOf` tests
for every action that is not a `CCPredicateAction`. -/
def emitNonPredicateAction (R : ActionRecord) (Indent : Nat) (E : Emitter) :
    Except Failure (String × Emitter) :=
  if R.isSubClassOf "CCDelegateTo" then emitDelegateTo R Indent E
  else if R.isSubClassOf "CCAssignToReg" ∨ R.isSubClassOf "CCAssignToRegAndStack" then
    emitAssignToReg R Indent E
  else if R.isSubClassOf "CCAssignToRegWithShadow" then emitAssignToRegWithShadow R Indent E
  else if R.isSubClassOf "CCAssignToStack" then emitAssignToStack R Indent E
  else if R.isSubClassOf "CCAssignToStackWithShadow" then
    emitAssignToStackWithShadow R Indent E
  else if R.isSubClassOf "CCPromoteToType" then emitPromoteToType R Indent E
  else if R.isSubClassOf "CCPromoteToUpperBitsInType" then
    emitPromoteToUpperBitsInType R Indent E
  else if R.isSubClassOf "CCBitConvertToType" then emitConvert "BCvt" R Indent E
  else if R.isSubClassOf "CCTruncToType" then emitConvert "Trunc" R Indent E
  else if R.isSubClassOf "CCPassIndirect" then emitConvert "Indirect" R Indent E
  else if R.isSubClassOf "CCPassByVal" then emitPassByVal R Indent E
  else if R.isSubClassOf "CCCustom" then emitCustom R Indent E
  else .error (.fatal "Unknown CCAction!")

/-- `CallingConvEmitter::emitAction`. A predicate action writes its condition and then
emits its `SubAction` two columns further in; a predicate record without a `SubAction`
field makes `getValueAsDef` end the run. Text written before a failure is dropped with
the run. -/
def emitAction : Action → Nat → Emitter → Except Failure (String × Emitter)
  | .sub R SubAction, Indent, E =>
    if R.isSubClassOf "CCPredicateAction" then
      match predicateCondition R Indent with
      | .error F => .error F
      | .ok Cond =>
        match emitAction SubAction (Indent + 2) E with
        | .error F => .error F
        | .ok (Body, E1) =>
          .ok (spaces Indent ++ "if (" ++ Cond ++ ") \x7b\n" ++ Body ++
                 spaces Indent ++ "\x7d\n", E1)
    else emitNonPredicateAction R Indent E
  | .leaf R, Indent, E =>
    if R.isSubClassOf "CCPredicateAction" then
      match predicateCondition R Indent with
      | .error F => .error F
      | .ok _ => .error (.fatal "Record does not have a field named SubAction!")
    else emitNonPredicateAction R Indent E

/-! ## emitCallingConv -/

/-- The test of lines 112-116: some superclass name starts with `CCIfSwift`. -/
def isSwiftAction (A : Action) : Bool :=
  A.record.SuperClasses.any startsWithCCIfSwift

/-- The loop of lines 110-120 over the actions of a convention: `SwiftAction` is set
from the action of the list, then the action is emitted at indent 2. -/
def emitActions : List Action → Emitter → Except Failure (String × Emitter)
  | [], E => .ok ("", E)
  | A :: Rest, E =>
    match emitAction A 2 { E with SwiftAction := isSwiftAction A } with
    | .error F => .error F
    | .ok (Text, E1) =>
      match emitActions Rest E1 with
      | .error F => .error F
      | .ok (More, E2) => .ok ("\n" ++ Text ++ More, E2)

/-- The linkage, name and parameter list shared by a prototype and the header of a
body, up to the closing parenthesis. -/
def signature (Name : String) (Entry : Bool) : String :=
  let Pad := (Name.utf8ByteSize + (if Entry then 12 else 13)) % 4294967296
  (if Entry then "bool llvm::" else "static bool ") ++
  Name ++ "(unsigned ValNo, MVT ValVT,\n" ++
  spaces Pad ++ "MVT LocVT, CCValAssign::LocInfo LocInfo,\n" ++
  spaces Pad ++ "ISD::ArgFlagsTy ArgFlags, CCState &State)"

/-- `CallingConvEmitter::emitCallingConv`. -/
def emitCallingConv (CC : CallingConv) (E : Emitter) : Except Failure (String × Emitter) :=
  let E1 : Emitter :=
    { E with
      Counter := 0
      CurrentAction := CC.Name
      AssignedRegsMap := mapSubscript CC.Name (fun _ => []) E.AssignedRegsMap }
  match emitActions CC.Actions E1 with
  | .error F => .error F
  | .ok (Body, E2) =>
    .ok ("\n\n" ++ signature CC.Name CC.Entry ++ " \x7b\n" ++ Body ++
           "\n  return true; // CC didn't match.\n" ++ "\x7d\n", E2)

/-! ## emitArgRegisterLists -/

/-- The `for (auto &InnerEntry : Worklist)` loop of lines 376-386 for the resolved
convention `CCName`: every entry still listing `CCName` receives the registers of
`CCName` and loses `CCName` from its set. -/
def mergeInto (CCName : String) :
    List (String × StringSet) → StringSetMap → List (String × StringSet) × StringSetMap
  | [], Assigned => ([], Assigned)
  | (InnerCCName, InnerRegisters) :: Worklist, Assigned =>
    if CCName ∈ InnerRegisters then
      let Assigned1 := mapSubscript CCName id Assigned
      let Src := usage Assigned1 CCName
      let Assigned2 := mapSubscript InnerCCName (setInsertRange Src) Assigned1
      let Rest := mergeInto CCName Worklist Assigned2
      ((InnerCCName, setErase CCName InnerRegisters) :: Rest.1, Rest.2)
    else
      let Rest := mergeInto CCName Worklist Assigned
      ((InnerCCName, InnerRegisters) :: Rest.1, Rest.2)

/-- The `while (!Worklist.empty())` loop of lines 367-390. Each iteration pops one
entry and uses one unit of fuel; the result carries `Redo`, and is `none` when the fuel
is used up before the worklist is empty. -/
def drainWorklist :
    Nat → List (String × StringSet) → Emitter → Bool → Option (Emitter × Bool)
  | _, [], E, Redo => some (E, Redo)
  | 0, _ :: _, _, _ => none
  | fuel + 1, (CCName, Registers) :: Worklist, E, Redo =>
    if Registers ≠ [] then drainWorklist fuel Worklist E Redo
    else
      let Merged := mergeInto CCName Worklist E.AssignedRegsMap
      drainWorklist fuel Merged.1
        { E with
          AssignedRegsMap := Merged.2
          DelegateToMap := mapErase CCName E.DelegateToMap }
        true

/-- One pass of the `do` body (lines 364-390): the worklist is a copy of `DelegateToMap`. -/
def resolvePass (fuel : Nat) (E : Emitter) : Option (Emitter × Bool) :=
  drainWorklist fuel E.DelegateToMap E false

/-- The `do ... while (Redo)` loop of lines 363-391. `fuel` bounds the number of passes,
and what is left of it bounds the iterations of the while loop of each pass. -/
def resolveDelegates : Nat → Emitter → Option Emitter
  | 0, _ => none
  | fuel + 1, E =>
    match resolvePass (fuel + 1) E with
    | none => none
    | some (E1, true) => resolveDelegates fuel E1
    | some (E1, false) => some E1

/-- One entry of the primary table (lines 398-416); nothing for an empty name. -/
def argRegsEntry (Entry : String × StringSet) : String :=
  if Entry.1.isEmpty then ""
  else
    "const MCRegister " ++ Entry.1 ++ "_ArgRegs[] = \x7b " ++
    (if Entry.2 = [] then "0" else commaList Entry.2) ++ " \x7d;\n"

/-- One entry of the Swift table (lines 422-433). -/
def swiftArgRegsEntry (Entry : String × StringSet) : String :=
  "const MCRegister " ++ Entry.1 ++ "_Swift_ArgRegs[] = \x7b " ++
  commaList Entry.2 ++ " \x7d;\n"

/-- The text written by lines 393-433 from the resolved maps. -/
def emitTables (E : Emitter) : String :=
  if E.AssignedRegsMap = [] then ""
  else
    "\n#else\n\n" ++ String.join (E.AssignedRegsMap.map argRegsEntry) ++
    (if E.AssignedSwiftRegsMap = [] then ""
     else
       "\n// Registers used by Swift.\n" ++
       String.join (E.AssignedSwiftRegsMap.map swiftArgRegsEntry))

/-- `CallingConvEmitter::emitArgRegisterLists`: resolution of the delegations, then the
tables. -/
def emitArgRegisterLists (fuel : Nat) (E : Emitter) : Option (String × Emitter) :=
  match resolveDelegates fuel E with
  | none => none
  | some E1 => some (emitTables E1, E1)

/-! ## run -/

/-- The loop of lines 57-72: a prototype for every convention that is not `Custom`. -/
def emitPrototypes : List CallingConv → String
  | [] => ""
  | CC :: CCs =>
    (if CC.Custom then "" else signature CC.Name CC.Entry ++ ";\n") ++ emitPrototypes CCs

/-- The loop of lines 76-80: the full description of every convention that is not
`Custom`, in order. -/
def emitDescriptions : List CallingConv → Emitter → Except Failure (String × Emitter)
  | [], E => .ok ("", E)
  | CC :: CCs, E =>
    if CC.Custom then emitDescriptions CCs E
    else
      match emitCallingConv CC E with
      | .error F => .error F
      | .ok (Text, E1) =>
        match emitDescriptions CCs E1 with
        | .error F => .error F
        | .ok (More, E2) => .ok (Text ++ More, E2)

/-- `CallingConvEmitter::run` on a fresh emitter. `Header` is the text of
`emitSourceFileHeader`, declared outside this file. The result is an error when a fatal
error ended the run, `none` when the resolution loop did not come to an end within
`fuel` passes, and the whole output otherwise. -/
def run (Header : String) (fuel : Nat) (CCs : List CallingConv) :
    Except Failure (Option String) :=
  match emitDescriptions CCs {} with
  | .error F => .error F
  | .ok (Descriptions, E) =>
    match emitArgRegisterLists fuel E with
    | none => .ok none
    | some (Tables, _) =>
      .ok (some (Header ++ "#ifndef GET_CC_REGISTER_LISTS\n\n" ++ emitPrototypes CCs ++
        Descriptions ++ Tables ++ "\n#endif // CC_REGISTER_LIST\n"))

/-- The emitter as `run` holds it at line 82, after the descriptions of `CCs` were emitted
from a fresh emitter. -/
def synthesized (CCs : List CallingConv) : Option Emitter :=
  match emitDescriptions CCs {} with
  | .error _ => none
  | .ok (_, E) => some E

/-- The emitter as `run` holds it at line 393, after the delegations were resolved. -/
def resolved (fuel : Nat) (CCs : List CallingConv) : Option Emitter :=
  match synthesized CCs with
  | none => none
  | some E => resolveDelegates fuel E

/-! ## Reading the action tree -/

/-- The branch of `emitAction` a record takes: the first class, in the order of the
`isSubClassOf` tests, that the record derives from. -/
inductive ActionKind where
  | PredicateAction
  | DelegateTo
  | AssignToReg
  | AssignToRegWithShadow
  | AssignToStack
  | AssignToStackWithShadow
  | PromoteToType
  | PromoteToUpperBitsInType
  | BitConvertToType
  | TruncToType
  | PassIndirect
  | PassByVal
  | Custom
  | Unknown
deriving DecidableEq, Repr

/-- The kind of a record. `CCAssignToReg` and `CCAssignToRegAndStack` (register
assignment without and with a stack fallback) share a branch. -/
def ActionRecord.kind (R : ActionRecord) : ActionKind :=
  if R.isSubClassOf "CCPredicateAction" then .PredicateAction
  else if R.isSubClassOf "CCDelegateTo" then .DelegateTo
  else if R.isSubClassOf "CCAssignToReg" ∨ R.isSubClassOf "CCAssignToRegAndStack" then
    .AssignToReg
  else if R.isSubClassOf "CCAssignToRegWithShadow" then .AssignToRegWithShadow
  else if R.isSubClassOf "CCAssignToStack" then .AssignToStack
  else if R.isSubClassOf "CCAssignToStackWithShadow" then .AssignToStackWithShadow
  else if R.isSubClassOf "CCPromoteToType" then .PromoteToType
  else if R.isSubClassOf "CCPromoteToUpperBitsInType" then .PromoteToUpperBitsInType
  else if R.isSubClassOf "CCBitConvertToType" then .BitConvertToType
  else if R.isSubClassOf "CCTruncToType" then .TruncToType
  else if R.isSubClassOf "CCPassIndirect" then .PassIndirect
  else if R.isSubClassOf "CCPassByVal" then .PassByVal
  else if R.isSubClassOf "CCCustom" then .Custom
  else .Unknown

/-- What `emitAction` does for a record that is not a predicate action, by the kind of
the record (the predicate kind does not occur for such a record; it is given the
failure of an unknown predicate). -/
def emitByKind (R : ActionRecord) (Indent : Nat) (E : Emitter) :
    ActionKind → Except Failure (String × Emitter)
  | .PredicateAction => .error (.fatal "Unknown CCPredicateAction!")
  | .DelegateTo => emitDelegateTo R Indent E
  | .AssignToReg => emitAssignToReg R Indent E
  | .AssignToRegWithShadow => emitAssignToRegWithShadow R Indent E
  | .AssignToStack => emitAssignToStack R Indent E
  | .AssignToStackWithShadow => emitAssignToStackWithShadow R Indent E
  | .PromoteToType => emitPromoteToType R Indent E
  | .PromoteToUpperBitsInType => emitPromoteToUpperBitsInType R Indent E
  | .BitConvertToType => emitConvert "BCvt" R Indent E
  | .TruncToType => emitConvert "Trunc" R Indent E
  | .PassIndirect => emitConvert "Indirect" R Indent E
  | .PassByVal => emitPassByVal R Indent E
  | .Custom => emitCustom R Indent E
  | .Unknown => .error (.fatal "Unknown CCAction!")

/-- The actions of a tree: the action itself and, beneath a predicate action, the
actions of its `SubAction`. -/
def Action.nested : Action → List Action
  | .leaf R => [.leaf R]
  | .sub R SubAction =>
    .sub R SubAction ::
      (if R.isSubClassOf "CCPredicateAction" then SubAction.nested else [])

/-- An action of unknown kind: no class of the chain applies, or the record is a
predicate action that is neither a `CCIfType` nor a `CCIf`. -/
def Action.isUnknown (A : Action) : Prop :=
  A.record.kind = .Unknown ∨
  (A.record.kind = .PredicateAction ∧ A.record.isSubClassOf "CCIfType" = false ∧
    A.record.isSubClassOf "CCIf" = false)

instance Action.isUnknownDecidable (A : Action) : Decidable A.isUnknown :=
  inferInstanceAs (Decidable (_ ∨ _))

/-- The registers named in the `RegList` of the register-assigning actions
(`CCAssignToReg`, `CCAssignToRegAndStack`) of a tree. -/
def Action.assignedRegs (A : Action) : List String :=
  A.nested.flatMap (fun N => if N.record.kind = .AssignToReg then N.record.RegList else [])

/-- Relation between the emitter before and after an action was emitted: `Names` were
recorded for the current convention in the map chosen by `SwiftAction`, and nothing
else changed in the two usage maps. -/
def Recorded (E E1 : Emitter) (Names : List String) : Prop :=
  E1.CurrentAction = E.CurrentAction ∧ E1.SwiftAction = E.SwiftAction ∧
  (∀ k, k ≠ E.CurrentAction →
    mapFind k E1.AssignedRegsMap = mapFind k E.AssignedRegsMap ∧
    mapFind k E1.AssignedSwiftRegsMap = mapFind k E.AssignedSwiftRegsMap) ∧
  (E.SwiftAction = true →
    E1.AssignedRegsMap = E.AssignedRegsMap ∧
    ∀ r, r ∈ usage E1.AssignedSwiftRegsMap E.CurrentAction ↔
      r ∈ usage E.AssignedSwiftRegsMap E.CurrentAction ∨ r ∈ Names) ∧
  (E.SwiftAction = false →
    E1.AssignedSwiftRegsMap = E.AssignedSwiftRegsMap ∧
    ∀ r, r ∈ usage E1.AssignedRegsMap E.CurrentAction ↔
      r ∈ usage E.AssignedRegsMap E.CurrentAction ∨ r ∈ Names)

/-! ## Sample records -/

/-- A `CCDelegateTo<CC>` record. -/
def delegateTo (CC : String) : Action :=
  .leaf { SuperClasses := ["CCAction", "CCDelegateTo"], CC := CC }

/-- A `CCAssignToReg<RegList>` record. -/
def assignToReg (RegList : List String) : Action :=
  .leaf { SuperClasses := ["CCAction", "CCAssignToReg"], RegList := RegList }

/-- A `CCAssignToRegWithShadow<RegList, ShadowRegList>` record. -/
def assignToRegWithShadow (RegList ShadowRegList : List String) : Action :=
  .leaf { SuperClasses := ["CCAction", "CCAssignToRegWithShadow"],
          RegList := RegList, ShadowRegList := ShadowRegList }

/-- A `CCAssignToStackWithShadow<Size, Align, ShadowRegList>` record. -/
def assignToStackWithShadow (Size Align : Int) (ShadowRegList : List String) : Action :=
  .leaf { SuperClasses := ["CCAction", "CCAssignToStackWithShadow"],
          Size := Size, Align := Align, ShadowRegList := ShadowRegList }

/-- A `CCPromoteToUpperBitsInType<DestTy>` record. -/
def promoteToUpperBitsInType (DestTy : ValueType) : Action :=
  .leaf { SuperClasses := ["CCAction", "CCPromoteToUpperBitsInType"], DestTy := DestTy }

/-- A `CCIfType<VTs, SubAction>` record. -/
def ifType (VTs : List ValueType) (SubAction : Action) : Action :=
  .sub { SuperClasses := ["CCAction", "CCPredicateAction", "CCIfType"], VTs := VTs } SubAction

/-- A `CCIfSwiftSelf<SubAction>` record; the class derives from `CCIf`. -/
def ifSwiftSelf (SubAction : Action) : Action :=
  .sub { SuperClasses := ["CCAction", "CCPredicateAction", "CCIf", "CCIfSwiftSelf"],
         Predicate := "ArgFlags.isSwiftSelf()" } SubAction

/-- A record of a class the emitter does not know. -/
def unknownAction : Action :=
  .leaf { SuperClasses := ["CCAction", "CCSomethingElse"] }

/-- The value type `i64`. -/
def i64 : ValueType := ⟨"MVT::i64", false⟩

/-- The value type `f64`. -/
def f64 : ValueType := ⟨"MVT::f64", true⟩

/-- Conventions `CC_A` delegating to `CC_B`, which assigns from `R2`, `R3`. -/
def delegatePair : List CallingConv :=
  [ { Name := "CC_A", Actions := [delegateTo "CC_B"] },
    { Name := "CC_B", Actions := [assignToReg ["R2", "R3"]] } ]

/-- The chain `A`, `B`, `C`, each delegating to the next; only `C` names `R9`. -/
def delegateChain : List CallingConv :=
  [ { Name := "A", Actions := [delegateTo "B"] },
    { Name := "B", Actions := [delegateTo "C"] },
    { Name := "C", Actions := [assignToReg ["R9"]] } ]

/-- Convention `CC_W` with the single action `CCAssignToRegWithShadow<[R4, R5], [S4, S5]>`. -/
def shadowedAssign : List CallingConv :=
  [ { Name := "CC_W", Actions := [assignToRegWithShadow ["R4", "R5"] ["S4", "S5"]] } ]

/-- Convention `CC_S` with the single action `CCAssignToStackWithShadow<8, 8, [S1]>`. -/
def stackWithShadow : List CallingConv :=
  [ { Name := "CC_S", Actions := [assignToStackWithShadow 8 8 ["S1"]] } ]

/-- Convention `CC_X` assigning `X20` beneath a top-level `CCIfSwiftSelf` and `R0`, `R1`
at top level. -/
def mixedAssign : List CallingConv :=
  [ { Name := "CC_X",
      Actions := [ifSwiftSelf (ifType [i64] (assignToReg ["X20"])), assignToReg ["R0", "R1"]] } ]

/-- A valid convention followed by one that holds an unknown action beneath two
predicates. -/
def unknownNested : List CallingConv :=
  [ { Name := "CC_B", Actions := [assignToReg ["R2", "R3"]] },
    { Name := "CC_U", Actions := [ifType [i64] (ifSwiftSelf unknownAction)] } ]

/-- Convention `C` delegating to `D`, whose only register `X20` is assigned beneath a
top-level `CCIfSwiftSelf`. -/
def swiftDelegate : List CallingConv :=
  [ { Name := "C", Actions := [delegateTo "D"] },
    { Name := "D", Actions := [ifSwiftSelf (assignToReg ["X20"])] } ]

/-- Conventions `A` and `B` that delegate to each other. -/
def mutualDelegation : List CallingConv :=
  [ { Name := "A", Actions := [delegateTo "B"] },
    { Name := "B", Actions := [delegateTo "A"] } ]

/-- Convention `CC_V` with the single action `CCAssignToRegWithShadow<[R4], []>`: one
register and no shadow register. -/
def singleWithoutShadow : List CallingConv :=
  [ { Name := "CC_V", Actions := [assignToRegWithShadow ["R4"] []] } ]

/-- Convention `CC_E` whose only action is a `CCIfSwiftSelf` over a `CCAssignToReg` with
an empty register list. -/
def emptySwiftList : List CallingConv :=
  [ { Name := "CC_E", Actions := [ifSwiftSelf (assignToReg [])] } ]

/-- The emitter synthesis leaves for `emptySwiftList`. -/
def emptySwiftListEmitter : Emitter :=
  { Counter := 1, CurrentAction := "CC_E", SwiftAction := true,
    AssignedRegsMap := [("CC_E", [])], AssignedSwiftRegsMap := [], DelegateToMap := [] }

/-- An externally implemented convention `CC_C` followed by the entry point `CC_B`. -/
def customAndEntry : List CallingConv :=
  [ { Name := "CC_C", Custom := true, Actions := [assignToReg ["R7"]] },
    { Name := "CC_B", Entry := true, Actions := [assignToReg ["R2", "R3"]] } ]

/-- The emitter synthesis leaves for `customAndEntry`. -/
def customAndEntryEmitter : Emitter :=
  { Counter := 1, CurrentAction := "CC_B", SwiftAction := false,
    AssignedRegsMap := [("CC_B", ["R2", "R3"])], AssignedSwiftRegsMap := [],
    DelegateToMap := [] }

/-- `R1` is the record `R` with the registers of its `RegList` and of its
`ShadowRegList` named in another order. -/
def ActionRecord.Reordered (R R1 : ActionRecord) : Prop :=
  R1 = { R with RegList := R1.RegList, ShadowRegList := R1.ShadowRegList } ∧
  R.RegList.Perm R1.RegList ∧ R.ShadowRegList.Perm R1.ShadowRegList

/-- The same action tree up to the order in which each action names its registers. -/
inductive Action.Reordered : Action → Action → Prop where
  | leaf {R R1 : ActionRecord} : R.Reordered R1 → Action.Reordered (.leaf R) (.leaf R1)
  | sub {R R1 : ActionRecord} {S S1 : Action} :
    R.Reordered R1 → Action.Reordered S S1 → Action.Reordered (.sub R S) (.sub R1 S1)

/-- The same convention up to the order in which its actions name their registers. -/
def CallingConv.Reordered (CC CC1 : CallingConv) : Prop :=
  CC1.Name = CC.Name ∧ CC1.Custom = CC.Custom ∧ CC1.Entry = CC.Entry ∧
  List.Forall₂ Action.Reordered CC.Actions CC1.Actions

/-- The rule set `CCs1` declares the conventions of `CCs` in another order, their
actions naming their registers in another order. -/
def Rearranged (CCs CCs1 : List CallingConv) : Prop :=
  ∃ Mid, List.Forall₂ CallingConv.Reordered CCs Mid ∧ Mid.Perm CCs1

/-- Conventions `CC_A`, assigning from `R1`, `R2`, and `CC_B`, assigning `X20` beneath a
`CCIfSwiftSelf`. -/
def declaredFirst : List CallingConv :=
  [ { Name := "CC_A", Actions := [assignToReg ["R1", "R2"]] },
    { Name := "CC_B", Actions := [ifSwiftSelf (assignToReg ["X20"])] } ]

/-- The conventions of `declaredFirst` in the other order, `CC_A` naming its registers
in the other order. -/
def declaredSecond : List CallingConv :=
  [ { Name := "CC_B", Actions := [ifSwiftSelf (assignToReg ["X20"])] },
    { Name := "CC_A", Actions := [assignToReg ["R2", "R1"]] } ]

/-- The emitter synthesis leaves for `declaredFirst`. -/
def declaredFirstEmitter : Emitter :=
  { Counter := 0, CurrentAction := "CC_B", SwiftAction := true,
    AssignedRegsMap := [("CC_A", ["R1", "R2"]), ("CC_B", [])],
    AssignedSwiftRegsMap := [("CC_B", ["X20"])], DelegateToMap := [] }

/-- The values `++Counter` yields, in order, while an action that is not a predicate is
emitted with the counter at `Counter`: one for the list of a multi-register
`CCAssignToReg` (line 169), two for the two lists of a multi-register
`CCAssignToRegWithShadow` (lines 225-226), one for the offset of a `CCAssignToStack`
(line 256), two for the shadow list and the offset of a `CCAssignToStackWithShadow`
(lines 283, 293). -/
def numbersByKind (R : ActionRecord) (Counter : Nat) : ActionKind → List Nat
  | .AssignToReg => if R.RegList.length = 1 then [] else [nextCounter Counter]
  | .AssignToRegWithShadow =>
    if R.RegList.length = 1 then []
    else [nextCounter Counter, nextCounter (nextCounter Counter)]
  | .AssignToStack => [nextCounter Counter]
  | .AssignToStackWithShadow => [nextCounter Counter, nextCounter (nextCounter Counter)]
  | _ => []

/-- The numbers given to anonymous constants while an action tree is emitted with the
counter at `Counter`: those of the action beneath its predicates. -/
def Action.numbers : Action → Nat → List Nat
  | .leaf R, Counter => numbersByKind R Counter R.kind
  | .sub R SubAction, Counter =>
    if R.isSubClassOf "CCPredicateAction" then SubAction.numbers Counter
    else numbersByKind R Counter R.kind

/-- The numbers given to anonymous constants while the actions of a convention are
emitted in order, the counter moving on to the last number given. -/
def numbersOfActions : List Action → Nat → List Nat
  | [], _ => []
  | A :: Rest, Counter =>
    A.numbers Counter ++ numbersOfActions Rest ((A.numbers Counter).getLastD Counter)

/-- The `K` numbers that follow `Counter` in 32-bit unsigned arithmetic. -/
def following (Counter K : Nat) : List Nat :=
  (List.range' 1 K).map (fun i => (Counter + i) % 4294967296)

/-- A convention `CC_K` of 2147483649 actions `CCAssignToStackWithShadow<8, 8, [S1]>`,
each of which numbers two constants. -/
def manyStackActions : CallingConv :=
  { Name := "CC_K", Actions := List.replicate 2147483649 (assignToStackWithShadow 8 8 ["S1"]) }

/-- Convention `CC_M`: a multi-register assignment, a stack assignment with shadow
registers beneath a predicate, and a stack assignment. -/
def numberedActions : CallingConv :=
  { Name := "CC_M",
    Actions := [assignToReg ["R0", "R1"], ifType [i64] (assignToStackWithShadow 8 8 ["S1"]),
                .leaf { SuperClasses := ["CCAction", "CCAssignToStack"], Size := 4, Align := 4 }] }

/-- The number of anonymous constants an action that is not a predicate declares: one
list for a multi-register `CCAssignToReg`, two lists for a multi-register
`CCAssignToRegWithShadow`, one offset for a `CCAssignToStack`, a list and an offset for
a `CCAssignToStackWithShadow`, none otherwise. -/
def constantsByKind (R : ActionRecord) : ActionKind → Nat
  | .AssignToReg => if R.RegList.length = 1 then 0 else 1
  | .AssignToRegWithShadow => if R.RegList.length = 1 then 0 else 2
  | .AssignToStack => 1
  | .AssignToStackWithShadow => 2
  | _ => 0

/-- The number of anonymous constants an action tree declares: those of the action
beneath its predicates. -/
def Action.constants : Action → Nat
  | .leaf R => constantsByKind R R.kind
  | .sub R SubAction =>
    if R.isSubClassOf "CCPredicateAction" then SubAction.constants
    else constantsByKind R R.kind

/-- The number of anonymous constants the actions of a convention declare. -/
def constantsOfActions : List Action → Nat
  | [] => 0
  | A :: Rest => A.constants + constantsOfActions Rest

/-- The text of an action that declares no anonymous constant: what the emitter writes
for it from a fresh state. -/
def unnumberedText (R : ActionRecord) (Indent : Nat) (K : ActionKind) : String :=
  match emitByKind R Indent {} K with
  | .ok (Text, _) => Text
  | .error _ => ""

/-- The specification's numbering, for an action that is not a predicate: the text of
the action when its anonymous constants carry the natural numbers `N` and, for a second
constant, `N + 1`, whatever the counter of the emitter. -/
def numberedByKind (R : ActionRecord) (Indent N : Nat) : ActionKind → String
  | .AssignToReg =>
    if R.RegList.length = 1 then unnumberedText R Indent .AssignToReg
    else
      spaces Indent ++ "static const MCPhysReg RegList" ++ toString N ++ "[] = \x7b\n" ++
      spaces Indent ++ "  " ++ String.intercalate ", " R.RegList ++
      "\n" ++ spaces Indent ++ "\x7d;\n" ++
      spaces Indent ++ "if (MCRegister Reg = State.AllocateReg(RegList" ++
      toString N ++ ")) \x7b\n" ++ assignToRegTail R Indent
  | .AssignToRegWithShadow =>
    if R.RegList.length = 1 then unnumberedText R Indent .AssignToRegWithShadow
    else
      spaces Indent ++ "static const MCPhysReg RegList" ++ toString N ++ "[] = \x7b\n" ++
      spaces Indent ++ "  " ++ String.intercalate ", " R.RegList ++
      "\n" ++ spaces Indent ++ "\x7d;\n" ++
      spaces Indent ++ "static const MCPhysReg RegList" ++ toString (N + 1) ++
      "[] = \x7b\n" ++
      spaces Indent ++ "  " ++ String.intercalate ", " R.ShadowRegList ++
      "\n" ++ spaces Indent ++ "\x7d;\n" ++
      spaces Indent ++ "if (MCRegister Reg = State.AllocateReg(RegList" ++
      toString N ++ ", " ++ "RegList" ++ toString (N + 1) ++ ")) \x7b\n" ++
      spaces Indent ++ "  State.addLoc(CCValAssign::getReg(ValNo, ValVT, " ++
      "Reg, LocVT, LocInfo));\n" ++
      spaces Indent ++ "  return false;\n" ++
      spaces Indent ++ "\x7d\n"
  | .AssignToStack =>
    spaces Indent ++ "int64_t Offset" ++ toString N ++
    " = State.AllocateStack(" ++ stackArgs Indent (toInt R.Size) (toInt R.Align) ++
    ");\n" ++
    spaces Indent ++ "State.addLoc(CCValAssign::getMem(ValNo, ValVT, Offset" ++
    toString N ++ ", LocVT, LocInfo));\n" ++
    spaces Indent ++ "return false;\n"
  | .AssignToStackWithShadow =>
    spaces Indent ++ "static const MCPhysReg ShadowRegList" ++ toString N ++
    "[] = \x7b\n" ++
    spaces Indent ++ "  " ++ String.intercalate ", " R.ShadowRegList ++
    "\n" ++ spaces Indent ++ "\x7d;\n" ++
    spaces Indent ++ "int64_t Offset" ++ toString (N + 1) ++
    " = State.AllocateStack(" ++ toString (toInt R.Size) ++ ", Align(" ++
    toString (toInt R.Align) ++ "), " ++
    "ShadowRegList" ++ toString N ++ ");\n" ++
    spaces Indent ++ "State.addLoc(CCValAssign::getMem(ValNo, ValVT, Offset" ++
    toString (N + 1) ++ ", LocVT, LocInfo));\n" ++
    spaces Indent ++ "return false;\n"
  | K => unnumberedText R Indent K

/-- The specification's numbering, for an action tree: the predicates around the action
are written as the emitter writes them, and the constants of the action carry the
numbers from `N` on. -/
def Action.numberedText : Action → Nat → Nat → String
  | .leaf R, Indent, N => numberedByKind R Indent N R.kind
  | .sub R SubAction, Indent, N =>
    if R.isSubClassOf "CCPredicateAction" then
      spaces Indent ++ "if (" ++
        (match predicateCondition R Indent with
         | .ok Cond => Cond
         | .error _ => "") ++
        ") \x7b\n" ++ SubAction.numberedText (Indent + 2) N ++ spaces Indent ++ "\x7d\n"
    else numberedByKind R Indent N R.kind

/-- The specification's numbering, for the actions of a convention: the first constant
of the first action carries `N`, and every action goes on from the number after the last
one of the action before it. -/
def numberedBody : List Action → Nat → String
  | [], _ => ""
  | A :: Rest, N => "\n" ++ A.numberedText 2 N ++ numberedBody Rest (N + A.constants)

/-! ## Lemmas on the containers -/

theorem strLess_irrefl (a : String) : ¬ strLess a a := lt_irrefl a.toList

theorem strLess_trans {a b c : String} (h₁ : strLess a b) (h₂ : strLess b c) :
    strLess a c := lt_trans (α := List Char) h₁ h₂

theorem strLess_asymm {a b : String} (h : strLess a b) : ¬ strLess b a :=
  lt_asymm (α := List Char) h

theorem strLess_total {a b : String} (h₁ : ¬ strLess a b) (h₂ : a ≠ b) : strLess b a := by
  rcases lt_trichotomy a.toList b.toList with h | h | h
  · exact absurd h h₁
  · exact absurd (String.ext h) h₂
  · exact h

theorem mem_setInsert (x y : String) (S : StringSet) :
    y ∈ setInsert x S ↔ y = x ∨ y ∈ S := by
  induction S with
  | nil => simp [setInsert]
  | cons z S ih =>
    unfold setInsert
    split_ifs with h₁ h₂
    · simp
    · subst h₂
      simp only [List.mem_cons]
      tauto
    · simp only [List.mem_cons, ih]
      tauto

theorem mapFind_mapSubscript_self (k : String) (f : StringSet → StringSet)
    (M : StringSetMap) :
    mapFind k (mapSubscript k f M) = some (f (usage M k)) := by
  induction M with
  | nil => simp [mapSubscript, mapFind, usage, strLess_irrefl]
  | cons e M ih =>
    obtain ⟨k', v⟩ := e
    unfold mapSubscript
    split_ifs with h₁ h₂
    · simp [mapFind, usage, strLess_irrefl, h₁]
    · subst h₂
      simp [mapFind, usage, strLess_irrefl]
    · simp only [mapFind, usage, h₁, h₂, if_false] at ih ⊢
      exact ih

theorem mapFind_mapSubscript_ne {k k' : String} (h : k ≠ k') (f : StringSet → StringSet)
    (M : StringSetMap) :
    mapFind k (mapSubscript k' f M) = mapFind k M := by
  induction M with
  | nil =>
    simp only [mapSubscript, mapFind, h, if_false]
    split_ifs <;> rfl
  | cons e M ih =>
    obtain ⟨k₀, v⟩ := e
    unfold mapSubscript
    split_ifs with h₁ h₂
    · by_cases hk : strLess k k'
      · simp [mapFind, hk, strLess_trans hk h₁]
      · have hk' : strLess k' k := strLess_total hk h
        by_cases hk₀ : strLess k k₀
        · simp [mapFind, hk, h, hk₀]
        · simp [mapFind, hk, h, hk₀]
    · subst h₂
      simp [mapFind, h]
    · simp only [mapFind, ih]

theorem usage_mapSubscript_self (k : String) (f : StringSet → StringSet)
    (M : StringSetMap) :
    usage (mapSubscript k f M) k = f (usage M k) := by
  simp [usage, mapFind_mapSubscript_self]

theorem usage_mapSubscript_ne {k k' : String} (h : k ≠ k') (f : StringSet → StringSet)
    (M : StringSetMap) :
    usage (mapSubscript k' f M) k = usage M k := by
  simp [usage, mapFind_mapSubscript_ne h]

theorem length_mapErase_le (k : String) (M : StringSetMap) :
    (mapErase k M).length ≤ M.length :=
  List.length_filter_le _ _

theorem length_mapErase_lt {k : String} {M : StringSetMap}
    (h : ∃ v, (k, v) ∈ M) : (mapErase k M).length < M.length := by
  obtain ⟨v, hv⟩ := h
  exact List.length_filter_lt_length_iff_exists.mpr ⟨(k, v), hv, by simp⟩

/-! ## Lemmas on the resolution loop -/

theorem mergeInto_length (CCName : String) (W : List (String × StringSet))
    (A : StringSetMap) : (mergeInto CCName W A).1.length = W.length := by
  induction W generalizing A with
  | nil => rfl
  | cons e W ih =>
    obtain ⟨k, v⟩ := e
    unfold mergeInto
    split_ifs <;> simp [ih]

theorem mergeInto_keys (CCName : String) (W : List (String × StringSet))
    (A : StringSetMap) : (mergeInto CCName W A).1.map Prod.fst = W.map Prod.fst := by
  induction W generalizing A with
  | nil => rfl
  | cons e W ih =>
    obtain ⟨k, v⟩ := e
    unfold mergeInto
    split_ifs <;> simp [ih]

theorem drainWorklist_nil (fuel : Nat) (E : Emitter) (Redo : Bool) :
    drainWorklist fuel [] E Redo = some (E, Redo) := by
  cases fuel <;> rfl

/-- The while loop touches neither the Swift map nor the scalar members. -/
theorem drainWorklist_frame (fuel : Nat) :
    ∀ (W : List (String × StringSet)) (E : Emitter) (Redo : Bool) (E1 : Emitter)
      (Redo1 : Bool), drainWorklist fuel W E Redo = some (E1, Redo1) →
      E1.AssignedSwiftRegsMap = E.AssignedSwiftRegsMap ∧ E1.Counter = E.Counter ∧
      E1.CurrentAction = E.CurrentAction ∧ E1.SwiftAction = E.SwiftAction := by
  induction fuel with
  | zero =>
    intro W E Redo E1 Redo1 h
    cases W with
    | nil =>
      rw [drainWorklist_nil] at h
      cases h
      exact ⟨rfl, rfl, rfl, rfl⟩
    | cons e W => simp [drainWorklist] at h
  | succ n ih =>
    intro W E Redo E1 Redo1 h
    cases W with
    | nil =>
      rw [drainWorklist_nil] at h
      cases h
      exact ⟨rfl, rfl, rfl, rfl⟩
    | cons e W =>
      obtain ⟨k, v⟩ := e
      unfold drainWorklist at h
      split_ifs at h with hv
      · exact ih _ _ _ _ _ h
      · have h2 := ih _ _ _ _ _ h
        exact h2

/-- The delegation map never grows in the while loop, and a loop that starts with
`Redo` unset over entries of the map and ends with `Redo` set has erased an entry. -/
theorem drainWorklist_measure (fuel : Nat) :
    ∀ (W : List (String × StringSet)) (E : Emitter) (Redo : Bool) (E1 : Emitter)
      (Redo1 : Bool), drainWorklist fuel W E Redo = some (E1, Redo1) →
      E1.DelegateToMap.length ≤ E.DelegateToMap.length ∧
      (Redo = false → (∀ k ∈ W.map Prod.fst, ∃ v, (k, v) ∈ E.DelegateToMap) →
        Redo1 = true → E1.DelegateToMap.length < E.DelegateToMap.length) := by
  induction fuel with
  | zero =>
    intro W E Redo E1 Redo1 h
    cases W with
    | nil =>
      rw [drainWorklist_nil] at h
      cases h
      exact ⟨le_refl _, fun h₁ _ h₂ => by simp [h₁] at h₂⟩
    | cons e W => simp [drainWorklist] at h
  | succ n ih =>
    intro W E Redo E1 Redo1 h
    cases W with
    | nil =>
      rw [drainWorklist_nil] at h
      cases h
      exact ⟨le_refl _, fun h₁ _ h₂ => by simp [h₁] at h₂⟩
    | cons e W =>
      obtain ⟨k, v⟩ := e
      unfold drainWorklist at h
      split_ifs at h with hv
      · obtain ⟨hle, hlt⟩ := ih _ _ _ _ _ h
        refine ⟨hle, fun h₁ hk h₂ => hlt h₁ (fun k' hk' => hk k' ?_) h₂⟩
        simp only [List.map_cons, List.mem_cons]
        exact Or.inr hk'
      · obtain ⟨hle, -⟩ := ih _ _ _ _ _ h
        simp only at hle
        refine ⟨le_trans hle (length_mapErase_le _ _), fun _ hk _ => ?_⟩
        exact lt_of_le_of_lt hle (length_mapErase_lt (hk k (by simp)))

/-- With one unit of fuel per worklist entry the while loop comes to its end. -/
theorem drainWorklist_some (fuel : Nat) :
    ∀ (W : List (String × StringSet)) (E : Emitter) (Redo : Bool), W.length ≤ fuel →
      ∃ E1 Redo1, drainWorklist fuel W E Redo = some (E1, Redo1) := by
  induction fuel with
  | zero =>
    intro W E Redo h
    cases W with
    | nil => exact ⟨E, Redo, rfl⟩
    | cons e W => simp at h
  | succ n ih =>
    intro W E Redo h
    cases W with
    | nil => exact ⟨E, Redo, rfl⟩
    | cons e W =>
      obtain ⟨k, v⟩ := e
      have hW : W.length ≤ n := by simpa using h
      unfold drainWorklist
      split_ifs with hv
      · exact ih _ _ _ hW
      · exact ih _ _ _ (by rw [mergeInto_length]; exact hW)

theorem resolvePass_lt {fuel : Nat} {E E1 : Emitter}
    (h : resolvePass fuel E = some (E1, true)) :
    E1.DelegateToMap.length < E.DelegateToMap.length := by
  refine (drainWorklist_measure fuel _ _ _ _ _ h).2 rfl (fun k hk => ?_) rfl
  obtain ⟨e, he, rfl⟩ := List.mem_map.mp hk
  exact ⟨e.2, he⟩

theorem resolvePass_le {fuel : Nat} {E E1 : Emitter} {Redo : Bool}
    (h : resolvePass fuel E = some (E1, Redo)) :
    E1.DelegateToMap.length ≤ E.DelegateToMap.length :=
  (drainWorklist_measure fuel _ _ _ _ _ h).1

/-- Fuel above the size of the delegation map brings the do-while loop to its end. -/
theorem resolveDelegates_some (fuel : Nat) :
    ∀ E : Emitter, E.DelegateToMap.length < fuel → ∃ E1, resolveDelegates fuel E = some E1 := by
  induction fuel with
  | zero => intro E h; simp at h
  | succ n ih =>
    intro E h
    obtain ⟨E1, Redo1, h1⟩ :=
      drainWorklist_some (n + 1) E.DelegateToMap E false (Nat.le_of_lt h)
    have h1' : resolvePass (n + 1) E = some (E1, Redo1) := h1
    unfold resolveDelegates
    rw [h1']
    cases Redo1 with
    | false => exact ⟨E1, rfl⟩
    | true =>
      have := resolvePass_lt h1'
      exact ih E1 (by omega)

/-- The do-while loop touches neither the Swift map nor the scalar members. -/
theorem resolveDelegates_frame (fuel : Nat) :
    ∀ E E1 : Emitter, resolveDelegates fuel E = some E1 →
      E1.AssignedSwiftRegsMap = E.AssignedSwiftRegsMap ∧ E1.Counter = E.Counter ∧
      E1.CurrentAction = E.CurrentAction ∧ E1.SwiftAction = E.SwiftAction := by
  induction fuel with
  | zero => intro E E1 h; simp [resolveDelegates] at h
  | succ n ih =>
    intro E E1 h
    unfold resolveDelegates at h
    split at h
    · cases h
    · rename_i E2 h2
      obtain ⟨a, b, c, d⟩ := drainWorklist_frame _ _ _ _ _ _ h2
      obtain ⟨a', b', c', d'⟩ := ih _ _ h
      exact ⟨a'.trans a, b'.trans b, c'.trans c, d'.trans d⟩
    · rename_i E2 h2
      cases h
      exact drainWorklist_frame _ _ _ _ _ _ h2

/-! ## Lemmas on what an action records -/

theorem Recorded.same {E E1 : Emitter} (h₁ : E1.CurrentAction = E.CurrentAction)
    (h₂ : E1.SwiftAction = E.SwiftAction) (h₃ : E1.AssignedRegsMap = E.AssignedRegsMap)
    (h₄ : E1.AssignedSwiftRegsMap = E.AssignedSwiftRegsMap) : Recorded E E1 [] := by
  refine ⟨h₁, h₂, fun k _ => ?_, fun _ => ⟨h₃, fun r => ?_⟩, fun _ => ⟨h₄, fun r => ?_⟩⟩
  · rw [h₃, h₄]
    exact ⟨rfl, rfl⟩
  · rw [h₄]
    simp
  · rw [h₃]
    simp

theorem Recorded.trans {E E1 E2 : Emitter} {N₁ N₂ : List String}
    (h₁ : Recorded E E1 N₁) (h₂ : Recorded E1 E2 N₂) : Recorded E E2 (N₁ ++ N₂) := by
  obtain ⟨a₁, b₁, c₁, d₁, e₁⟩ := h₁
  obtain ⟨a₂, b₂, c₂, d₂, e₂⟩ := h₂
  rw [a₁] at c₂ d₂ e₂
  rw [b₁] at d₂ e₂
  refine ⟨a₂.trans a₁, b₂.trans b₁, fun k hk => ?_, fun hs => ?_, fun hs => ?_⟩
  · exact ⟨(c₂ k hk).1.trans (c₁ k hk).1, (c₂ k hk).2.trans (c₁ k hk).2⟩
  · refine ⟨(d₂ hs).1.trans (d₁ hs).1, fun r => ?_⟩
    rw [(d₂ hs).2 r, (d₁ hs).2 r, List.mem_append, or_assoc]
  · refine ⟨(e₂ hs).1.trans (e₁ hs).1, fun r => ?_⟩
    rw [(e₂ hs).2 r, (e₁ hs).2 r, List.mem_append, or_assoc]

theorem Recorded.recordReg (E : Emitter) (Name : String) :
    Recorded E (recordReg E Name) [Name] := by
  unfold CallingConvEmitter.recordReg
  split_ifs with hs
  · refine ⟨rfl, rfl, fun k hk => ⟨rfl, ?_⟩, fun _ => ⟨rfl, fun r => ?_⟩, fun h => ?_⟩
    · exact mapFind_mapSubscript_ne hk _ _
    · simp only [usage_mapSubscript_self, mem_setInsert, List.mem_singleton]
      tauto
    · rw [hs] at h
      cases h
  · refine ⟨rfl, rfl, fun k hk => ⟨?_, rfl⟩, fun h => ?_, fun _ => ⟨rfl, fun r => ?_⟩⟩
    · exact mapFind_mapSubscript_ne hk _ _
    · exact absurd h hs
    · simp only [usage_mapSubscript_self, mem_setInsert, List.mem_singleton]
      tauto

theorem Recorded.foldl (Names : List String) :
    ∀ E : Emitter, Recorded E (Names.foldl CallingConvEmitter.recordReg E) Names := by
  induction Names with
  | nil => intro E; exact Recorded.same rfl rfl rfl rfl
  | cons n Names ih =>
    intro E
    exact Recorded.trans (Recorded.recordReg E n) (ih _)

theorem Recorded.counter {E E1 : Emitter} {N : List String} (c : Nat)
    (h : Recorded { E with Counter := c } E1 N) : Recorded E E1 N := h


theorem kind_of_predicate {R : ActionRecord} (hp : R.isSubClassOf "CCPredicateAction" = true) :
    R.kind = .PredicateAction := by
  unfold ActionRecord.kind
  rw [if_pos hp]

/-- The chain of tests of `emitAction` takes the branch of the kind of the record. -/
theorem emitNonPredicateAction_eq (R : ActionRecord) (Indent : Nat) (E : Emitter)
    (hp : R.isSubClassOf "CCPredicateAction" = false) :
    emitNonPredicateAction R Indent E = emitByKind R Indent E R.kind ∧
      R.kind ≠ .PredicateAction := by
  have hp' : ¬ R.isSubClassOf "CCPredicateAction" = true := by simp [hp]
  unfold emitNonPredicateAction ActionRecord.kind
  rw [if_neg hp']
  by_cases h1 : R.isSubClassOf "CCDelegateTo" = true
  · rw [if_pos h1, if_pos h1]; exact ⟨rfl, by decide⟩
  rw [if_neg h1, if_neg h1]
  by_cases h2 : R.isSubClassOf "CCAssignToReg" = true ∨ R.isSubClassOf "CCAssignToRegAndStack" = true
  · rw [if_pos h2, if_pos h2]; exact ⟨rfl, by decide⟩
  rw [if_neg h2, if_neg h2]
  by_cases h3 : R.isSubClassOf "CCAssignToRegWithShadow" = true
  · rw [if_pos h3, if_pos h3]; exact ⟨rfl, by decide⟩
  rw [if_neg h3, if_neg h3]
  by_cases h4 : R.isSubClassOf "CCAssignToStack" = true
  · rw [if_pos h4, if_pos h4]; exact ⟨rfl, by decide⟩
  rw [if_neg h4, if_neg h4]
  by_cases h5 : R.isSubClassOf "CCAssignToStackWithShadow" = true
  · rw [if_pos h5, if_pos h5]; exact ⟨rfl, by decide⟩
  rw [if_neg h5, if_neg h5]
  by_cases h6 : R.isSubClassOf "CCPromoteToType" = true
  · rw [if_pos h6, if_pos h6]; exact ⟨rfl, by decide⟩
  rw [if_neg h6, if_neg h6]
  by_cases h7 : R.isSubClassOf "CCPromoteToUpperBitsInType" = true
  · rw [if_pos h7, if_pos h7]; exact ⟨rfl, by decide⟩
  rw [if_neg h7, if_neg h7]
  by_cases h8 : R.isSubClassOf "CCBitConvertToType" = true
  · rw [if_pos h8, if_pos h8]; exact ⟨rfl, by decide⟩
  rw [if_neg h8, if_neg h8]
  by_cases h9 : R.isSubClassOf "CCTruncToType" = true
  · rw [if_pos h9, if_pos h9]; exact ⟨rfl, by decide⟩
  rw [if_neg h9, if_neg h9]
  by_cases h10 : R.isSubClassOf "CCPassIndirect" = true
  · rw [if_pos h10, if_pos h10]; exact ⟨rfl, by decide⟩
  rw [if_neg h10, if_neg h10]
  by_cases h11 : R.isSubClassOf "CCPassByVal" = true
  · rw [if_pos h11, if_pos h11]; exact ⟨rfl, by decide⟩
  rw [if_neg h11, if_neg h11]
  by_cases h12 : R.isSubClassOf "CCCustom" = true
  · rw [if_pos h12, if_pos h12]; exact ⟨rfl, by decide⟩
  rw [if_neg h12, if_neg h12]
  exact ⟨rfl, by decide⟩


theorem kind_predicate_iff (R : ActionRecord) :
    R.kind = .PredicateAction ↔ R.isSubClassOf "CCPredicateAction" = true := by
  constructor
  · intro h
    by_contra hp
    have hp' : R.isSubClassOf "CCPredicateAction" = false := by simpa using hp
    exact (emitNonPredicateAction_eq R 0 {} hp').2 h
  · exact kind_of_predicate

/-- An action whose record is not a predicate action is emitted by its kind. -/
theorem emitAction_eq_emitByKind (A : Action) (Indent : Nat) (E : Emitter)
    (hk : A.record.kind ≠ .PredicateAction) :
    emitAction A Indent E = emitByKind A.record Indent E A.record.kind := by
  have hp : A.record.isSubClassOf "CCPredicateAction" = false := by
    rw [Ne, kind_predicate_iff] at hk
    simpa using hk
  cases A with
  | leaf R =>
    have hp' : ¬ R.isSubClassOf "CCPredicateAction" = true := by
      simp only [Action.record] at hp; simp [hp]
    unfold emitAction
    rw [if_neg hp']
    exact (emitNonPredicateAction_eq R Indent E hp).1
  | sub R S =>
    have hp' : ¬ R.isSubClassOf "CCPredicateAction" = true := by
      simp only [Action.record] at hp; simp [hp]
    unfold emitAction
    rw [if_neg hp']
    exact (emitNonPredicateAction_eq R Indent E hp).1

theorem ok_state_eq {T : String} {E : Emitter} {T1 : String} {E1 : Emitter}
    (h : (Except.ok (T, E) : Except Failure (String × Emitter)) = .ok (T1, E1)) : E = E1 :=
  (Prod.mk.inj (Except.ok.inj h)).2

theorem emitAssignToReg_recorded {R : ActionRecord} {Indent : Nat} {E E1 : Emitter}
    {Text : String} (h : emitAssignToReg R Indent E = .ok (Text, E1)) :
    Recorded E E1 R.RegList := by
  unfold emitAssignToReg at h
  split at h
  · rename_i Name hN
    rw [hN, ← ok_state_eq h]
    exact Recorded.recordReg E Name
  · rw [← ok_state_eq h]
    exact Recorded.counter _ (Recorded.foldl _ _)

theorem emitAssignToRegWithShadow_state {R : ActionRecord} {Indent : Nat} {E E1 : Emitter}
    {Text : String} (h : emitAssignToRegWithShadow R Indent E = .ok (Text, E1)) :
    E1 = E ∨ E1 = { E with Counter := nextCounter (nextCounter E.Counter) } := by
  unfold emitAssignToRegWithShadow at h
  split_ifs at h
  split at h
  · split at h
    · cases h
    · exact Or.inl (ok_state_eq h).symm
  · exact Or.inr (ok_state_eq h).symm

theorem emitByKind_recorded {R : ActionRecord} {Indent : Nat} {E E1 : Emitter}
    {Text : String} {K : ActionKind} (hK : K ≠ .PredicateAction)
    (h : emitByKind R Indent E K = .ok (Text, E1)) :
    Recorded E E1 (if K = .AssignToReg then R.RegList else []) := by
  cases K
  case PredicateAction => exact absurd rfl hK
  case AssignToReg =>
    rw [if_pos rfl]
    exact emitAssignToReg_recorded h
  case AssignToRegWithShadow =>
    rw [if_neg (by decide)]
    rcases emitAssignToRegWithShadow_state h with h' | h' <;> rw [h'] <;>
      exact Recorded.same rfl rfl rfl rfl
  case PromoteToUpperBitsInType =>
    rw [if_neg (by decide)]
    change emitPromoteToUpperBitsInType R Indent E = _ at h
    unfold emitPromoteToUpperBitsInType at h
    split_ifs at h
    rw [← ok_state_eq h]
    exact Recorded.same rfl rfl rfl rfl
  case Unknown => cases h
  all_goals
    rw [if_neg (by decide), ← ok_state_eq h]
    exact Recorded.same rfl rfl rfl rfl

theorem assignedRegs_of_nonpredicate (A : Action)
    (hk : A.record.kind ≠ .PredicateAction) :
    A.assignedRegs = if A.record.kind = .AssignToReg then A.record.RegList else [] := by
  have hp : ¬ A.record.isSubClassOf "CCPredicateAction" = true := by
    rwa [Ne, kind_predicate_iff] at hk
  cases A with
  | leaf R => simp [Action.assignedRegs, Action.nested, Action.record]
  | sub R S =>
    simp only [Action.record] at hp
    simp [Action.assignedRegs, Action.nested, Action.record, hp]

theorem assignedRegs_sub_predicate (R : ActionRecord) (S : Action)
    (hp : R.isSubClassOf "CCPredicateAction" = true) :
    (Action.sub R S).assignedRegs = S.assignedRegs := by
  have hk : R.kind = .PredicateAction := kind_of_predicate hp
  simp [Action.assignedRegs, Action.nested, Action.record, hp, hk]

theorem emitAction_leaf_predicate {R : ActionRecord} (Indent : Nat) (E : Emitter)
    (hp : R.isSubClassOf "CCPredicateAction" = true) :
    ∃ F, emitAction (.leaf R) Indent E = .error F := by
  unfold emitAction
  rw [if_pos hp]
  split
  · exact ⟨_, rfl⟩
  · exact ⟨_, rfl⟩

/-- What is emitted for a predicate action: its `SubAction` was emitted two columns
further in, and the emitter is the one the `SubAction` left. -/
theorem emitAction_sub_predicate {R : ActionRecord} {S : Action} {Indent : Nat}
    {E E1 : Emitter} {Text : String} (hp : R.isSubClassOf "CCPredicateAction" = true)
    (h : emitAction (.sub R S) Indent E = .ok (Text, E1)) :
    ∃ Body, emitAction S (Indent + 2) E = .ok (Body, E1) := by
  unfold emitAction at h
  rw [if_pos hp] at h
  split at h
  · cases h
  · split at h
    · cases h
    · rename_i Body E2 hS
      rw [← ok_state_eq h]
      exact ⟨Body, hS⟩

/-- Emitting an action records the registers of its register-assigning actions, in the
map chosen by `SwiftAction`, and nothing else. -/
theorem emitAction_recorded (A : Action) :
    ∀ (Indent : Nat) (E E1 : Emitter) (Text : String),
      emitAction A Indent E = .ok (Text, E1) → Recorded E E1 A.assignedRegs := by
  induction A with
  | leaf R =>
    intro Indent E E1 Text h
    by_cases hp : R.isSubClassOf "CCPredicateAction" = true
    · obtain ⟨F, hF⟩ := emitAction_leaf_predicate Indent E hp
      rw [hF] at h
      cases h
    · have hk : (Action.leaf R).record.kind ≠ .PredicateAction := by
        rwa [Ne, kind_predicate_iff]
      rw [assignedRegs_of_nonpredicate _ hk]
      rw [emitAction_eq_emitByKind _ _ _ hk] at h
      exact emitByKind_recorded hk h
  | sub R S ih =>
    intro Indent E E1 Text h
    by_cases hp : R.isSubClassOf "CCPredicateAction" = true
    · rw [assignedRegs_sub_predicate R S hp]
      obtain ⟨Body, hS⟩ := emitAction_sub_predicate hp h
      exact ih _ _ _ _ hS
    · have hk : (Action.sub R S).record.kind ≠ .PredicateAction := by
        rwa [Ne, kind_predicate_iff]
      rw [assignedRegs_of_nonpredicate _ hk]
      rw [emitAction_eq_emitByKind _ _ _ hk] at h
      exact emitByKind_recorded hk h

theorem usage_congr {M M1 : StringSetMap} {k : String}
    (h : mapFind k M1 = mapFind k M) : usage M1 k = usage M k := by
  unfold usage
  rw [h]

/-- The two usage sets of the current convention after an action, whatever
`SwiftAction` was. -/
theorem Recorded.usage {E E1 : Emitter} {N : List String} (h : Recorded E E1 N) (r : String) :
    (r ∈ usage E1.AssignedRegsMap E.CurrentAction ↔
      r ∈ usage E.AssignedRegsMap E.CurrentAction ∨ (E.SwiftAction = false ∧ r ∈ N)) ∧
    (r ∈ usage E1.AssignedSwiftRegsMap E.CurrentAction ↔
      r ∈ usage E.AssignedSwiftRegsMap E.CurrentAction ∨ (E.SwiftAction = true ∧ r ∈ N)) := by
  obtain ⟨-, -, -, hs, hn⟩ := h
  cases hb : E.SwiftAction with
  | true =>
    obtain ⟨h₁, h₂⟩ := hs hb
    rw [h₁, h₂ r]
    simp
  | false =>
    obtain ⟨h₁, h₂⟩ := hn hb
    rw [h₁, h₂ r]
    simp

theorem emitActions_cons_ok {A : Action} {Rest : List Action} {E E2 : Emitter}
    {Text : String} (h : emitActions (A :: Rest) E = .ok (Text, E2)) :
    ∃ T E1 M, emitAction A 2 { E with SwiftAction := isSwiftAction A } = .ok (T, E1) ∧
      emitActions Rest E1 = .ok (M, E2) := by
  unfold emitActions at h
  split at h
  · cases h
  · rename_i T E1 hA
    split at h
    · cases h
    · rename_i M E3 hR
      rw [← ok_state_eq h]
      exact ⟨T, E1, M, hA, hR⟩

/-- The usage sets of the current convention after the loop over its actions: the
registers of the actions whose top-level action is no Swift action went to the primary
set, those of the others to the Swift set. -/
theorem emitActions_usage (As : List Action) :
    ∀ (E E1 : Emitter) (Text : String), emitActions As E = .ok (Text, E1) →
      E1.CurrentAction = E.CurrentAction ∧
      (∀ k, k ≠ E.CurrentAction →
        mapFind k E1.AssignedRegsMap = mapFind k E.AssignedRegsMap ∧
        mapFind k E1.AssignedSwiftRegsMap = mapFind k E.AssignedSwiftRegsMap) ∧
      (∀ r, r ∈ usage E1.AssignedRegsMap E.CurrentAction ↔
        r ∈ usage E.AssignedRegsMap E.CurrentAction ∨
          ∃ A ∈ As, isSwiftAction A = false ∧ r ∈ A.assignedRegs) ∧
      (∀ r, r ∈ usage E1.AssignedSwiftRegsMap E.CurrentAction ↔
        r ∈ usage E.AssignedSwiftRegsMap E.CurrentAction ∨
          ∃ A ∈ As, isSwiftAction A = true ∧ r ∈ A.assignedRegs) := by
  induction As with
  | nil =>
    intro E E1 Text h
    have h' : E = E1 := ok_state_eq h
    subst h'
    simp
  | cons A Rest ih =>
    intro E E2 Text h
    obtain ⟨T, E1, M, hA, hR⟩ := emitActions_cons_ok h
    have hrec := emitAction_recorded A _ _ _ _ hA
    obtain ⟨hc, hk, hp, hs⟩ := ih _ _ _ hR
    have hc1 : E1.CurrentAction = E.CurrentAction := hrec.1
    rw [hc1] at hk hp hs
    refine ⟨hc.trans hc1, fun k hne => ?_, fun r => ?_, fun r => ?_⟩
    · exact ⟨((hk k hne).1).trans (hrec.2.2.1 k hne).1, ((hk k hne).2).trans (hrec.2.2.1 k hne).2⟩
    · have := (hrec.usage r).1
      simp only at this
      rw [hp r, this]
      simp only [List.mem_cons, exists_eq_or_imp, or_assoc]
    · have := (hrec.usage r).2
      simp only at this
      rw [hs r, this]
      simp only [List.mem_cons, exists_eq_or_imp, or_assoc]

theorem emitCallingConv_ok {CC : CallingConv} {E E1 : Emitter} {Text : String}
    (h : emitCallingConv CC E = .ok (Text, E1)) :
    ∃ Body, emitActions CC.Actions
      { E with
        Counter := 0
        CurrentAction := CC.Name
        AssignedRegsMap := mapSubscript CC.Name (fun _ => []) E.AssignedRegsMap } =
      .ok (Body, E1) := by
  unfold emitCallingConv at h
  dsimp only at h
  split at h
  · cases h
  · rename_i Body E2 hB
    rw [← ok_state_eq h]
    exact ⟨Body, hB⟩

/-- The usage sets after a convention was emitted: its primary set holds exactly the
registers of its actions that are no Swift actions, its Swift set gained those of its
Swift actions, and the sets of the other conventions are as before. -/
theorem emitCallingConv_usage {CC : CallingConv} {E E1 : Emitter} {Text : String}
    (h : emitCallingConv CC E = .ok (Text, E1)) :
    (∀ k, k ≠ CC.Name →
      mapFind k E1.AssignedRegsMap = mapFind k E.AssignedRegsMap ∧
      mapFind k E1.AssignedSwiftRegsMap = mapFind k E.AssignedSwiftRegsMap) ∧
    (∀ r, r ∈ usage E1.AssignedRegsMap CC.Name ↔
      ∃ A ∈ CC.Actions, isSwiftAction A = false ∧ r ∈ A.assignedRegs) ∧
    (∀ r, r ∈ usage E1.AssignedSwiftRegsMap CC.Name ↔
      r ∈ usage E.AssignedSwiftRegsMap CC.Name ∨
        ∃ A ∈ CC.Actions, isSwiftAction A = true ∧ r ∈ A.assignedRegs) := by
  obtain ⟨Body, hB⟩ := emitCallingConv_ok h
  obtain ⟨-, hk, hp, hs⟩ := emitActions_usage _ _ _ _ hB
  simp only at hk hp hs
  refine ⟨fun k hne => ?_, fun r => ?_, fun r => ?_⟩
  · rw [(hk k hne).1, (hk k hne).2, mapFind_mapSubscript_ne hne]
    exact ⟨rfl, rfl⟩
  · rw [hp r, usage_mapSubscript_self]
    simp
  · exact hs r

theorem emitDescriptions_cons_custom {CC : CallingConv} {CCs : List CallingConv}
    (E : Emitter) (hc : CC.Custom = true) :
    emitDescriptions (CC :: CCs) E = emitDescriptions CCs E := by
  rw [emitDescriptions, if_pos hc]

theorem emitDescriptions_cons_ok {CC : CallingConv} {CCs : List CallingConv}
    {E E2 : Emitter} {Text : String} (hc : CC.Custom = false)
    (h : emitDescriptions (CC :: CCs) E = .ok (Text, E2)) :
    ∃ T E1 M, emitCallingConv CC E = .ok (T, E1) ∧ emitDescriptions CCs E1 = .ok (M, E2) := by
  have hc' : ¬ CC.Custom = true := by simp [hc]
  rw [emitDescriptions, if_neg hc'] at h
  split at h
  · cases h
  · rename_i T E1 hA
    split at h
    · cases h
    · rename_i M E3 hR
      rw [← ok_state_eq h]
      exact ⟨T, E1, M, hA, hR⟩

/-- The usage sets after all descriptions were emitted. A convention that is not among
those emitted keeps its sets; with distinct names, each emitted convention has the sets
its own description left. -/
theorem emitDescriptions_usage (CCs : List CallingConv) :
    ∀ (E E1 : Emitter) (Text : String), emitDescriptions CCs E = .ok (Text, E1) →
      (∀ k, (∀ CC ∈ CCs, CC.Custom = false → CC.Name ≠ k) →
        mapFind k E1.AssignedRegsMap = mapFind k E.AssignedRegsMap ∧
        mapFind k E1.AssignedSwiftRegsMap = mapFind k E.AssignedSwiftRegsMap) ∧
      ((CCs.map (fun CC => CC.Name)).Nodup → ∀ CC ∈ CCs, CC.Custom = false →
        (∀ r, r ∈ usage E1.AssignedRegsMap CC.Name ↔
          ∃ A ∈ CC.Actions, isSwiftAction A = false ∧ r ∈ A.assignedRegs) ∧
        (∀ r, r ∈ usage E1.AssignedSwiftRegsMap CC.Name ↔
          r ∈ usage E.AssignedSwiftRegsMap CC.Name ∨
            ∃ A ∈ CC.Actions, isSwiftAction A = true ∧ r ∈ A.assignedRegs)) := by
  induction CCs with
  | nil =>
    intro E E1 Text h
    have h' : E = E1 := ok_state_eq h
    subst h'
    exact ⟨fun _ _ => ⟨rfl, rfl⟩, fun _ CC hCC => absurd hCC (List.not_mem_nil _)⟩
  | cons C CCs ih =>
    intro E E2 Text h
    cases hc : C.Custom with
    | true =>
      rw [emitDescriptions_cons_custom E hc] at h
      obtain ⟨h₁, h₂⟩ := ih _ _ _ h
      refine ⟨fun k hk => h₁ k (fun CC hCC => hk CC (List.mem_cons_of_mem _ hCC)), ?_⟩
      intro hnd CC hCC hcc
      rcases List.mem_cons.mp hCC with rfl | hCC
      · rw [hc] at hcc
        cases hcc
      · exact h₂ (List.nodup_cons.mp hnd).2 CC hCC hcc
    | false =>
      obtain ⟨T, E1, M, hA, hR⟩ := emitDescriptions_cons_ok hc h
      obtain ⟨h₁, h₂⟩ := ih _ _ _ hR
      obtain ⟨u₁, u₂, u₃⟩ := emitCallingConv_usage hA
      refine ⟨fun k hk => ?_, ?_⟩
      · have hne : k ≠ C.Name := fun e => hk C (List.mem_cons_self _ _) hc e.symm
        obtain ⟨a, b⟩ := h₁ k (fun CC hCC => hk CC (List.mem_cons_of_mem _ hCC))
        exact ⟨a.trans (u₁ k hne).1, b.trans (u₁ k hne).2⟩
      · intro hnd CC hCC hcc
        obtain ⟨hnot, hnd'⟩ := List.nodup_cons.mp hnd
        rcases List.mem_cons.mp hCC with rfl | hCC
        · have hk : ∀ CC' ∈ CCs, CC'.Custom = false → CC'.Name ≠ CC.Name := by
            intro CC' hCC' _ e
            exact hnot (List.mem_map.mpr ⟨CC', hCC', e⟩)
          obtain ⟨a, b⟩ := h₁ CC.Name hk
          rw [usage_congr a, usage_congr b]
          exact ⟨u₂, u₃⟩
        · have hne : CC.Name ≠ C.Name := by
            intro e
            exact hnot (List.mem_map.mpr ⟨CC, hCC, e⟩)
          obtain ⟨a, b⟩ := h₂ hnd' CC hCC hcc
          rw [usage_congr (u₁ CC.Name hne).2] at b
          exact ⟨a, b⟩

/-! ## Lemmas on failing runs -/

theorem predicateCondition_unknown {R : ActionRecord} (Indent : Nat)
    (h₁ : R.isSubClassOf "CCIfType" = false) (h₂ : R.isSubClassOf "CCIf" = false) :
    predicateCondition R Indent = .error (.fatal "Unknown CCPredicateAction!") := by
  unfold predicateCondition
  rw [if_neg (by simp [h₁]), if_neg (by simp [h₂])]

/-- An action of unknown kind ends the run with one of the two messages of
`emitAction`. -/
theorem emitAction_unknown {A : Action} (h : A.isUnknown) (Indent : Nat) (E : Emitter) :
    emitAction A Indent E = .error (.fatal "Unknown CCAction!") ∨
      emitAction A Indent E = .error (.fatal "Unknown CCPredicateAction!") := by
  rcases h with hk | ⟨hk, h₁, h₂⟩
  · left
    rw [emitAction_eq_emitByKind A Indent E (by rw [hk]; decide), hk]
    rfl
  · right
    have hp := (kind_predicate_iff _).mp hk
    cases A with
    | leaf R =>
      simp only [Action.record] at hp h₁ h₂
      unfold emitAction
      rw [if_pos hp, predicateCondition_unknown Indent h₁ h₂]
    | sub R S =>
      simp only [Action.record] at hp h₁ h₂
      unfold emitAction
      rw [if_pos hp, predicateCondition_unknown Indent h₁ h₂]

/-- A failure of an action of the tree is a failure of the whole tree. -/
theorem emitAction_fails_of_nested (T : Action) :
    ∀ A ∈ T.nested, (∀ Indent E, ∃ F, emitAction A Indent E = .error F) →
      ∀ Indent E, ∃ F, emitAction T Indent E = .error F := by
  induction T with
  | leaf R =>
    intro A hA hf
    simp only [Action.nested, List.mem_singleton] at hA
    subst hA
    exact hf
  | sub R S ih =>
    intro A hA hf Indent E
    simp only [Action.nested, List.mem_cons] at hA
    rcases hA with rfl | hA
    · exact hf Indent E
    · by_cases hp : R.isSubClassOf "CCPredicateAction" = true
      · rw [if_pos hp] at hA
        obtain ⟨F, hF⟩ := ih A hA hf (Indent + 2) E
        unfold emitAction
        rw [if_pos hp]
        split
        · exact ⟨_, rfl⟩
        · rw [hF]
          exact ⟨_, rfl⟩
      · rw [if_neg hp] at hA
        exact absurd hA (List.not_mem_nil _)

theorem emitActions_fails (As : List Action) :
    ∀ T ∈ As, (∀ Indent E, ∃ F, emitAction T Indent E = .error F) →
      ∀ E, ∃ F, emitActions As E = .error F := by
  induction As with
  | nil => intro T hT; exact absurd hT (List.not_mem_nil _)
  | cons A Rest ih =>
    intro T hT hf E
    unfold emitActions
    rcases List.mem_cons.mp hT with rfl | hT
    · obtain ⟨F, hF⟩ := hf 2 { E with SwiftAction := isSwiftAction T }
      rw [hF]
      exact ⟨_, rfl⟩
    · split
      · exact ⟨_, rfl⟩
      · rename_i Text E1 _
        obtain ⟨F, hF⟩ := ih T hT hf E1
        rw [hF]
        exact ⟨_, rfl⟩

theorem emitCallingConv_fails {CC : CallingConv} {T : Action} (hT : T ∈ CC.Actions)
    (hf : ∀ Indent E, ∃ F, emitAction T Indent E = .error F) (E : Emitter) :
    ∃ F, emitCallingConv CC E = .error F := by
  unfold emitCallingConv
  dsimp only
  obtain ⟨F, hF⟩ := emitActions_fails CC.Actions T hT hf
    { E with
      Counter := 0
      CurrentAction := CC.Name
      AssignedRegsMap := mapSubscript CC.Name (fun _ => []) E.AssignedRegsMap }
  rw [hF]
  exact ⟨_, rfl⟩

theorem emitDescriptions_fails (CCs : List CallingConv) :
    ∀ CC ∈ CCs, CC.Custom = false → (∀ E, ∃ F, emitCallingConv CC E = .error F) →
      ∀ E, ∃ F, emitDescriptions CCs E = .error F := by
  induction CCs with
  | nil => intro CC hCC; exact absurd hCC (List.not_mem_nil _)
  | cons C CCs ih =>
    intro CC hCC hc hf E
    unfold emitDescriptions
    rcases List.mem_cons.mp hCC with rfl | hCC
    · rw [if_neg (by simp [hc])]
      obtain ⟨F, hF⟩ := hf E
      rw [hF]
      exact ⟨_, rfl⟩
    · split_ifs
      · exact ih CC hCC hc hf E
      · split
        · exact ⟨_, rfl⟩
        · rename_i Text E1 _
          obtain ⟨F, hF⟩ := ih CC hCC hc hf E1
          rw [hF]
          exact ⟨_, rfl⟩

/-- A convention that is emitted and holds, anywhere in its action trees, an action
that cannot be emitted ends the whole run without output. -/
theorem run_fails_of_failing_action {CCs : List CallingConv} {CC : CallingConv}
    {T A : Action} (hCC : CC ∈ CCs) (hc : CC.Custom = false) (hT : T ∈ CC.Actions)
    (hA : A ∈ T.nested) (hf : ∀ Indent E, ∃ F, emitAction A Indent E = .error F)
    (Header : String) (fuel : Nat) : ∃ F, run Header fuel CCs = .error F := by
  have h₁ := emitAction_fails_of_nested T A hA hf
  obtain ⟨F, hF⟩ := emitDescriptions_fails CCs CC hCC hc
    (fun E => emitCallingConv_fails hT h₁ E) {}
  unfold run
  rw [hF]
  exact ⟨_, rfl⟩

theorem mem_assignedRegs (A : Action) (r : String) :
    r ∈ A.assignedRegs ↔
      ∃ N ∈ A.nested, N.record.kind = .AssignToReg ∧ r ∈ N.record.RegList := by
  unfold Action.assignedRegs
  rw [List.mem_flatMap]
  constructor
  · rintro ⟨N, hN, hr⟩
    by_cases hk : N.record.kind = .AssignToReg
    · rw [if_pos hk] at hr
      exact ⟨N, hN, hk, hr⟩
    · rw [if_neg hk] at hr
      exact absurd hr (List.not_mem_nil _)
  · rintro ⟨N, hN, hk, hr⟩
    exact ⟨N, hN, by rw [if_pos hk]; exact hr⟩

theorem synthesized_eq_some {CCs : List CallingConv} {E : Emitter}
    (h : synthesized CCs = some E) : ∃ Text, emitDescriptions CCs {} = .ok (Text, E) := by
  unfold synthesized at h
  split at h
  · cases h
  · rename_i Text E1 hE
    cases h
    exact ⟨Text, hE⟩

/-! ## Lemmas on the delegation map after synthesis -/

theorem setInsert_ne_nil (x : String) (S : StringSet) : setInsert x S ≠ [] := by
  cases S with
  | nil => simp [setInsert]
  | cons y S =>
    unfold setInsert
    split_ifs <;> simp

theorem mapSubscript_targets {k : String} {f : StringSet → StringSet} {M : StringSetMap}
    (hf : ∀ S, f S ≠ []) (hM : ∀ e ∈ M, e.2 ≠ []) :
    ∀ e ∈ mapSubscript k f M, e.2 ≠ [] := by
  induction M with
  | nil =>
    intro e he
    simp only [mapSubscript, List.mem_singleton] at he
    subst he
    exact hf []
  | cons e₀ M ih =>
    obtain ⟨k₀, v⟩ := e₀
    intro e he
    unfold mapSubscript at he
    split_ifs at he with h₁ h₂
    · rcases List.mem_cons.mp he with rfl | he
      · exact hf []
      · exact hM e he
    · rcases List.mem_cons.mp he with rfl | he
      · exact hf v
      · exact hM e (List.mem_cons_of_mem _ he)
    · rcases List.mem_cons.mp he with rfl | he
      · exact hM _ (List.mem_cons_self _ _)
      · exact ih (fun e' he' => hM e' (List.mem_cons_of_mem _ he')) e he

theorem recordReg_delegateToMap (E : Emitter) (Name : String) :
    (recordReg E Name).DelegateToMap = E.DelegateToMap := by
  unfold recordReg
  split_ifs <;> rfl

theorem foldl_recordReg_delegateToMap (Names : List String) :
    ∀ E : Emitter, (Names.foldl recordReg E).DelegateToMap = E.DelegateToMap := by
  induction Names with
  | nil => intro E; rfl
  | cons n Names ih =>
    intro E
    rw [List.foldl_cons, ih, recordReg_delegateToMap]

/-- The delegation map after an action that is not a predicate: a `CCDelegateTo` adds
its target to the entry of the current convention, any other action leaves the map. -/
theorem emitByKind_delegateToMap {R : ActionRecord} {Indent : Nat} {E E1 : Emitter}
    {Text : String} {K : ActionKind} (h : emitByKind R Indent E K = .ok (Text, E1)) :
    E1.DelegateToMap =
      if K = .DelegateTo then
        mapSubscript E.CurrentAction (setInsert R.CC) E.DelegateToMap
      else E.DelegateToMap := by
  cases K
  case PredicateAction => cases h
  case DelegateTo =>
    rw [if_pos rfl, ← ok_state_eq h]
  case AssignToReg =>
    rw [if_neg (by decide)]
    change emitAssignToReg R Indent E = _ at h
    unfold emitAssignToReg at h
    split at h
    · rw [← ok_state_eq h, recordReg_delegateToMap]
    · rw [← ok_state_eq h, foldl_recordReg_delegateToMap]
  case AssignToRegWithShadow =>
    rw [if_neg (by decide)]
    rcases emitAssignToRegWithShadow_state h with h' | h' <;> rw [h']
  case PromoteToUpperBitsInType =>
    rw [if_neg (by decide)]
    change emitPromoteToUpperBitsInType R Indent E = _ at h
    unfold emitPromoteToUpperBitsInType at h
    split_ifs at h
    rw [← ok_state_eq h]
  case Unknown => cases h
  all_goals
    rw [if_neg (by decide), ← ok_state_eq h]

/-- No action leaves an entry without targets in the delegation map. -/
theorem emitAction_targets (A : Action) :
    ∀ (Indent : Nat) (E E1 : Emitter) (Text : String),
      emitAction A Indent E = .ok (Text, E1) → (∀ e ∈ E.DelegateToMap, e.2 ≠ []) →
      ∀ e ∈ E1.DelegateToMap, e.2 ≠ [] := by
  have leafCase : ∀ (A : Action) (Indent : Nat) (E E1 : Emitter) (Text : String),
      A.record.kind ≠ .PredicateAction → emitAction A Indent E = .ok (Text, E1) →
      (∀ e ∈ E.DelegateToMap, e.2 ≠ []) → ∀ e ∈ E1.DelegateToMap, e.2 ≠ [] := by
    intro A Indent E E1 Text hk h hE
    rw [emitAction_eq_emitByKind _ _ _ hk] at h
    rw [emitByKind_delegateToMap h]
    split_ifs
    · exact mapSubscript_targets (fun S => setInsert_ne_nil _ S) hE
    · exact hE
  induction A with
  | leaf R =>
    intro Indent E E1 Text h hE
    by_cases hp : R.isSubClassOf "CCPredicateAction" = true
    · obtain ⟨F, hF⟩ := emitAction_leaf_predicate Indent E hp
      rw [hF] at h
      cases h
    · exact leafCase _ _ _ _ _ (by rwa [Ne, kind_predicate_iff]) h hE
  | sub R S ih =>
    intro Indent E E1 Text h hE
    by_cases hp : R.isSubClassOf "CCPredicateAction" = true
    · obtain ⟨Body, hS⟩ := emitAction_sub_predicate hp h
      exact ih _ _ _ _ hS hE
    · exact leafCase _ _ _ _ _ (by rwa [Ne, kind_predicate_iff]) h hE

theorem emitActions_targets (As : List Action) :
    ∀ (E E1 : Emitter) (Text : String), emitActions As E = .ok (Text, E1) →
      (∀ e ∈ E.DelegateToMap, e.2 ≠ []) → ∀ e ∈ E1.DelegateToMap, e.2 ≠ [] := by
  induction As with
  | nil =>
    intro E E1 Text h hE
    rw [← ok_state_eq h]
    exact hE
  | cons A Rest ih =>
    intro E E2 Text h hE
    obtain ⟨T, E1, M, hA, hR⟩ := emitActions_cons_ok h
    exact ih _ _ _ hR (emitAction_targets A _ _ _ _ hA hE)

theorem emitDescriptions_targets (CCs : List CallingConv) :
    ∀ (E E1 : Emitter) (Text : String), emitDescriptions CCs E = .ok (Text, E1) →
      (∀ e ∈ E.DelegateToMap, e.2 ≠ []) → ∀ e ∈ E1.DelegateToMap, e.2 ≠ [] := by
  induction CCs with
  | nil =>
    intro E E1 Text h hE
    rw [← ok_state_eq h]
    exact hE
  | cons C CCs ih =>
    intro E E2 Text h hE
    cases hc : C.Custom with
    | true =>
      rw [emitDescriptions_cons_custom E hc] at h
      exact ih _ _ _ h hE
    | false =>
      obtain ⟨T, E1, M, hA, hR⟩ := emitDescriptions_cons_ok hc h
      obtain ⟨Body, hB⟩ := emitCallingConv_ok hA
      exact ih _ _ _ hR (emitActions_targets _ _ _ _ hB hE)

/-- Every entry of the delegation map that synthesis leaves holds a target. -/
theorem synthesized_targets {CCs : List CallingConv} {E : Emitter}
    (h : synthesized CCs = some E) : ∀ e ∈ E.DelegateToMap, e.2 ≠ [] := by
  obtain ⟨Text, hE⟩ := synthesized_eq_some h
  exact emitDescriptions_targets CCs _ _ _ hE (fun e he => absurd he (List.not_mem_nil _))

/-- Over a worklist whose entries all hold a target the while loop changes nothing. -/
theorem drainWorklist_of_targets (fuel : Nat) :
    ∀ (W : List (String × StringSet)) (E : Emitter) (Redo : Bool), W.length ≤ fuel →
      (∀ e ∈ W, e.2 ≠ []) → drainWorklist fuel W E Redo = some (E, Redo) := by
  induction fuel with
  | zero =>
    intro W E Redo h hW
    cases W with
    | nil => rfl
    | cons e W => simp at h
  | succ n ih =>
    intro W E Redo h hW
    cases W with
    | nil => rfl
    | cons e W =>
      obtain ⟨k, v⟩ := e
      unfold drainWorklist
      rw [if_pos (hW (k, v) (List.mem_cons_self _ _))]
      exact ih W E Redo (by simpa using h) (fun e he => hW e (List.mem_cons_of_mem _ he))

/-- On a delegation map whose entries all hold a target the resolution loop ends after
its first pass and returns the emitter as it was. -/
theorem resolveDelegates_of_targets {E : Emitter} (hE : ∀ e ∈ E.DelegateToMap, e.2 ≠ [])
    {fuel : Nat} (hf : E.DelegateToMap.length < fuel) : resolveDelegates fuel E = some E := by
  cases fuel with
  | zero => simp at hf
  | succ n =>
    have h : resolvePass (n + 1) E = some (E, false) :=
      drainWorklist_of_targets (n + 1) _ E false (Nat.le_of_lt hf) hE
    unfold resolveDelegates
    rw [h]

/-! ## The claims -/

/-- C1 (evaluation of the code on the two examples of the claim): the resolution loop
merges nothing. With `CC_A` delegating to `CC_B`, which assigns from `R2` and `R3`, the
primary set of `CC_A` is empty after resolution and its table holds the single `0`;
in the chain `A`, `B`, `C` the sets of `A` and `B` stay empty though `C` names `R9`. -/
theorem delegated_registers_not_merged :
    (resolved 2 delegatePair).map (fun E => E.AssignedRegsMap) =
      some [("CC_A", []), ("CC_B", ["R2", "R3"])] ∧
    (resolved 2 delegatePair).map emitTables =
      some ("\n#else\n\nconst MCRegister CC_A_ArgRegs[] = \x7b 0 \x7d;\n" ++
        "const MCRegister CC_B_ArgRegs[] = \x7b R2, R3 \x7d;\n") ∧
    (resolved 3 delegateChain).map (fun E => E.AssignedRegsMap) =
      some [("A", []), ("B", []), ("C", ["R9"])] := by
  decide

/-- C2 (counterexample): `C` delegates to `D`, `D` records `X20` in its Swift set, and
after resolution `X20` is not in the Swift set of `C`. -/
theorem auxiliary_set_not_closed :
    ∃ E, resolved 2 swiftDelegate = some E ∧
      "D" ∈ usage E.DelegateToMap "C" ∧
      "X20" ∈ usage E.AssignedSwiftRegsMap "D" ∧
      "X20" ∉ usage E.AssignedSwiftRegsMap "C" :=
  ⟨_, rfl, by decide, by decide, by decide⟩

/-- C2 (amended): for every emitter, the resolution loop comes to its end and leaves
the Swift map as it found it, so the Swift set of every convention after resolution is
the set synthesis recorded for it. -/
theorem resolution_keeps_auxiliary_sets (E : Emitter) :
    ∃ E1, resolveDelegates (E.DelegateToMap.length + 1) E = some E1 ∧
      E1.AssignedSwiftRegsMap = E.AssignedSwiftRegsMap := by
  obtain ⟨E1, h⟩ := resolveDelegates_some _ E (Nat.lt_succ_self _)
  exact ⟨E1, h, (resolveDelegates_frame _ _ _ h).1⟩

/-- C3: with distinct convention names, after all descriptions were emitted from a
fresh emitter, a register is in the primary or the Swift set of an emitted convention
exactly when it is named in the `RegList` of a register-assigning action
(`CCAssignToReg` or `CCAssignToRegAndStack`) of one of the action trees of the
convention. -/
theorem synthesis_records_assigned_registers (CCs : List CallingConv) (E : Emitter)
    (hnd : (CCs.map (fun CC => CC.Name)).Nodup) (h : synthesized CCs = some E)
    (CC : CallingConv) (hCC : CC ∈ CCs) (hc : CC.Custom = false) (r : String) :
    (r ∈ usage E.AssignedRegsMap CC.Name ∨ r ∈ usage E.AssignedSwiftRegsMap CC.Name) ↔
      ∃ T ∈ CC.Actions, ∃ N ∈ T.nested,
        N.record.kind = .AssignToReg ∧ r ∈ N.record.RegList := by
  obtain ⟨Text, hE⟩ := synthesized_eq_some h
  obtain ⟨hp, hs⟩ := (emitDescriptions_usage CCs _ _ _ hE).2 hnd CC hCC hc
  rw [hp r, hs r]
  have h0 : usage ({} : Emitter).AssignedSwiftRegsMap CC.Name = [] := rfl
  rw [h0]
  simp only [List.not_mem_nil, false_or, mem_assignedRegs]
  constructor
  · rintro (⟨A, hA, -, hr⟩ | ⟨A, hA, -, hr⟩) <;> exact ⟨A, hA, hr⟩
  · rintro ⟨A, hA, hr⟩
    cases hb : isSwiftAction A with
    | true => exact Or.inr ⟨A, hA, hb, hr⟩
    | false => exact Or.inl ⟨A, hA, hb, hr⟩

/-- C3 (witness): the convention `CC_X` of `mixedAssign` and the register `R1`. -/
theorem synthesis_records_assigned_registers_witness :
    ("R1" ∈ usage [("CC_X", ["R0", "R1"])] "CC_X" ∨ "R1" ∈ usage [("CC_X", ["X20"])] "CC_X") ↔
      ∃ T ∈ [ifSwiftSelf (ifType [i64] (assignToReg ["X20"])), assignToReg ["R0", "R1"]],
        ∃ N ∈ T.nested, N.record.kind = .AssignToReg ∧ "R1" ∈ N.record.RegList :=
  synthesis_records_assigned_registers mixedAssign
    { Counter := 1, CurrentAction := "CC_X", SwiftAction := false,
      AssignedRegsMap := [("CC_X", ["R0", "R1"])],
      AssignedSwiftRegsMap := [("CC_X", ["X20"])], DelegateToMap := [] }
    (by decide) (by decide)
    { Name := "CC_X",
      Actions := [ifSwiftSelf (ifType [i64] (assignToReg ["X20"])), assignToReg ["R0", "R1"]] }
    (by decide) rfl "R1"

/-- C4 (evaluation of the code): emitting `CCAssignToRegWithShadow<[R4, R5], [S4, S5]>`,
whose shadow list passes the length check, leaves both usage sets of the convention
empty, while the same registers through `CCAssignToReg` are recorded. -/
theorem shadowed_assignment_not_recorded :
    (synthesized shadowedAssign).map
        (fun E => (usage E.AssignedRegsMap "CC_W", usage E.AssignedSwiftRegsMap "CC_W")) =
      some ([], []) ∧
    (synthesized [{ Name := "CC_W", Actions := [assignToReg ["R4", "R5"]] }]).map
        (fun E => (usage E.AssignedRegsMap "CC_W", usage E.AssignedSwiftRegsMap "CC_W")) =
      some (["R4", "R5"], []) := by
  decide

/-- C5 (counterexample): after `CCAssignToStackWithShadow<8, 8, [S1]>` was emitted for
`CC_S`, the shadow register `S1` is in neither usage set of `CC_S`. -/
theorem stack_shadow_register_not_recorded :
    ∃ E, synthesized stackWithShadow = some E ∧
      "S1" ∉ usage E.AssignedRegsMap "CC_S" ∧
      "S1" ∉ usage E.AssignedSwiftRegsMap "CC_S" :=
  ⟨_, rfl, by decide, by decide⟩

/-- C5 (amended): emitting a `CCAssignToStackWithShadow` action always succeeds. It
writes the shadow registers, in the order of the record and separated by commas, into
an anonymous `ShadowRegList` constant, and passes that constant to the `AllocateStack`
call whose result is the offset; it takes two numbers from the counter (for the list
and for the offset) and leaves the two usage maps and the delegation map as they were,
so no shadow register is recorded. -/
theorem stack_with_shadow_keeps_usage (A : Action)
    (hk : A.record.kind = .AssignToStackWithShadow) (Indent : Nat) (E : Emitter) :
    ∃ E1, emitAction A Indent E =
        .ok (spaces Indent ++ "static const MCPhysReg ShadowRegList" ++
               toString (nextCounter E.Counter) ++ "[] = \x7b\n" ++
               spaces Indent ++ "  " ++ String.intercalate ", " A.record.ShadowRegList ++
               "\n" ++ spaces Indent ++ "\x7d;\n" ++
               spaces Indent ++ "int64_t Offset" ++
               toString (nextCounter (nextCounter E.Counter)) ++
               " = State.AllocateStack(" ++ toString (toInt A.record.Size) ++ ", Align(" ++
               toString (toInt A.record.Align) ++ "), " ++
               "ShadowRegList" ++ toString (nextCounter E.Counter) ++ ");\n" ++
               spaces Indent ++ "State.addLoc(CCValAssign::getMem(ValNo, ValVT, Offset" ++
               toString (nextCounter (nextCounter E.Counter)) ++ ", LocVT, LocInfo));\n" ++
               spaces Indent ++ "return false;\n",
             E1) ∧
      E1.AssignedRegsMap = E.AssignedRegsMap ∧
      E1.AssignedSwiftRegsMap = E.AssignedSwiftRegsMap ∧
      E1.DelegateToMap = E.DelegateToMap ∧
      E1.Counter = nextCounter (nextCounter E.Counter) := by
  rw [emitAction_eq_emitByKind A Indent E (by rw [hk]; decide), hk]
  exact ⟨_, rfl, rfl, rfl, rfl, rfl⟩

/-- C5 (witness): the action `CCAssignToStackWithShadow<8, 8, [S1]>` at indent 2, which
writes `S1` into `ShadowRegList1` and the offset into `Offset2`. -/
theorem stack_with_shadow_keeps_usage_witness :
    ∃ E1, emitAction (assignToStackWithShadow 8 8 ["S1"]) 2 {} =
        .ok ("  static const MCPhysReg ShadowRegList1[] = \x7b\n" ++
             "    S1\n" ++
             "  \x7d;\n" ++
             "  int64_t Offset2 = State.AllocateStack(8, Align(8), ShadowRegList1);\n" ++
             "  State.addLoc(CCValAssign::getMem(ValNo, ValVT, Offset2, LocVT, LocInfo));\n" ++
             "  return false;\n",
             E1) ∧
      E1.AssignedRegsMap = ({} : Emitter).AssignedRegsMap ∧
      E1.AssignedSwiftRegsMap = ({} : Emitter).AssignedSwiftRegsMap ∧
      E1.DelegateToMap = ({} : Emitter).DelegateToMap ∧
      E1.Counter = nextCounter (nextCounter ({} : Emitter).Counter) :=
  stack_with_shadow_keeps_usage (assignToStackWithShadow 8 8 ["S1"]) (by decide) 2 {}

/-- C7: emitting a `CCAssignToRegWithShadow` action ends in a fatal error exactly when
its shadow list is not empty and differs in length from its register list; a run over
conventions one of which is emitted and holds such an action anywhere in its action
trees then ends without output. -/
theorem shadow_length_mismatch_is_fatal (A : Action)
    (hk : A.record.kind = .AssignToRegWithShadow) (Indent : Nat) (E : Emitter) :
    ((∃ Msg, emitAction A Indent E = .error (.fatal Msg)) ↔
      (A.record.ShadowRegList ≠ [] ∧
        A.record.ShadowRegList.length ≠ A.record.RegList.length)) ∧
    ((A.record.ShadowRegList ≠ [] ∧
        A.record.ShadowRegList.length ≠ A.record.RegList.length) →
      ∀ (CCs : List CallingConv) (CC : CallingConv) (T : Action),
        CC ∈ CCs → CC.Custom = false → T ∈ CC.Actions → A ∈ T.nested →
        ∀ (Header : String) (fuel : Nat), ∃ F, run Header fuel CCs = .error F) := by
  have hne : A.record.kind ≠ .PredicateAction := by rw [hk]; decide
  have key : ∀ Indent E, emitAction A Indent E =
      emitAssignToRegWithShadow A.record Indent E := by
    intro Indent E
    rw [emitAction_eq_emitByKind A Indent E hne, hk]
    rfl
  have fatal : (A.record.ShadowRegList ≠ [] ∧
      A.record.ShadowRegList.length ≠ A.record.RegList.length) →
      ∀ Indent E, emitAction A Indent E =
        .error (.fatal "Invalid length of list of shadowed registers") := by
    intro hc Indent E
    rw [key, emitAssignToRegWithShadow, if_pos hc]
  refine ⟨⟨?_, fun hc => ⟨_, fatal hc Indent E⟩⟩, ?_⟩
  · rintro ⟨Msg, hM⟩
    by_contra hc
    rw [key, emitAssignToRegWithShadow, if_neg hc] at hM
    split at hM
    · split at hM
      · cases hM
      · cases hM
    · cases hM
  · intro hc CCs CC T hCC hcu hT hA Header fuel
    exact run_fails_of_failing_action hCC hcu hT hA
      (fun Indent E => ⟨_, fatal hc Indent E⟩) Header fuel

/-- C7 (witness): `registers = [R4, R5]` with `shadowRegisters = [S4]`. -/
theorem shadow_length_mismatch_is_fatal_witness :
    ((∃ Msg, emitAction (assignToRegWithShadow ["R4", "R5"] ["S4"]) 2 {} =
        .error (.fatal Msg)) ↔
      ((assignToRegWithShadow ["R4", "R5"] ["S4"]).record.ShadowRegList ≠ [] ∧
        (assignToRegWithShadow ["R4", "R5"] ["S4"]).record.ShadowRegList.length ≠
          (assignToRegWithShadow ["R4", "R5"] ["S4"]).record.RegList.length)) ∧
    (((assignToRegWithShadow ["R4", "R5"] ["S4"]).record.ShadowRegList ≠ [] ∧
        (assignToRegWithShadow ["R4", "R5"] ["S4"]).record.ShadowRegList.length ≠
          (assignToRegWithShadow ["R4", "R5"] ["S4"]).record.RegList.length) →
      ∀ (CCs : List CallingConv) (CC : CallingConv) (T : Action),
        CC ∈ CCs → CC.Custom = false → T ∈ CC.Actions →
        assignToRegWithShadow ["R4", "R5"] ["S4"] ∈ T.nested →
        ∀ (Header : String) (fuel : Nat), ∃ F, run Header fuel CCs = .error F) :=
  shadow_length_mismatch_is_fatal (assignToRegWithShadow ["R4", "R5"] ["S4"])
    (by decide) 2 {}

/-- C8: emitting a `CCPromoteToUpperBitsInType` action ends in a fatal error exactly
when its destination type is a floating-point type; for any other destination it
succeeds, leaves the emitter as it was and writes the choice between `SExtUpper`,
`ZExtUpper` and `AExtUpper` by the argument flags. -/
theorem promote_upper_bits_fatal_iff_floating (A : Action)
    (hk : A.record.kind = .PromoteToUpperBitsInType) (Indent : Nat) (E : Emitter) :
    ((∃ Msg, emitAction A Indent E = .error (.fatal Msg)) ↔
      A.record.DestTy.isFloatingPoint = true) ∧
    (A.record.DestTy.isFloatingPoint = false →
      emitAction A Indent E =
        .ok (spaces Indent ++ "LocVT = " ++ A.record.DestTy.EnumName ++ ";\n" ++
               spaces Indent ++ "if (ArgFlags.isSExt())\n" ++
               spaces Indent ++ "  LocInfo = CCValAssign::SExtUpper;\n" ++
               spaces Indent ++ "else if (ArgFlags.isZExt())\n" ++
               spaces Indent ++ "  LocInfo = CCValAssign::ZExtUpper;\n" ++
               spaces Indent ++ "else\n" ++
               spaces Indent ++ "  LocInfo = CCValAssign::AExtUpper;\n",
             E)) := by
  have hne : A.record.kind ≠ .PredicateAction := by rw [hk]; decide
  have key : emitAction A Indent E = emitPromoteToUpperBitsInType A.record Indent E := by
    rw [emitAction_eq_emitByKind A Indent E hne, hk]
    rfl
  rw [key]
  unfold emitPromoteToUpperBitsInType
  cases hf : A.record.DestTy.isFloatingPoint with
  | true =>
    rw [if_pos rfl]
    exact ⟨⟨fun _ => rfl, fun _ => ⟨_, rfl⟩⟩, fun h => by cases h⟩
  | false =>
    rw [if_neg (by simp)]
    refine ⟨⟨?_, fun h => by cases h⟩, fun _ => rfl⟩
    rintro ⟨Msg, hM⟩
    cases hM

/-- C8 (witness): `CCPromoteToUpperBitsInType<f64>`. -/
theorem promote_upper_bits_fatal_iff_floating_witness :
    ((∃ Msg, emitAction (promoteToUpperBitsInType f64) 2 {} = .error (.fatal Msg)) ↔
      (promoteToUpperBitsInType f64).record.DestTy.isFloatingPoint = true) ∧
    ((promoteToUpperBitsInType f64).record.DestTy.isFloatingPoint = false →
      emitAction (promoteToUpperBitsInType f64) 2 {} =
        .ok (spaces 2 ++ "LocVT = " ++
               (promoteToUpperBitsInType f64).record.DestTy.EnumName ++ ";\n" ++
               spaces 2 ++ "if (ArgFlags.isSExt())\n" ++
               spaces 2 ++ "  LocInfo = CCValAssign::SExtUpper;\n" ++
               spaces 2 ++ "else if (ArgFlags.isZExt())\n" ++
               spaces 2 ++ "  LocInfo = CCValAssign::ZExtUpper;\n" ++
               spaces 2 ++ "else\n" ++
               spaces 2 ++ "  LocInfo = CCValAssign::AExtUpper;\n",
             {})) :=
  promote_upper_bits_fatal_iff_floating (promoteToUpperBitsInType f64) (by decide) 2 {}

/-- C9: when a convention that is emitted holds an action of unknown kind anywhere in
one of its action trees (at top level, beneath predicates, or as a predicate that is
neither `CCIfType` nor `CCIf`), the run ends in a failure and yields no output,
whatever the other conventions are and wherever the convention stands among them. -/
theorem unknown_action_aborts_run (CCs : List CallingConv) (CC : CallingConv)
    (T A : Action) (hCC : CC ∈ CCs) (hc : CC.Custom = false) (hT : T ∈ CC.Actions)
    (hA : A ∈ T.nested) (hu : A.isUnknown) (Header : String) (fuel : Nat) :
    ∃ F, run Header fuel CCs = .error F := by
  refine run_fails_of_failing_action hCC hc hT hA (fun Indent E => ?_) Header fuel
  rcases emitAction_unknown hu Indent E with h | h
  · exact ⟨_, h⟩
  · exact ⟨_, h⟩

/-- C9 (witness): the unknown action beneath two predicates in the second convention
of `unknownNested`. -/
theorem unknown_action_aborts_run_witness :
    ∃ F, run "" 1 unknownNested = .error F :=
  unknown_action_aborts_run unknownNested
    { Name := "CC_U", Actions := [ifType [i64] (ifSwiftSelf unknownAction)] }
    (ifType [i64] (ifSwiftSelf unknownAction)) unknownAction
    (by decide) rfl (by decide) (by decide) (by decide) "" 1

/-- C10: from every emitter the resolution loop comes to its end within one pass more
than the delegation map has entries, and every pass that asks for a repeat has made the
delegation map smaller. -/
theorem resolution_terminates (E : Emitter) :
    (∃ E1, resolveDelegates (E.DelegateToMap.length + 1) E = some E1) ∧
    (∀ fuel E1, resolvePass fuel E = some (E1, true) →
      E1.DelegateToMap.length < E.DelegateToMap.length) :=
  ⟨resolveDelegates_some _ E (Nat.lt_succ_self _), fun _ _ h => resolvePass_lt h⟩

/-- C10 (witness): the emitter after the chain `A`, `B`, `C` was emitted, whose
delegation map has two entries. -/
theorem resolution_terminates_witness :
    (∃ E1, resolveDelegates 3
        { Counter := 0, CurrentAction := "C", SwiftAction := false,
          AssignedRegsMap := [("A", []), ("B", []), ("C", ["R9"])],
          AssignedSwiftRegsMap := [], DelegateToMap := [("A", ["B"]), ("B", ["C"])] } =
      some E1) ∧
    synthesized delegateChain =
      some { Counter := 0, CurrentAction := "C", SwiftAction := false,
             AssignedRegsMap := [("A", []), ("B", []), ("C", ["R9"])],
             AssignedSwiftRegsMap := [], DelegateToMap := [("A", ["B"]), ("B", ["C"])] } :=
  ⟨(resolution_terminates
      { Counter := 0, CurrentAction := "C", SwiftAction := false,
        AssignedRegsMap := [("A", []), ("B", []), ("C", ["R9"])],
        AssignedSwiftRegsMap := [], DelegateToMap := [("A", ["B"]), ("B", ["C"])] }).1,
    by decide⟩

/-- C11 (counterexample): for `A` and `B` delegating to each other the resolution loop
ends, returning the emitter it was given. -/
theorem cyclic_delegation_terminates :
    ∃ E, synthesized mutualDelegation = some E ∧
      "B" ∈ usage E.DelegateToMap "A" ∧ "A" ∈ usage E.DelegateToMap "B" ∧
      resolveDelegates 3 E = some E :=
  ⟨_, rfl, by decide, by decide, by decide⟩

/-- C11 (amended): for every rule set whose descriptions are emitted, with or without a
cycle of delegations, the resolution loop comes to its end within any number of passes
above the size of the delegation map, and the run returns its output. -/
theorem resolution_ends_on_cycles (CCs : List CallingConv) (E : Emitter)
    (h : synthesized CCs = some E) (Header : String) (fuel : Nat)
    (hf : E.DelegateToMap.length < fuel) :
    (∃ E1, resolveDelegates fuel E = some E1) ∧
    ∃ Out, run Header fuel CCs = .ok (some Out) := by
  obtain ⟨E1, h1⟩ := resolveDelegates_some fuel E hf
  refine ⟨⟨E1, h1⟩, ?_⟩
  obtain ⟨Text, hE⟩ := synthesized_eq_some h
  unfold run
  rw [hE]
  dsimp only
  unfold emitArgRegisterLists
  rw [h1]
  exact ⟨_, rfl⟩

/-- C11 (witness): the two conventions that delegate to each other. -/
theorem resolution_ends_on_cycles_witness :
    (∃ E1, resolveDelegates 3
        { Counter := 0, CurrentAction := "B", SwiftAction := false,
          AssignedRegsMap := [("A", []), ("B", [])], AssignedSwiftRegsMap := [],
          DelegateToMap := [("A", ["B"]), ("B", ["A"])] } = some E1) ∧
    ∃ Out, run "" 3 mutualDelegation = .ok (some Out) :=
  resolution_ends_on_cycles mutualDelegation _ (by decide) "" 3 (by decide)

/-- C19 (evaluation of the code): `CCAssignToRegWithShadow<[R4], []>` passes the length
check of line 215, and emitting it reads element 0 of the empty shadow list; the run
over a convention holding it ends on that read. -/
theorem single_register_reads_missing_shadow :
    ¬ ((assignToRegWithShadow ["R4"] []).record.ShadowRegList ≠ [] ∧
        (assignToRegWithShadow ["R4"] []).record.ShadowRegList.length ≠
          (assignToRegWithShadow ["R4"] []).record.RegList.length) ∧
    emitAction (assignToRegWithShadow ["R4"] []) 2 {} = .error .outOfRange ∧
    run "" 1 singleWithoutShadow = .error .outOfRange :=
  ⟨by decide, rfl, rfl⟩

/-- The emitter after an action that is not a predicate: the delegation map gained a
target, or registers were recorded after the counter was set. -/
theorem emitByKind_shape {R : ActionRecord} {Indent : Nat} {E E1 : Emitter}
    {Text : String} {K : ActionKind} (h : emitByKind R Indent E K = .ok (Text, E1)) :
    E1 = { E with
           DelegateToMap := mapSubscript E.CurrentAction (setInsert R.CC) E.DelegateToMap } ∨
      ∃ (L : List String) (c : Nat), E1 = L.foldl recordReg { E with Counter := c } := by
  cases K
  case PredicateAction => cases h
  case DelegateTo => exact Or.inl (ok_state_eq h).symm
  case AssignToReg =>
    change emitAssignToReg R Indent E = _ at h
    unfold emitAssignToReg at h
    split at h
    · rename_i Name _
      exact Or.inr ⟨[Name], E.Counter, (ok_state_eq h).symm⟩
    · exact Or.inr ⟨R.RegList, nextCounter E.Counter, (ok_state_eq h).symm⟩
  case AssignToRegWithShadow =>
    rcases emitAssignToRegWithShadow_state h with h' | h'
    · exact Or.inr ⟨[], E.Counter, h'⟩
    · exact Or.inr ⟨[], _, h'⟩
  case PromoteToUpperBitsInType =>
    change emitPromoteToUpperBitsInType R Indent E = _ at h
    unfold emitPromoteToUpperBitsInType at h
    split_ifs at h
    exact Or.inr ⟨[], E.Counter, (ok_state_eq h).symm⟩
  case Unknown => cases h
  case AssignToStack => exact Or.inr ⟨[], _, (ok_state_eq h).symm⟩
  case AssignToStackWithShadow => exact Or.inr ⟨[], _, (ok_state_eq h).symm⟩
  all_goals exact Or.inr ⟨[], E.Counter, (ok_state_eq h).symm⟩

/-- A property of the emitter that survives every elementary update made while actions
are emitted holds after the loop over the actions of a convention. -/
theorem emitActions_invariant (P : Emitter → Prop)
    (hCounter : ∀ E c, P E → P { E with Counter := c })
    (hSwift : ∀ E b, P E → P { E with SwiftAction := b })
    (hDelegate : ∀ E t, P E →
      P { E with
          DelegateToMap := mapSubscript E.CurrentAction (setInsert t) E.DelegateToMap })
    (hRecord : ∀ E n, P E → P (recordReg E n)) :
    ∀ (As : List Action) (E E1 : Emitter) (Text : String),
      emitActions As E = .ok (Text, E1) → P E → P E1 := by
  have hFold : ∀ (L : List String) (E : Emitter), P E → P (L.foldl recordReg E) := by
    intro L
    induction L with
    | nil => intro E hE; exact hE
    | cons n L ih => intro E hE; exact ih _ (hRecord E n hE)
  have hKind : ∀ (A : Action) (Indent : Nat) (E E1 : Emitter) (Text : String),
      A.record.kind ≠ .PredicateAction → emitAction A Indent E = .ok (Text, E1) →
      P E → P E1 := by
    intro A Indent E E1 Text hk h hE
    rw [emitAction_eq_emitByKind _ _ _ hk] at h
    rcases emitByKind_shape h with h' | ⟨L, c, h'⟩
    · rw [h']
      exact hDelegate E _ hE
    · rw [h']
      exact hFold L _ (hCounter E c hE)
  have hAction : ∀ (A : Action) (Indent : Nat) (E E1 : Emitter) (Text : String),
      emitAction A Indent E = .ok (Text, E1) → P E → P E1 := by
    intro A
    induction A with
    | leaf R =>
      intro Indent E E1 Text h hE
      by_cases hp : R.isSubClassOf "CCPredicateAction" = true
      · obtain ⟨F, hF⟩ := emitAction_leaf_predicate Indent E hp
        rw [hF] at h
        cases h
      · exact hKind _ _ _ _ _ (by rwa [Ne, kind_predicate_iff]) h hE
    | sub R S ih =>
      intro Indent E E1 Text h hE
      by_cases hp : R.isSubClassOf "CCPredicateAction" = true
      · obtain ⟨Body, hS⟩ := emitAction_sub_predicate hp h
        exact ih _ _ _ _ hS hE
      · exact hKind _ _ _ _ _ (by rwa [Ne, kind_predicate_iff]) h hE
  intro As
  induction As with
  | nil =>
    intro E E1 Text h hE
    rw [← ok_state_eq h]
    exact hE
  | cons A Rest ih =>
    intro E E2 Text h hE
    obtain ⟨T, E1, M, hA, hR⟩ := emitActions_cons_ok h
    exact ih _ _ _ hR (hAction A _ _ _ _ hA (hSwift E _ hE))

/-- A property of the emitter that survives every elementary update of synthesis holds
for the emitter synthesis leaves. -/
theorem synthesized_invariant (P : Emitter → Prop) (h0 : P {})
    (hCounter : ∀ E c, P E → P { E with Counter := c })
    (hSwift : ∀ E b, P E → P { E with SwiftAction := b })
    (hDelegate : ∀ E t, P E →
      P { E with
          DelegateToMap := mapSubscript E.CurrentAction (setInsert t) E.DelegateToMap })
    (hRecord : ∀ E n, P E → P (recordReg E n))
    (hStart : ∀ E Name, P E →
      P { E with Counter := 0, CurrentAction := Name,
                 AssignedRegsMap := mapSubscript Name (fun _ => []) E.AssignedRegsMap })
    {CCs : List CallingConv} {E : Emitter} (h : synthesized CCs = some E) : P E := by
  have hActions := emitActions_invariant P hCounter hSwift hDelegate hRecord
  have hAll : ∀ (CCs : List CallingConv) (E E1 : Emitter) (Text : String),
      emitDescriptions CCs E = .ok (Text, E1) → P E → P E1 := by
    intro CCs
    induction CCs with
    | nil =>
      intro E E1 Text h hE
      rw [← ok_state_eq h]
      exact hE
    | cons C CCs ih =>
      intro E E2 Text h hE
      cases hc : C.Custom with
      | true =>
        rw [emitDescriptions_cons_custom E hc] at h
        exact ih _ _ _ h hE
      | false =>
        obtain ⟨T, E1, M, hA, hR⟩ := emitDescriptions_cons_ok hc h
        obtain ⟨Body, hB⟩ := emitCallingConv_ok hA
        exact ih _ _ _ hR (hActions _ _ _ _ hB (hStart E C.Name hE))
  obtain ⟨Text, hE⟩ := synthesized_eq_some h
  exact hAll CCs _ _ _ hE h0

/-- Every entry of the Swift map that synthesis leaves holds a register. -/
theorem synthesized_swift_nonempty {CCs : List CallingConv} {E : Emitter}
    (h : synthesized CCs = some E) : ∀ e ∈ E.AssignedSwiftRegsMap, e.2 ≠ [] := by
  refine synthesized_invariant (fun E => ∀ e ∈ E.AssignedSwiftRegsMap, e.2 ≠ [])
    (fun e he => absurd he (List.not_mem_nil _)) (fun _ _ h => h) (fun _ _ h => h)
    (fun _ _ h => h) ?_ (fun _ _ h => h) h
  intro E n hE
  unfold recordReg
  split_ifs
  · exact mapSubscript_targets (fun S => setInsert_ne_nil _ S) hE
  · exact hE

/-- The text of an entry of the primary table, with its elements spelled out. -/
theorem argRegsEntry_text (e : String × StringSet) :
    argRegsEntry e =
      if e.1.isEmpty then ""
      else "const MCRegister " ++ e.1 ++ "_ArgRegs[] = \x7b " ++
        String.intercalate ", " (if e.2 = [] then ["0"] else e.2) ++ " \x7d;\n" := by
  unfold argRegsEntry commaList
  by_cases h₁ : e.1.isEmpty = true
  · rw [if_pos h₁, if_pos h₁]
  · rw [if_neg h₁, if_neg h₁]
    by_cases h₂ : e.2 = []
    · rw [if_pos h₂, if_pos h₂]
      rfl
    · rw [if_neg h₂, if_neg h₂]

/-- The text of the tables, with the elements of every entry spelled out. -/
theorem emitTables_text (E : Emitter) :
    emitTables E =
      if E.AssignedRegsMap = [] then ""
      else
        "\n#else\n\n" ++
        String.join (E.AssignedRegsMap.map (fun e =>
          if e.1.isEmpty then ""
          else "const MCRegister " ++ e.1 ++ "_ArgRegs[] = \x7b " ++
            String.intercalate ", " (if e.2 = [] then ["0"] else e.2) ++ " \x7d;\n")) ++
        (if E.AssignedSwiftRegsMap = [] then ""
         else
           "\n// Registers used by Swift.\n" ++
           String.join (E.AssignedSwiftRegsMap.map (fun e =>
             "const MCRegister " ++ e.1 ++ "_Swift_ArgRegs[] = \x7b " ++
               String.intercalate ", " e.2 ++ " \x7d;\n"))) := by
  unfold emitTables
  rw [funext argRegsEntry_text]
  rfl

/-- C12: for every rule set whose synthesis succeeds, the text of the tables is the
entries of the primary map, each listing the registers of its set or the single `0`
when the set is empty, followed by the entries of the Swift map, each listing the
registers of its set; the elements listed in a primary entry are never none, and every
set of the Swift map holds a register, so no entry of either table is empty. -/
theorem usage_tables_never_empty (CCs : List CallingConv) (E : Emitter)
    (h : synthesized CCs = some E) (fuel : Nat) (hf : E.DelegateToMap.length < fuel) :
    emitArgRegisterLists fuel E =
      some (
        (if E.AssignedRegsMap = [] then ""
         else
          "\n#else\n\n" ++
          String.join (E.AssignedRegsMap.map (fun e =>
            if e.1.isEmpty then ""
            else "const MCRegister " ++ e.1 ++ "_ArgRegs[] = \x7b " ++
              String.intercalate ", " (if e.2 = [] then ["0"] else e.2) ++ " \x7d;\n")) ++
          (if E.AssignedSwiftRegsMap = [] then ""
           else
             "\n// Registers used by Swift.\n" ++
             String.join (E.AssignedSwiftRegsMap.map (fun e =>
               "const MCRegister " ++ e.1 ++ "_Swift_ArgRegs[] = \x7b " ++
                 String.intercalate ", " e.2 ++ " \x7d;\n")))),
        E) ∧
    (∀ e ∈ E.AssignedRegsMap,
      (if e.2 = [] then ["0"] else e.2) ≠ [] ∧
      (e.2 = [] → (if e.2 = [] then ["0"] else e.2) = ["0"])) ∧
    (∀ e ∈ E.AssignedSwiftRegsMap, e.2 ≠ []) := by
  refine ⟨?_, fun e _ => ⟨?_, ?_⟩, synthesized_swift_nonempty h⟩
  · unfold emitArgRegisterLists
    rw [resolveDelegates_of_targets (synthesized_targets h) hf]
    dsimp only
    rw [emitTables_text]
  · split_ifs with h₁
    · simp
    · exact h₁
  · intro h₁
    rw [if_pos h₁]

/-- C12 (witness): a Swift action with an empty register list leaves the Swift map
without an entry, and the primary table of `CC_E` holds the single `0`. -/
theorem usage_tables_never_empty_witness :
    emitArgRegisterLists 1 emptySwiftListEmitter =
      some ("\n#else\n\nconst MCRegister CC_E_ArgRegs[] = \x7b 0 \x7d;\n",
        emptySwiftListEmitter) ∧
    (∀ e ∈ emptySwiftListEmitter.AssignedRegsMap,
      (if e.2 = [] then ["0"] else e.2) ≠ [] ∧
      (e.2 = [] → (if e.2 = [] then ["0"] else e.2) = ["0"])) ∧
    (∀ e ∈ emptySwiftListEmitter.AssignedSwiftRegsMap, e.2 ≠ []) :=
  usage_tables_never_empty emptySwiftList emptySwiftListEmitter (by decide) 1 (by decide)

/-! ## Lemmas on the emitted text -/

theorem foldl_append_string (L : List String) :
    ∀ a : String, L.foldl (fun r s => r ++ s) a = a ++ L.foldl (fun r s => r ++ s) "" := by
  induction L with
  | nil => intro a; simp
  | cons b L ih =>
    intro a
    rw [List.foldl_cons, List.foldl_cons, ih (a ++ b), ih ("" ++ b), String.empty_append,
      String.append_assoc]

theorem join_cons (a : String) (L : List String) :
    String.join (a :: L) = a ++ String.join L := by
  unfold String.join
  rw [List.foldl_cons, foldl_append_string, String.empty_append]

theorem ok_text_eq {T : String} {E : Emitter} {T1 : String} {E1 : Emitter}
    (h : (Except.ok (T, E) : Except Failure (String × Emitter)) = .ok (T1, E1)) : T = T1 :=
  (Prod.mk.inj (Except.ok.inj h)).1

/-- The text of the loop over the actions: a line break and the code of each action, in
the order of the list. -/
theorem emitActions_text (As : List Action) :
    ∀ (E E1 : Emitter) (Text : String), emitActions As E = .ok (Text, E1) →
      ∃ Texts : List String,
        List.Forall₂ (fun A T => ∃ E0 E2, emitAction A 2 E0 = .ok (T, E2)) As Texts ∧
        Text = String.join (Texts.map (fun T => "\n" ++ T)) := by
  induction As with
  | nil =>
    intro E E1 Text h
    exact ⟨[], List.Forall₂.nil, (ok_text_eq h).symm⟩
  | cons A Rest ih =>
    intro E E2 Text h
    unfold emitActions at h
    split at h
    · cases h
    · rename_i T E1 hA
      split at h
      · cases h
      · rename_i M E3 hR
        obtain ⟨Texts, hF, hM⟩ := ih _ _ _ hR
        refine ⟨T :: Texts, List.Forall₂.cons ⟨_, _, hA⟩ hF, ?_⟩
        rw [← ok_text_eq h, List.map_cons, join_cons, hM]

/-- The text of the descriptions: one body for every convention that is not `Custom`, in
the order of the list, each opened by the signature of its convention and closed by the
default return. -/
theorem emitDescriptions_text (CCs : List CallingConv) :
    ∀ (E E1 : Emitter) (Text : String), emitDescriptions CCs E = .ok (Text, E1) →
      ∃ Bodies : List String,
        List.Forall₂
          (fun CC B => ∃ Body, B = "\n\n" ++ signature CC.Name CC.Entry ++ " \x7b\n" ++
            Body ++ "\n  return true; // CC didn't match.\n" ++ "\x7d\n")
          (CCs.filter (fun CC => !CC.Custom)) Bodies ∧
        Text = String.join Bodies := by
  induction CCs with
  | nil =>
    intro E E1 Text h
    exact ⟨[], List.Forall₂.nil, (ok_text_eq h).symm⟩
  | cons C CCs ih =>
    intro E E2 Text h
    cases hc : C.Custom with
    | true =>
      rw [emitDescriptions_cons_custom E hc] at h
      obtain ⟨Bodies, hF, hT⟩ := ih _ _ _ h
      refine ⟨Bodies, ?_, hT⟩
      rw [List.filter_cons_of_neg (by simp [hc])]
      exact hF
    | false =>
      have hc' : ¬ C.Custom = true := by simp [hc]
      rw [emitDescriptions, if_neg hc'] at h
      split at h
      · cases h
      · rename_i T E1 hA
        split at h
        · cases h
        · rename_i M E3 hR
          obtain ⟨Bodies, hF, hT⟩ := ih _ _ _ hR
          unfold emitCallingConv at hA
          dsimp only at hA
          split at hA
          · cases hA
          · rename_i Body E4 hB
            refine ⟨T :: Bodies, ?_, ?_⟩
            · rw [List.filter_cons_of_pos (by simp [hc])]
              exact List.Forall₂.cons ⟨Body, (ok_text_eq hA).symm⟩ hF
            · rw [← ok_text_eq h, join_cons, hT]

theorem emitPrototypes_eq (CCs : List CallingConv) :
    emitPrototypes CCs =
      String.join ((CCs.filter (fun CC => !CC.Custom)).map
        (fun CC => signature CC.Name CC.Entry ++ ";\n")) := by
  induction CCs with
  | nil => rfl
  | cons C CCs ih =>
    unfold emitPrototypes
    cases hc : C.Custom with
    | true =>
      rw [List.filter_cons_of_neg (by simp [hc]), ih]
      simp
    | false =>
      rw [List.filter_cons_of_pos (by simp [hc]), List.map_cons, join_cons, ih]
      simp

/-- C14: for every rule set whose synthesis succeeds, the run writes, after the header
and the opening guard, one prototype for every convention that is not `Custom`, in the
order of the list, then one body for each of these conventions, in the same order; a
prototype is the signature that opens the body of its convention followed by a
semicolon; a `Custom` convention contributes neither. The tables follow the bodies. -/
theorem phase_one_lists_prototypes_then_bodies (Header : String) (CCs : List CallingConv)
    (E : Emitter) (h : synthesized CCs = some E) (fuel : Nat)
    (hf : E.DelegateToMap.length < fuel) :
    ∃ Bodies : List String,
      List.Forall₂
        (fun CC B => ∃ Body, B = "\n\n" ++ signature CC.Name CC.Entry ++ " \x7b\n" ++
          Body ++ "\n  return true; // CC didn't match.\n" ++ "\x7d\n")
        (CCs.filter (fun CC => !CC.Custom)) Bodies ∧
      run Header fuel CCs =
        .ok (some (Header ++ "#ifndef GET_CC_REGISTER_LISTS\n\n" ++
          String.join ((CCs.filter (fun CC => !CC.Custom)).map
            (fun CC => signature CC.Name CC.Entry ++ ";\n")) ++
          String.join Bodies ++ emitTables E ++ "\n#endif // CC_REGISTER_LIST\n")) := by
  obtain ⟨Text, hE⟩ := synthesized_eq_some h
  obtain ⟨Bodies, hF, hT⟩ := emitDescriptions_text CCs _ _ _ hE
  refine ⟨Bodies, hF, ?_⟩
  have hA : emitArgRegisterLists fuel E = some (emitTables E, E) := by
    unfold emitArgRegisterLists
    rw [resolveDelegates_of_targets (synthesized_targets h) hf]
  unfold run
  rw [hE]
  dsimp only
  rw [hA, emitPrototypes_eq, hT]

/-- C14 (witness): the externally implemented `CC_C` and the entry point `CC_B`. -/
theorem phase_one_lists_prototypes_then_bodies_witness :
    ∃ Bodies : List String,
      List.Forall₂
        (fun CC B => ∃ Body, B = "\n\n" ++ signature CC.Name CC.Entry ++ " \x7b\n" ++
          Body ++ "\n  return true; // CC didn't match.\n" ++ "\x7d\n")
        (customAndEntry.filter (fun CC => !CC.Custom)) Bodies ∧
      run "" 1 customAndEntry =
        .ok (some ("" ++ "#ifndef GET_CC_REGISTER_LISTS\n\n" ++
          String.join ((customAndEntry.filter (fun CC => !CC.Custom)).map
            (fun CC => signature CC.Name CC.Entry ++ ";\n")) ++
          String.join Bodies ++ emitTables customAndEntryEmitter ++
          "\n#endif // CC_REGISTER_LIST\n")) :=
  phase_one_lists_prototypes_then_bodies "" customAndEntry customAndEntryEmitter
    (by decide) 1 (by decide)

/-- C15: the body emitted for a convention is its signature and an opening brace, then
a line break and the code of each action in the order of the list, then the default
return `return true` and the closing brace; with no action the body holds that return
alone. -/
theorem body_ends_with_default_return (CC : CallingConv) (E E1 : Emitter) (Text : String)
    (h : emitCallingConv CC E = .ok (Text, E1)) :
    (∃ Texts : List String,
      List.Forall₂ (fun A T => ∃ E0 E2, emitAction A 2 E0 = .ok (T, E2)) CC.Actions Texts ∧
      Text = "\n\n" ++ signature CC.Name CC.Entry ++ " \x7b\n" ++
        String.join (Texts.map (fun T => "\n" ++ T)) ++
        "\n  return true; // CC didn't match.\n" ++ "\x7d\n") ∧
    (CC.Actions = [] →
      Text = "\n\n" ++ signature CC.Name CC.Entry ++ " \x7b\n" ++
        "\n  return true; // CC didn't match.\n" ++ "\x7d\n") := by
  unfold emitCallingConv at h
  dsimp only at h
  split at h
  · cases h
  · rename_i Body E2 hB
    obtain ⟨Texts, hF, hT⟩ := emitActions_text _ _ _ _ hB
    have hText := ok_text_eq h
    rw [hT] at hText
    refine ⟨⟨Texts, hF, hText.symm⟩, fun hnil => ?_⟩
    rw [hnil] at hF
    cases hF
    rw [← hText]
    simp [String.join]

/-- C15 (witness): a convention without actions. -/
theorem body_ends_with_default_return_witness :
    (∃ Texts : List String,
      List.Forall₂ (fun A T => ∃ E0 E2, emitAction A 2 E0 = .ok (T, E2))
        ({ Name := "CC_0" } : CallingConv).Actions Texts ∧
      "\n\nstatic bool CC_0(unsigned ValNo, MVT ValVT,\n" ++
          "                 MVT LocVT, CCValAssign::LocInfo LocInfo,\n" ++
          "                 ISD::ArgFlagsTy ArgFlags, CCState &State) \x7b\n" ++
          "\n  return true; // CC didn't match.\n\x7d\n" =
        "\n\n" ++ signature "CC_0" false ++ " \x7b\n" ++
        String.join (Texts.map (fun T => "\n" ++ T)) ++
        "\n  return true; // CC didn't match.\n" ++ "\x7d\n") ∧
    (({ Name := "CC_0" } : CallingConv).Actions = [] →
      "\n\nstatic bool CC_0(unsigned ValNo, MVT ValVT,\n" ++
          "                 MVT LocVT, CCValAssign::LocInfo LocInfo,\n" ++
          "                 ISD::ArgFlagsTy ArgFlags, CCState &State) \x7b\n" ++
          "\n  return true; // CC didn't match.\n\x7d\n" =
        "\n\n" ++ signature "CC_0" false ++ " \x7b\n" ++
        "\n  return true; // CC didn't match.\n" ++ "\x7d\n") :=
  body_ends_with_default_return { Name := "CC_0" } {}
    { Counter := 0, CurrentAction := "CC_0", AssignedRegsMap := [("CC_0", [])] } _ rfl

/-! ## Lemmas on the delegation map entries -/

theorem setInsert_sorted (x : String) (S : StringSet) (h : S.Pairwise strLess) :
    (setInsert x S).Pairwise strLess := by
  induction S with
  | nil => simp [setInsert]
  | cons y S ih =>
    obtain ⟨hy, hS⟩ := List.pairwise_cons.mp h
    unfold setInsert
    split_ifs with h₁ h₂
    · refine List.pairwise_cons.mpr ⟨fun z hz => ?_, h⟩
      rcases List.mem_cons.mp hz with rfl | hz
      · exact h₁
      · exact strLess_trans h₁ (hy z hz)
    · exact h
    · refine List.pairwise_cons.mpr ⟨fun z hz => ?_, ih hS⟩
      rcases (mem_setInsert x z S).mp hz with rfl | hz
      · exact strLess_total h₁ h₂
      · exact hy z hz

theorem keys_mapSubscript (k : String) (f : StringSet → StringSet) (M : StringSetMap) :
    (mapSubscript k f M).map Prod.fst = setInsert k (M.map Prod.fst) := by
  induction M with
  | nil => rfl
  | cons e M ih =>
    obtain ⟨k', v⟩ := e
    unfold mapSubscript
    simp only [List.map_cons, setInsert]
    split_ifs <;> simp [ih]

theorem mapSubscript_values {Q : StringSet → Prop} {k : String}
    {f : StringSet → StringSet} {M : StringSetMap}
    (hnil : Q (f [])) (hf : ∀ S, Q S → Q (f S)) (hM : ∀ e ∈ M, Q e.2) :
    ∀ e ∈ mapSubscript k f M, Q e.2 := by
  induction M with
  | nil =>
    intro e he
    simp only [mapSubscript, List.mem_singleton] at he
    subst he
    exact hnil
  | cons e₀ M ih =>
    obtain ⟨k₀, v⟩ := e₀
    intro e he
    unfold mapSubscript at he
    split_ifs at he with h₁ h₂
    · rcases List.mem_cons.mp he with rfl | he
      · exact hnil
      · exact hM e he
    · rcases List.mem_cons.mp he with rfl | he
      · exact hf v (hM (k₀, v) (List.mem_cons_self _ _))
      · exact hM e (List.mem_cons_of_mem _ he)
    · rcases List.mem_cons.mp he with rfl | he
      · exact hM _ (List.mem_cons_self _ _)
      · exact ih (fun e' he' => hM e' (List.mem_cons_of_mem _ he')) e he

/-- In a map with increasing keys every entry is found under its key. -/
theorem mapFind_of_mem {M : StringSetMap} (hM : (M.map Prod.fst).Pairwise strLess)
    {k : String} {v : StringSet} (h : (k, v) ∈ M) : mapFind k M = some v := by
  induction M with
  | nil => exact absurd h (List.not_mem_nil _)
  | cons e M ih =>
    obtain ⟨k₀, v₀⟩ := e
    rw [List.map_cons, List.pairwise_cons] at hM
    obtain ⟨h₀, hM⟩ := hM
    rcases List.mem_cons.mp h with h | h
    · cases h
      simp [mapFind, strLess_irrefl]
    · have hlt : strLess k₀ k := h₀ k (List.mem_map.mpr ⟨(k, v), h, rfl⟩)
      have hne : k ≠ k₀ := fun e => strLess_irrefl k (e ▸ hlt)
      simp only [mapFind, strLess_asymm hlt, hne, if_false]
      exact ih hM h

theorem mem_of_mapFind {M : StringSetMap} {k : String} {v : StringSet}
    (h : mapFind k M = some v) : (k, v) ∈ M := by
  induction M with
  | nil => simp [mapFind] at h
  | cons e M ih =>
    obtain ⟨k₀, v₀⟩ := e
    unfold mapFind at h
    split_ifs at h with h₁ h₂
    · cases h
      subst h₂
      exact List.mem_cons_self _ _
    · exact List.mem_cons_of_mem _ (ih h)

/-- With increasing keys, the keys of a map are the names it holds an entry for. -/
theorem mem_keys_iff {M : StringSetMap} (hM : (M.map Prod.fst).Pairwise strLess)
    (k : String) : k ∈ M.map Prod.fst ↔ (mapFind k M).isSome = true := by
  constructor
  · intro h
    obtain ⟨e, he, rfl⟩ := List.mem_map.mp h
    rw [mapFind_of_mem hM he]
    rfl
  · intro h
    obtain ⟨v, hv⟩ := Option.isSome_iff_exists.mp h
    exact List.mem_map.mpr ⟨(k, v), mem_of_mapFind hv, rfl⟩

/-- Two increasing lists with the same members are the same list. -/
theorem sorted_ext {L L' : List String} (h : L.Pairwise strLess) (h' : L'.Pairwise strLess)
    (hm : ∀ x, x ∈ L ↔ x ∈ L') : L = L' := by
  haveI : IsAntisymm String strLess := ⟨fun a b h₁ h₂ => absurd h₂ (strLess_asymm h₁)⟩
  have hne : ∀ {L : List String}, L.Pairwise strLess → L.Nodup := by
    intro L hL
    refine List.Pairwise.imp ?_ hL
    intro a b hab e
    rw [e] at hab
    exact strLess_irrefl b hab
  exact List.eq_of_perm_of_sorted ((List.perm_ext_iff_of_nodup (hne h) (hne h')).mpr hm) h h'

/-- A map with increasing keys is its list of keys, each with the set found under it. -/
theorem map_eq_keys_usage {M : StringSetMap} (hM : (M.map Prod.fst).Pairwise strLess) :
    M = (M.map Prod.fst).map (fun k => (k, usage M k)) := by
  rw [List.map_map]
  conv_lhs => rw [← List.map_id M]
  refine List.map_congr_left (fun e he => ?_)
  obtain ⟨k, v⟩ := e
  simp only [id, Function.comp, usage, mapFind_of_mem hM he, Option.getD_some]

/-- Two maps with increasing keys and increasing sets that hold entries for the same
names, with the same members under each name, are the same map. -/
theorem map_ext {M M' : StringSetMap} (hM : (M.map Prod.fst).Pairwise strLess)
    (hM' : (M'.map Prod.fst).Pairwise strLess) (hv : ∀ e ∈ M, e.2.Pairwise strLess)
    (hv' : ∀ e ∈ M', e.2.Pairwise strLess)
    (hk : ∀ k, (mapFind k M).isSome = true ↔ (mapFind k M').isSome = true)
    (hu : ∀ k r, r ∈ usage M k ↔ r ∈ usage M' k) : M = M' := by
  have hkeys : M.map Prod.fst = M'.map Prod.fst :=
    sorted_ext hM hM' (fun k => by rw [mem_keys_iff hM, mem_keys_iff hM', hk])
  have hs : ∀ {N : StringSetMap}, (∀ e ∈ N, e.2.Pairwise strLess) → ∀ k,
      (usage N k).Pairwise strLess := by
    intro N hN k
    unfold usage
    cases hf : mapFind k N with
    | none => exact List.Pairwise.nil
    | some v => exact hN (k, v) (mem_of_mapFind hf)
  rw [map_eq_keys_usage hM, map_eq_keys_usage hM', hkeys]
  refine List.map_congr_left (fun k _ => ?_)
  rw [sorted_ext (hs hv k) (hs hv' k) (hu k)]

/-- In the emitter synthesis leaves, the two usage maps have increasing keys and every
set in them is increasing. -/
theorem synthesized_sorted {CCs : List CallingConv} {E : Emitter}
    (h : synthesized CCs = some E) :
    (E.AssignedRegsMap.map Prod.fst).Pairwise strLess ∧
    (E.AssignedSwiftRegsMap.map Prod.fst).Pairwise strLess ∧
    (∀ e ∈ E.AssignedRegsMap, e.2.Pairwise strLess) ∧
    (∀ e ∈ E.AssignedSwiftRegsMap, e.2.Pairwise strLess) := by
  refine synthesized_invariant
    (fun E => (E.AssignedRegsMap.map Prod.fst).Pairwise strLess ∧
      (E.AssignedSwiftRegsMap.map Prod.fst).Pairwise strLess ∧
      (∀ e ∈ E.AssignedRegsMap, e.2.Pairwise strLess) ∧
      (∀ e ∈ E.AssignedSwiftRegsMap, e.2.Pairwise strLess))
    ⟨List.Pairwise.nil, List.Pairwise.nil, fun e he => absurd he (List.not_mem_nil _),
      fun e he => absurd he (List.not_mem_nil _)⟩
    (fun _ _ h => h) (fun _ _ h => h) (fun _ _ h => h) ?_ ?_ h
  · rintro E n ⟨h₁, h₂, h₃, h₄⟩
    unfold recordReg
    split_ifs
    · refine ⟨h₁, ?_, h₃, ?_⟩
      · show ((mapSubscript _ _ _).map Prod.fst).Pairwise strLess
        rw [keys_mapSubscript]
        exact setInsert_sorted _ _ h₂
      · exact mapSubscript_values (Q := fun S => S.Pairwise strLess)
          (setInsert_sorted n [] List.Pairwise.nil) (fun S hS => setInsert_sorted n S hS) h₄
    · refine ⟨?_, h₂, ?_, h₄⟩
      · show ((mapSubscript _ _ _).map Prod.fst).Pairwise strLess
        rw [keys_mapSubscript]
        exact setInsert_sorted _ _ h₁
      · exact mapSubscript_values (Q := fun S => S.Pairwise strLess)
          (setInsert_sorted n [] List.Pairwise.nil) (fun S hS => setInsert_sorted n S hS) h₃
  · rintro E Name ⟨h₁, h₂, h₃, h₄⟩
    refine ⟨?_, h₂, ?_, h₄⟩
    · show ((mapSubscript _ _ _).map Prod.fst).Pairwise strLess
      rw [keys_mapSubscript]
      exact setInsert_sorted _ _ h₁
    · exact mapSubscript_values (Q := fun S => S.Pairwise strLess)
        List.Pairwise.nil (fun _ _ => List.Pairwise.nil) h₃

/-- A convention that was emitted has an entry in the primary map. -/
theorem emitCallingConv_entry {CC : CallingConv} {E E1 : Emitter} {Text : String}
    (h : emitCallingConv CC E = .ok (Text, E1)) :
    (mapFind CC.Name E1.AssignedRegsMap).isSome = true := by
  obtain ⟨Body, hB⟩ := emitCallingConv_ok h
  refine emitActions_invariant
    (fun E => (mapFind CC.Name E.AssignedRegsMap).isSome = true)
    (fun _ _ h => h) (fun _ _ h => h) (fun _ _ h => h) ?_ _ _ _ _ hB ?_
  · intro E n hE
    unfold recordReg
    split_ifs
    · exact hE
    · show (mapFind CC.Name (mapSubscript _ _ _)).isSome = true
      by_cases hk : CC.Name = E.CurrentAction
      · rw [hk, mapFind_mapSubscript_self]
        rfl
      · rw [mapFind_mapSubscript_ne hk]
        exact hE
  · show (mapFind CC.Name (mapSubscript _ _ _)).isSome = true
    rw [mapFind_mapSubscript_self]
    rfl

/-- The names with an entry in the primary map after the descriptions were emitted:
those that had one before and those of the conventions that are not `Custom`. -/
theorem emitDescriptions_entries (CCs : List CallingConv) :
    ∀ (E E1 : Emitter) (Text : String), emitDescriptions CCs E = .ok (Text, E1) →
      ∀ k, (mapFind k E1.AssignedRegsMap).isSome = true ↔
        (mapFind k E.AssignedRegsMap).isSome = true ∨
          ∃ CC ∈ CCs, CC.Custom = false ∧ CC.Name = k := by
  induction CCs with
  | nil =>
    intro E E1 Text h k
    rw [← ok_state_eq h]
    simp
  | cons C CCs ih =>
    intro E E2 Text h k
    cases hc : C.Custom with
    | true =>
      rw [emitDescriptions_cons_custom E hc] at h
      rw [ih _ _ _ h k]
      simp [hc]
    | false =>
      obtain ⟨T, E1, M, hA, hR⟩ := emitDescriptions_cons_ok hc h
      rw [ih _ _ _ hR k]
      have h₁ : (mapFind k E1.AssignedRegsMap).isSome = true ↔
          (mapFind k E.AssignedRegsMap).isSome = true ∨ C.Name = k := by
        by_cases hk : k = C.Name
        · subst hk
          simp [emitCallingConv_entry hA]
        · rw [((emitCallingConv_usage hA).1 k hk).1]
          simp [Ne.symm hk]
      rw [h₁]
      simp only [List.mem_cons, exists_eq_or_imp, hc, true_and, or_assoc]

/-- The keys of the primary map synthesis leaves are the names of the conventions that
are not `Custom`. -/
theorem synthesized_keys {CCs : List CallingConv} {E : Emitter}
    (h : synthesized CCs = some E) (k : String) :
    k ∈ E.AssignedRegsMap.map Prod.fst ↔ ∃ CC ∈ CCs, CC.Custom = false ∧ CC.Name = k := by
  obtain ⟨Text, hE⟩ := synthesized_eq_some h
  rw [mem_keys_iff (synthesized_sorted h).1, emitDescriptions_entries CCs _ _ _ hE k]
  have h0 : (mapFind k ({} : Emitter).AssignedRegsMap).isSome = false := rfl
  rw [h0]
  simp

/-- C13 (counterexample): the externally implemented convention `CC_C` has a non-empty
name and no entry in the primary table. -/
theorem custom_convention_has_no_entry :
    ∃ E, resolved 1 customAndEntry = some E ∧
      mapFind "CC_C" E.AssignedRegsMap = none ∧
      emitTables E = "\n#else\n\nconst MCRegister CC_B_ArgRegs[] = \x7b R2, R3 \x7d;\n" :=
  ⟨_, rfl, by decide, by decide⟩

/-! ## Lemmas on rearranged rule sets -/

theorem forall₂_mem_left {α β : Type} {r : α → β → Prop} {l : List α} {l' : List β}
    (h : List.Forall₂ r l l') : ∀ a ∈ l, ∃ b ∈ l', r a b := by
  induction h with
  | nil => intro a ha; exact absurd ha (List.not_mem_nil _)
  | cons hab _ ih =>
    intro a ha
    rcases List.mem_cons.mp ha with rfl | ha
    · exact ⟨_, List.mem_cons_self _ _, hab⟩
    · obtain ⟨b, hb, hr⟩ := ih a ha
      exact ⟨b, List.mem_cons_of_mem _ hb, hr⟩

theorem forall₂_mem_right {α β : Type} {r : α → β → Prop} {l : List α} {l' : List β}
    (h : List.Forall₂ r l l') : ∀ b ∈ l', ∃ a ∈ l, r a b := by
  induction h with
  | nil => intro b hb; exact absurd hb (List.not_mem_nil _)
  | cons hab _ ih =>
    intro b hb
    rcases List.mem_cons.mp hb with rfl | hb
    · exact ⟨_, List.mem_cons_self _ _, hab⟩
    · obtain ⟨a, ha, hr⟩ := ih b hb
      exact ⟨a, List.mem_cons_of_mem _ ha, hr⟩

theorem ActionRecord.Reordered.superClasses {R R1 : ActionRecord} (h : R.Reordered R1) :
    R1.SuperClasses = R.SuperClasses := by
  rw [h.1]

theorem kind_congr {R R1 : ActionRecord} (h : R1.SuperClasses = R.SuperClasses) :
    R1.kind = R.kind := by
  unfold ActionRecord.kind ActionRecord.isSubClassOf
  rw [h]

theorem isSubClassOf_congr {R R1 : ActionRecord} (h : R1.SuperClasses = R.SuperClasses)
    (Name : String) : R1.isSubClassOf Name = R.isSubClassOf Name := by
  unfold ActionRecord.isSubClassOf
  rw [h]

theorem Action.Reordered.record {A A1 : Action} (h : A.Reordered A1) :
    A.record.Reordered A1.record := by
  cases h with
  | leaf hR => exact hR
  | sub hR _ => exact hR

theorem Action.Reordered.isSwiftAction {A A1 : Action} (h : A.Reordered A1) :
    isSwiftAction A1 = isSwiftAction A := by
  unfold CallingConvEmitter.isSwiftAction
  rw [h.record.superClasses]

/-- Reordering the registers of the actions keeps the set of registers a tree names in
its register-assigning actions. -/
theorem Action.Reordered.assignedRegs_iff {A A1 : Action} (h : A.Reordered A1)
    (r : String) : r ∈ A1.assignedRegs ↔ r ∈ A.assignedRegs := by
  have leafCase : ∀ (A A1 : Action), A.record.Reordered A1.record →
      A.record.kind ≠ .PredicateAction → (r ∈ A1.assignedRegs ↔ r ∈ A.assignedRegs) := by
    intro A A1 hR hk
    have hk1 : A1.record.kind ≠ .PredicateAction := by
      rwa [kind_congr hR.superClasses]
    rw [assignedRegs_of_nonpredicate A hk, assignedRegs_of_nonpredicate A1 hk1,
      kind_congr hR.superClasses]
    split_ifs
    · exact hR.2.1.symm.mem_iff
    · exact Iff.rfl
  induction h with
  | @leaf R R1 hR =>
    have hk : (Action.leaf R).record.kind ≠ .PredicateAction ∨
        R.isSubClassOf "CCPredicateAction" = true := by
      by_cases hp : R.isSubClassOf "CCPredicateAction" = true
      · exact Or.inr hp
      · exact Or.inl (by rwa [Ne, kind_predicate_iff])
    rcases hk with hk | hp
    · exact leafCase (.leaf R) (.leaf R1) hR hk
    · have hp1 : R1.isSubClassOf "CCPredicateAction" = true := by
        rw [isSubClassOf_congr hR.superClasses]
        exact hp
      simp [Action.assignedRegs, Action.nested, Action.record, kind_of_predicate hp,
        kind_of_predicate hp1]
  | @sub R R1 S S1 hR _ ih =>
    by_cases hp : R.isSubClassOf "CCPredicateAction" = true
    · have hp1 : R1.isSubClassOf "CCPredicateAction" = true := by
        rw [isSubClassOf_congr hR.superClasses]
        exact hp
      rw [assignedRegs_sub_predicate R S hp, assignedRegs_sub_predicate R1 S1 hp1]
      exact ih
    · exact leafCase (.sub R S) (.sub R1 S1) hR (by rwa [Ne, kind_predicate_iff])

theorem ActionRecord.Reordered.reflexive (R : ActionRecord) : R.Reordered R :=
  ⟨rfl, List.Perm.refl _, List.Perm.refl _⟩

theorem Action.Reordered.sameTree (A : Action) : A.Reordered A := by
  induction A with
  | leaf R => exact .leaf (ActionRecord.Reordered.reflexive R)
  | sub R S ih => exact .sub (ActionRecord.Reordered.reflexive R) ih

theorem ActionRecord.Reordered.destTy {R R1 : ActionRecord} (h : R.Reordered R1) :
    R1.DestTy = R.DestTy := by
  rw [h.1]

/-- A `CCAssignToRegWithShadow` action is emitted exactly when it passes the length
check and does not have one register with an empty shadow list. -/
theorem emitAssignToRegWithShadow_ok_iff (R : ActionRecord) (Indent : Nat) (E : Emitter) :
    (∃ r, emitAssignToRegWithShadow R Indent E = .ok r) ↔
      ¬ (R.ShadowRegList ≠ [] ∧ R.ShadowRegList.length ≠ R.RegList.length) ∧
      ¬ (R.RegList.length = 1 ∧ R.ShadowRegList.length = 0) := by
  unfold emitAssignToRegWithShadow
  by_cases hc : R.ShadowRegList ≠ [] ∧ R.ShadowRegList.length ≠ R.RegList.length
  · rw [if_pos hc]
    constructor
    · rintro ⟨r, hr⟩
      cases hr
    · intro h
      exact absurd hc h.1
  · rw [if_neg hc]
    split
    · rename_i Name hN
      cases hS : R.ShadowRegList with
      | nil =>
        simp only [List.head?_nil]
        constructor
        · rintro ⟨r, hr⟩
          cases hr
        · intro h
          exact absurd ⟨by rw [hN]; rfl, rfl⟩ h.2
      | cons s S =>
        simp only [List.head?_cons]
        exact ⟨fun _ => ⟨by rw [← hS]; exact hc, by simp⟩, fun _ => ⟨_, rfl⟩⟩
    · rename_i hN
      refine ⟨fun _ => ⟨hc, fun h => ?_⟩, fun _ => ⟨_, rfl⟩⟩
      obtain ⟨x, hx⟩ := List.length_eq_one.mp h.1
      exact hN x hx

theorem emitByKind_ok_congr {R R1 : ActionRecord} (h : R.Reordered R1) (K : ActionKind)
    {Indent Indent1 : Nat} {E E1 : Emitter}
    (hok : ∃ r, emitByKind R Indent E K = .ok r) :
    ∃ r, emitByKind R1 Indent1 E1 K = .ok r := by
  cases K
  case PredicateAction =>
    obtain ⟨r, hr⟩ := hok
    cases hr
  case Unknown =>
    obtain ⟨r, hr⟩ := hok
    cases hr
  case AssignToRegWithShadow =>
    change ∃ r, emitAssignToRegWithShadow R1 Indent1 E1 = .ok r
    change ∃ r, emitAssignToRegWithShadow R Indent E = .ok r at hok
    rw [emitAssignToRegWithShadow_ok_iff] at hok ⊢
    have h₁ := h.2.1.length_eq
    have h₂ := h.2.2.length_eq
    have h₃ : R1.ShadowRegList ≠ [] ↔ R.ShadowRegList ≠ [] := by
      rw [Ne, Ne, ← List.length_eq_zero, ← List.length_eq_zero, h₂]
    rw [h₃, ← h₁, ← h₂]
    exact hok
  case PromoteToUpperBitsInType =>
    change ∃ r, emitPromoteToUpperBitsInType R1 Indent1 E1 = .ok r
    change ∃ r, emitPromoteToUpperBitsInType R Indent E = .ok r at hok
    unfold emitPromoteToUpperBitsInType at hok ⊢
    rw [h.destTy]
    split_ifs at hok ⊢ with hf
    · obtain ⟨r, hr⟩ := hok
      cases hr
    · exact ⟨_, rfl⟩
  case AssignToReg =>
    change ∃ r, emitAssignToReg R1 Indent1 E1 = .ok r
    unfold emitAssignToReg
    split
    · exact ⟨_, rfl⟩
    · exact ⟨_, rfl⟩
  all_goals exact ⟨_, rfl⟩

theorem predicateCondition_ok_congr {R R1 : ActionRecord}
    (h : R1.SuperClasses = R.SuperClasses) {Indent Indent1 : Nat}
    (hok : ∃ c, predicateCondition R Indent = .ok c) :
    ∃ c, predicateCondition R1 Indent1 = .ok c := by
  unfold predicateCondition at hok ⊢
  rw [isSubClassOf_congr h, isSubClassOf_congr h]
  split_ifs at hok ⊢
  · exact ⟨_, rfl⟩
  · exact ⟨_, rfl⟩
  · obtain ⟨c, hc⟩ := hok
    cases hc

/-- Whether an action can be emitted depends neither on the indent nor on the emitter
nor on the order in which its registers are named. -/
theorem emitAction_ok_congr {A A1 : Action} (h : A.Reordered A1) :
    ∀ (Indent Indent1 : Nat) (E E1 : Emitter), (∃ r, emitAction A Indent E = .ok r) →
      ∃ r, emitAction A1 Indent1 E1 = .ok r := by
  have leafCase : ∀ (A A1 : Action), A.record.Reordered A1.record →
      A.record.kind ≠ .PredicateAction → ∀ (Indent Indent1 : Nat) (E E1 : Emitter),
      (∃ r, emitAction A Indent E = .ok r) → ∃ r, emitAction A1 Indent1 E1 = .ok r := by
    intro A A1 hR hk Indent Indent1 E E1 hok
    have hk1 : A1.record.kind ≠ .PredicateAction := by
      rwa [kind_congr hR.superClasses]
    rw [emitAction_eq_emitByKind _ _ _ hk] at hok
    rw [emitAction_eq_emitByKind _ _ _ hk1, kind_congr hR.superClasses]
    exact emitByKind_ok_congr hR _ hok
  induction h with
  | @leaf R R1 hR =>
    intro Indent Indent1 E E1 hok
    by_cases hp : R.isSubClassOf "CCPredicateAction" = true
    · obtain ⟨F, hF⟩ := emitAction_leaf_predicate Indent E hp
      obtain ⟨r, hr⟩ := hok
      rw [hF] at hr
      cases hr
    · exact leafCase (.leaf R) (.leaf R1) hR (by rwa [Ne, kind_predicate_iff])
        _ _ _ _ hok
  | @sub R R1 S S1 hR _ ih =>
    intro Indent Indent1 E E1 hok
    by_cases hp : R.isSubClassOf "CCPredicateAction" = true
    · have hp1 : R1.isSubClassOf "CCPredicateAction" = true := by
        rw [isSubClassOf_congr hR.superClasses]
        exact hp
      obtain ⟨⟨T, E2⟩, hr⟩ := hok
      obtain ⟨Body, hS⟩ := emitAction_sub_predicate hp hr
      have hc : ∃ c, predicateCondition R Indent = .ok c := by
        unfold emitAction at hr
        rw [if_pos hp] at hr
        split at hr
        · cases hr
        · rename_i c hc
          exact ⟨c, hc⟩
      have hc₁ : ∃ c, predicateCondition R1 Indent1 = .ok c :=
        predicateCondition_ok_congr hR.superClasses hc
      obtain ⟨c1, hc1⟩ := hc₁
      obtain ⟨⟨T1, E3⟩, hS1⟩ := ih (Indent + 2) (Indent1 + 2) E E1 ⟨_, hS⟩
      unfold emitAction
      rw [if_pos hp1, hc1]
      dsimp only
      rw [hS1]
      exact ⟨_, rfl⟩
    · exact leafCase (.sub R S) (.sub R1 S1) hR (by rwa [Ne, kind_predicate_iff])
        _ _ _ _ hok

theorem emitActions_ok_iff (As : List Action) :
    ∀ E : Emitter, (∃ r, emitActions As E = .ok r) ↔
      ∀ A ∈ As, ∃ r, emitAction A 2 {} = .ok r := by
  induction As with
  | nil =>
    intro E
    exact ⟨fun _ A hA => absurd hA (List.not_mem_nil _), fun _ => ⟨_, rfl⟩⟩
  | cons A Rest ih =>
    intro E
    constructor
    · rintro ⟨⟨T, E2⟩, h⟩ B hB
      obtain ⟨T1, E1, M, hA, hR⟩ := emitActions_cons_ok h
      rcases List.mem_cons.mp hB with rfl | hB
      · exact emitAction_ok_congr (Action.Reordered.sameTree B) _ _ _ _ ⟨_, hA⟩
      · exact (ih E1).mp ⟨_, hR⟩ B hB
    · intro h
      obtain ⟨⟨T, E1⟩, hA⟩ := emitAction_ok_congr (Action.Reordered.sameTree A) 2 2 {}
        { E with SwiftAction := isSwiftAction A } (h A (List.mem_cons_self _ _))
      obtain ⟨⟨M, E2⟩, hR⟩ := (ih E1).mpr (fun B hB => h B (List.mem_cons_of_mem _ hB))
      unfold emitActions
      rw [hA]
      dsimp only
      rw [hR]
      exact ⟨_, rfl⟩

theorem emitCallingConv_ok_iff (CC : CallingConv) (E : Emitter) :
    (∃ r, emitCallingConv CC E = .ok r) ↔
      ∀ A ∈ CC.Actions, ∃ r, emitAction A 2 {} = .ok r := by
  rw [← emitActions_ok_iff CC.Actions
    { E with Counter := 0, CurrentAction := CC.Name,
             AssignedRegsMap := mapSubscript CC.Name (fun _ => []) E.AssignedRegsMap }]
  constructor
  · rintro ⟨⟨T, E1⟩, h⟩
    obtain ⟨Body, hB⟩ := emitCallingConv_ok h
    exact ⟨_, hB⟩
  · rintro ⟨⟨T, E1⟩, h⟩
    unfold emitCallingConv
    dsimp only
    rw [h]
    exact ⟨_, rfl⟩

theorem emitDescriptions_ok_iff (CCs : List CallingConv) :
    ∀ E : Emitter, (∃ r, emitDescriptions CCs E = .ok r) ↔
      ∀ CC ∈ CCs, CC.Custom = false → ∀ A ∈ CC.Actions, ∃ r, emitAction A 2 {} = .ok r := by
  induction CCs with
  | nil =>
    intro E
    exact ⟨fun _ CC hCC => absurd hCC (List.not_mem_nil _), fun _ => ⟨_, rfl⟩⟩
  | cons C CCs ih =>
    intro E
    cases hc : C.Custom with
    | true =>
      rw [emitDescriptions_cons_custom E hc, ih E]
      constructor
      · intro h CC hCC hcc
        rcases List.mem_cons.mp hCC with rfl | hCC
        · rw [hc] at hcc
          cases hcc
        · exact h CC hCC hcc
      · intro h CC hCC hcc
        exact h CC (List.mem_cons_of_mem _ hCC) hcc
    | false =>
      constructor
      · rintro ⟨⟨T, E2⟩, h⟩ CC hCC hcc
        obtain ⟨T1, E1, M, hA, hR⟩ := emitDescriptions_cons_ok hc h
        rcases List.mem_cons.mp hCC with rfl | hCC
        · exact (emitCallingConv_ok_iff CC E).mp ⟨_, hA⟩
        · exact (ih E1).mp ⟨_, hR⟩ CC hCC hcc
      · intro h
        obtain ⟨⟨T, E1⟩, hA⟩ := (emitCallingConv_ok_iff C E).mpr
          (h C (List.mem_cons_self _ _) hc)
        obtain ⟨⟨M, E2⟩, hR⟩ := (ih E1).mpr
          (fun CC hCC hcc => h CC (List.mem_cons_of_mem _ hCC) hcc)
        rw [emitDescriptions, if_neg (by simp [hc]), hA]
        dsimp only
        rw [hR]
        exact ⟨_, rfl⟩

/-- Synthesis succeeds exactly when every action of every convention that is not
`Custom` can be emitted. -/
theorem synthesized_isSome_iff (CCs : List CallingConv) :
    (∃ E, synthesized CCs = some E) ↔
      ∀ CC ∈ CCs, CC.Custom = false → ∀ A ∈ CC.Actions, ∃ r, emitAction A 2 {} = .ok r := by
  rw [← emitDescriptions_ok_iff CCs {}]
  constructor
  · rintro ⟨E, h⟩
    obtain ⟨Text, hE⟩ := synthesized_eq_some h
    exact ⟨_, hE⟩
  · rintro ⟨⟨T, E⟩, h⟩
    unfold synthesized
    rw [h]
    exact ⟨E, rfl⟩

/-- Synthesis of a rearranged rule set succeeds when that of the rule set does. -/
theorem Rearranged.synthesis_succeeds {CCs CCs1 : List CallingConv} (h : Rearranged CCs CCs1)
    {E : Emitter} (hE : synthesized CCs = some E) : ∃ E1, synthesized CCs1 = some E1 := by
  obtain ⟨Mid, hF, hP⟩ := h
  rw [synthesized_isSome_iff]
  intro CC1 hCC1 hc1 A1 hA1
  obtain ⟨CC, hCC, -, hcu, -, hAs⟩ := forall₂_mem_right hF CC1 (hP.mem_iff.mpr hCC1)
  obtain ⟨A, hA, hAA⟩ := forall₂_mem_right hAs A1 hA1
  have hok := (synthesized_isSome_iff CCs).mp ⟨E, hE⟩ CC hCC (by rw [← hcu]; exact hc1) A hA
  exact emitAction_ok_congr hAA _ _ _ _ hok

/-- With distinct names, the members of the two usage sets synthesis leaves under any
name: the registers of the register-assigning actions of the convention of that name,
split by whether their top-level action is a Swift action. -/
theorem synthesized_usage {CCs : List CallingConv} {E : Emitter}
    (hnd : (CCs.map (fun CC => CC.Name)).Nodup) (h : synthesized CCs = some E)
    (k r : String) :
    (r ∈ usage E.AssignedRegsMap k ↔
      ∃ CC ∈ CCs, CC.Custom = false ∧ CC.Name = k ∧
        ∃ A ∈ CC.Actions, isSwiftAction A = false ∧ r ∈ A.assignedRegs) ∧
    (r ∈ usage E.AssignedSwiftRegsMap k ↔
      ∃ CC ∈ CCs, CC.Custom = false ∧ CC.Name = k ∧
        ∃ A ∈ CC.Actions, isSwiftAction A = true ∧ r ∈ A.assignedRegs) := by
  obtain ⟨Text, hE⟩ := synthesized_eq_some h
  obtain ⟨h₁, h₂⟩ := emitDescriptions_usage CCs _ _ _ hE
  by_cases hk : ∃ CC ∈ CCs, CC.Custom = false ∧ CC.Name = k
  · obtain ⟨CC, hCC, hc, rfl⟩ := hk
    obtain ⟨hp, hs⟩ := h₂ hnd CC hCC hc
    have huniq : ∀ CC' ∈ CCs, CC'.Name = CC.Name → CC' = CC := fun CC' hCC' e =>
      List.inj_on_of_nodup_map hnd hCC' hCC e
    have h0 : usage ({} : Emitter).AssignedSwiftRegsMap CC.Name = [] := rfl
    rw [hp r, hs r, h0]
    constructor
    · constructor
      · rintro ⟨A, hA, hb, hr⟩
        exact ⟨CC, hCC, hc, rfl, A, hA, hb, hr⟩
      · rintro ⟨CC', hCC', -, e, A, hA, hb, hr⟩
        rw [huniq CC' hCC' e] at hA
        exact ⟨A, hA, hb, hr⟩
    · constructor
      · rintro (hn | ⟨A, hA, hb, hr⟩)
        · exact absurd hn (List.not_mem_nil _)
        · exact ⟨CC, hCC, hc, rfl, A, hA, hb, hr⟩
      · rintro ⟨CC', hCC', -, e, A, hA, hb, hr⟩
        rw [huniq CC' hCC' e] at hA
        exact Or.inr ⟨A, hA, hb, hr⟩
  · have hk' : ∀ CC ∈ CCs, CC.Custom = false → CC.Name ≠ k :=
      fun CC hCC hc e => hk ⟨CC, hCC, hc, e⟩
    obtain ⟨a, b⟩ := h₁ k hk'
    have ha : usage E.AssignedRegsMap k = [] := by
      rw [usage_congr a]
      rfl
    have hb : usage E.AssignedSwiftRegsMap k = [] := by
      rw [usage_congr b]
      rfl
    rw [ha, hb]
    constructor
    · constructor
      · intro hn
        exact absurd hn (List.not_mem_nil _)
      · rintro ⟨CC, hCC, hc, e, -⟩
        exact absurd e (hk' CC hCC hc)
    · constructor
      · intro hn
        exact absurd hn (List.not_mem_nil _)
      · rintro ⟨CC, hCC, hc, e, -⟩
        exact absurd e (hk' CC hCC hc)

/-- A name has an entry in the Swift map synthesis leaves exactly when its Swift set
has a member. -/
theorem synthesized_swift_entry {CCs : List CallingConv} {E : Emitter}
    (h : synthesized CCs = some E) (k : String) :
    (mapFind k E.AssignedSwiftRegsMap).isSome = true ↔
      ∃ r, r ∈ usage E.AssignedSwiftRegsMap k := by
  constructor
  · intro hs
    obtain ⟨v, hv⟩ := Option.isSome_iff_exists.mp hs
    have hne := synthesized_swift_nonempty h (k, v) (mem_of_mapFind hv)
    obtain ⟨r, hr⟩ := List.exists_mem_of_ne_nil v hne
    exact ⟨r, by unfold usage; rw [hv]; exact hr⟩
  · rintro ⟨r, hr⟩
    unfold usage at hr
    cases hf : mapFind k E.AssignedSwiftRegsMap with
    | none =>
      rw [hf] at hr
      exact absurd hr (List.not_mem_nil _)
    | some v => rfl

/-- With distinct names, every key of the Swift map synthesis leaves is the name of a
convention that is not `Custom`. -/
theorem synthesized_swift_keys {CCs : List CallingConv} {E : Emitter}
    (hnd : (CCs.map (fun CC => CC.Name)).Nodup) (h : synthesized CCs = some E)
    (k : String) (hk : k ∈ E.AssignedSwiftRegsMap.map Prod.fst) :
    ∃ CC ∈ CCs, CC.Custom = false ∧ CC.Name = k := by
  rw [mem_keys_iff (synthesized_sorted h).2.1, synthesized_swift_entry h] at hk
  obtain ⟨r, hr⟩ := hk
  obtain ⟨CC, hCC, hc, hn, -⟩ := (synthesized_usage hnd h k r).2.mp hr
  exact ⟨CC, hCC, hc, hn⟩

/-- C13 (amended): for every rule set with distinct convention names whose synthesis
succeeds, the text of the tables is one entry for every key of the primary map that is
not the empty name, in the order of the keys, followed by the entries of the Swift map;
the keys of the primary map increase strictly, so none comes twice, and are exactly the
names of the conventions that are not `Custom`; the keys of the Swift map are among
those names; and the name of a `Custom` convention is a key of neither map. -/
theorem primary_table_lists_emitted_conventions (CCs : List CallingConv) (E : Emitter)
    (hnd : (CCs.map (fun CC => CC.Name)).Nodup) (h : synthesized CCs = some E)
    (fuel : Nat) (hf : E.DelegateToMap.length < fuel) :
    emitArgRegisterLists fuel E =
      some (
        (if E.AssignedRegsMap = [] then ""
         else
          "\n#else\n\n" ++
          String.join (E.AssignedRegsMap.map (fun e =>
            if e.1.isEmpty then ""
            else "const MCRegister " ++ e.1 ++ "_ArgRegs[] = \x7b " ++
              String.intercalate ", " (if e.2 = [] then ["0"] else e.2) ++ " \x7d;\n")) ++
          (if E.AssignedSwiftRegsMap = [] then ""
           else
             "\n// Registers used by Swift.\n" ++
             String.join (E.AssignedSwiftRegsMap.map (fun e =>
               "const MCRegister " ++ e.1 ++ "_Swift_ArgRegs[] = \x7b " ++
                 String.intercalate ", " e.2 ++ " \x7d;\n")))),
        E) ∧
    (E.AssignedRegsMap.map Prod.fst).Pairwise strLess ∧
    (∀ k, k ∈ E.AssignedRegsMap.map Prod.fst ↔
      ∃ CC ∈ CCs, CC.Custom = false ∧ CC.Name = k) ∧
    (∀ k, k ∈ E.AssignedSwiftRegsMap.map Prod.fst →
      ∃ CC ∈ CCs, CC.Custom = false ∧ CC.Name = k) ∧
    (∀ CC ∈ CCs, CC.Custom = true →
      CC.Name ∉ E.AssignedRegsMap.map Prod.fst ∧
      CC.Name ∉ E.AssignedSwiftRegsMap.map Prod.fst) := by
  have hCustom : ∀ CC ∈ CCs, CC.Custom = true →
      ¬ ∃ CC1 ∈ CCs, CC1.Custom = false ∧ CC1.Name = CC.Name := by
    rintro CC hCC hc ⟨CC1, hCC1, hc1, hn⟩
    have e : CC1 = CC := List.inj_on_of_nodup_map hnd hCC1 hCC hn
    rw [e, hc] at hc1
    cases hc1
  refine ⟨?_, (synthesized_sorted h).1, synthesized_keys h, synthesized_swift_keys hnd h,
    fun CC hCC hc => ⟨fun hk => ?_, fun hk => ?_⟩⟩
  · unfold emitArgRegisterLists
    rw [resolveDelegates_of_targets (synthesized_targets h) hf]
    dsimp only
    rw [emitTables_text]
  · exact hCustom CC hCC hc ((synthesized_keys h _).mp hk)
  · exact hCustom CC hCC hc (synthesized_swift_keys hnd h _ hk)

/-- C13 (witness): the externally implemented `CC_C` and the entry point `CC_B`. -/
theorem primary_table_lists_emitted_conventions_witness :
    emitArgRegisterLists 1 customAndEntryEmitter =
      some ("\n#else\n\nconst MCRegister CC_B_ArgRegs[] = \x7b R2, R3 \x7d;\n",
        customAndEntryEmitter) ∧
    (customAndEntryEmitter.AssignedRegsMap.map Prod.fst).Pairwise strLess ∧
    (∀ k, k ∈ customAndEntryEmitter.AssignedRegsMap.map Prod.fst ↔
      ∃ CC ∈ customAndEntry, CC.Custom = false ∧ CC.Name = k) ∧
    (∀ k, k ∈ customAndEntryEmitter.AssignedSwiftRegsMap.map Prod.fst →
      ∃ CC ∈ customAndEntry, CC.Custom = false ∧ CC.Name = k) ∧
    (∀ CC ∈ customAndEntry, CC.Custom = true →
      CC.Name ∉ customAndEntryEmitter.AssignedRegsMap.map Prod.fst ∧
      CC.Name ∉ customAndEntryEmitter.AssignedSwiftRegsMap.map Prod.fst) :=
  primary_table_lists_emitted_conventions customAndEntry customAndEntryEmitter
    (by decide) (by decide) 1 (by decide)

theorem Rearranged.names {CCs Mid : List CallingConv}
    (h : List.Forall₂ CallingConv.Reordered CCs Mid) :
    Mid.map (fun CC => CC.Name) = CCs.map (fun CC => CC.Name) := by
  induction h with
  | nil => rfl
  | cons hab _ ih => rw [List.map_cons, List.map_cons, ih, hab.1]

theorem Rearranged.nodup {CCs CCs1 : List CallingConv} (h : Rearranged CCs CCs1)
    (hnd : (CCs.map (fun CC => CC.Name)).Nodup) : (CCs1.map (fun CC => CC.Name)).Nodup := by
  obtain ⟨Mid, hF, hP⟩ := h
  rw [← (hP.map _).nodup_iff, Rearranged.names hF]
  exact hnd

/-- A rearranged rule set has the same conventions by name, and under each name the
same registers with the same choice between the primary and the Swift set. -/
theorem Rearranged.summary {CCs CCs1 : List CallingConv} (h : Rearranged CCs CCs1)
    (b : Bool) (k r : String) :
    (∃ CC ∈ CCs1, CC.Custom = false ∧ CC.Name = k ∧
        ∃ A ∈ CC.Actions, isSwiftAction A = b ∧ r ∈ A.assignedRegs) ↔
      ∃ CC ∈ CCs, CC.Custom = false ∧ CC.Name = k ∧
        ∃ A ∈ CC.Actions, isSwiftAction A = b ∧ r ∈ A.assignedRegs := by
  obtain ⟨Mid, hF, hP⟩ := h
  constructor
  · rintro ⟨CC1, hCC1, hc, hn, A1, hA1, hb, hr⟩
    obtain ⟨CC, hCC, hname, hcu, -, hAs⟩ := forall₂_mem_right hF CC1 (hP.mem_iff.mpr hCC1)
    obtain ⟨A, hA, hAA⟩ := forall₂_mem_right hAs A1 hA1
    exact ⟨CC, hCC, by rw [← hcu]; exact hc, by rw [← hname]; exact hn, A, hA,
      by rw [← hAA.isSwiftAction]; exact hb, (hAA.assignedRegs_iff r).mp hr⟩
  · rintro ⟨CC, hCC, hc, hn, A, hA, hb, hr⟩
    obtain ⟨CC1, hCC1, hname, hcu, -, hAs⟩ := forall₂_mem_left hF CC hCC
    obtain ⟨A1, hA1, hAA⟩ := forall₂_mem_left hAs A hA
    exact ⟨CC1, hP.mem_iff.mp hCC1, by rw [hcu]; exact hc, by rw [hname]; exact hn, A1, hA1,
      by rw [hAA.isSwiftAction]; exact hb, (hAA.assignedRegs_iff r).mpr hr⟩

theorem Rearranged.emitted {CCs CCs1 : List CallingConv} (h : Rearranged CCs CCs1)
    (k : String) :
    (∃ CC ∈ CCs1, CC.Custom = false ∧ CC.Name = k) ↔
      ∃ CC ∈ CCs, CC.Custom = false ∧ CC.Name = k := by
  obtain ⟨Mid, hF, hP⟩ := h
  constructor
  · rintro ⟨CC1, hCC1, hc, hn⟩
    obtain ⟨CC, hCC, hname, hcu, -, -⟩ := forall₂_mem_right hF CC1 (hP.mem_iff.mpr hCC1)
    exact ⟨CC, hCC, by rw [← hcu]; exact hc, by rw [← hname]; exact hn⟩
  · rintro ⟨CC, hCC, hc, hn⟩
    obtain ⟨CC1, hCC1, hname, hcu, -, -⟩ := forall₂_mem_left hF CC hCC
    exact ⟨CC1, hP.mem_iff.mp hCC1, by rw [hcu]; exact hc, by rw [hname]; exact hn⟩

/-- With distinct names, synthesis of a rearranged rule set leaves the same two usage
maps. -/
theorem Rearranged.maps_eq {CCs CCs1 : List CallingConv} (hR : Rearranged CCs CCs1)
    (hnd : (CCs.map (fun CC => CC.Name)).Nodup) {E E1 : Emitter}
    (h : synthesized CCs = some E) (h1 : synthesized CCs1 = some E1) :
    E1.AssignedRegsMap = E.AssignedRegsMap ∧
      E1.AssignedSwiftRegsMap = E.AssignedSwiftRegsMap := by
  obtain ⟨s₁, s₂, s₃, s₄⟩ := synthesized_sorted h
  obtain ⟨t₁, t₂, t₃, t₄⟩ := synthesized_sorted h1
  have hnd1 := hR.nodup hnd
  have hp : ∀ k r, r ∈ usage E1.AssignedRegsMap k ↔ r ∈ usage E.AssignedRegsMap k := by
    intro k r
    rw [(synthesized_usage hnd1 h1 k r).1, (synthesized_usage hnd h k r).1]
    exact hR.summary false k r
  have hs : ∀ k r, r ∈ usage E1.AssignedSwiftRegsMap k ↔
      r ∈ usage E.AssignedSwiftRegsMap k := by
    intro k r
    rw [(synthesized_usage hnd1 h1 k r).2, (synthesized_usage hnd h k r).2]
    exact hR.summary true k r
  refine ⟨map_ext t₁ s₁ t₃ s₃ (fun k => ?_) hp, map_ext t₂ s₂ t₄ s₄ (fun k => ?_) hs⟩
  · rw [← mem_keys_iff t₁, ← mem_keys_iff s₁, synthesized_keys h1, synthesized_keys h]
    exact hR.emitted k
  · rw [synthesized_swift_entry h1, synthesized_swift_entry h]
    exact exists_congr (fun r => hs k r)

theorem emitTables_congr {E E1 : Emitter} (h₁ : E1.AssignedRegsMap = E.AssignedRegsMap)
    (h₂ : E1.AssignedSwiftRegsMap = E.AssignedSwiftRegsMap) :
    emitTables E1 = emitTables E := by
  unfold emitTables
  rw [h₁, h₂]

theorem declaredFirst_rearranged : Rearranged declaredFirst declaredSecond :=
  ⟨[ { Name := "CC_A", Actions := [assignToReg ["R2", "R1"]] },
     { Name := "CC_B", Actions := [ifSwiftSelf (assignToReg ["X20"])] } ],
    List.Forall₂.cons
      ⟨rfl, rfl, rfl,
        List.Forall₂.cons
          (Action.Reordered.leaf ⟨rfl, List.Perm.swap _ _ _, List.Perm.refl _⟩)
          List.Forall₂.nil⟩
      (List.Forall₂.cons
        ⟨rfl, rfl, rfl, List.Forall₂.cons (Action.Reordered.sameTree _) List.Forall₂.nil⟩
        List.Forall₂.nil),
    List.Perm.swap _ _ _⟩

/-- C18: for a rule set with distinct convention names whose synthesis succeeds, every
set of the two usage maps lists its registers in strictly increasing order, so without
repeats, and the text of the tables lists the registers of every set in that order;
and for every rule set that declares the same conventions in another order, their
actions naming their registers in another order, synthesis succeeds as well and the
tables written are the same text. -/
theorem tables_independent_of_order (CCs CCs1 : List CallingConv) (E : Emitter)
    (hnd : (CCs.map (fun CC => CC.Name)).Nodup) (hR : Rearranged CCs CCs1)
    (h : synthesized CCs = some E) :
    (∀ e ∈ E.AssignedRegsMap, e.2.Pairwise strLess) ∧
    (∀ e ∈ E.AssignedSwiftRegsMap, e.2.Pairwise strLess) ∧
    ∃ Tables E1,
      Tables =
        (if E.AssignedRegsMap = [] then ""
         else
          "\n#else\n\n" ++
          String.join (E.AssignedRegsMap.map (fun e =>
            if e.1.isEmpty then ""
            else "const MCRegister " ++ e.1 ++ "_ArgRegs[] = \x7b " ++
              String.intercalate ", " (if e.2 = [] then ["0"] else e.2) ++ " \x7d;\n")) ++
          (if E.AssignedSwiftRegsMap = [] then ""
           else
             "\n// Registers used by Swift.\n" ++
             String.join (E.AssignedSwiftRegsMap.map (fun e =>
               "const MCRegister " ++ e.1 ++ "_Swift_ArgRegs[] = \x7b " ++
                 String.intercalate ", " e.2 ++ " \x7d;\n")))) ∧
      synthesized CCs1 = some E1 ∧
      emitArgRegisterLists (E.DelegateToMap.length + 1) E = some (Tables, E) ∧
      emitArgRegisterLists (E1.DelegateToMap.length + 1) E1 = some (Tables, E1) := by
  obtain ⟨-, -, s₃, s₄⟩ := synthesized_sorted h
  obtain ⟨E1, h1⟩ := hR.synthesis_succeeds h
  obtain ⟨m₁, m₂⟩ := hR.maps_eq hnd h h1
  refine ⟨s₃, s₄, emitTables E, E1, emitTables_text E, h1, ?_, ?_⟩
  · unfold emitArgRegisterLists
    rw [resolveDelegates_of_targets (synthesized_targets h) (Nat.lt_succ_self _)]
  · unfold emitArgRegisterLists
    rw [resolveDelegates_of_targets (synthesized_targets h1) (Nat.lt_succ_self _)]
    dsimp only
    rw [emitTables_congr m₁ m₂]

/-- C18 (witness): `declaredFirst` and `declaredSecond`, whose tables list `R1` before
`R2` although `declaredFirst` names `R2` first. -/
theorem tables_independent_of_order_witness :
    (∀ e ∈ declaredFirstEmitter.AssignedRegsMap, e.2.Pairwise strLess) ∧
    (∀ e ∈ declaredFirstEmitter.AssignedSwiftRegsMap, e.2.Pairwise strLess) ∧
    ∃ Tables E1,
      Tables =
        "\n#else\n\nconst MCRegister CC_A_ArgRegs[] = \x7b R1, R2 \x7d;\n" ++
        "const MCRegister CC_B_ArgRegs[] = \x7b 0 \x7d;\n" ++
        "\n// Registers used by Swift.\n" ++
        "const MCRegister CC_B_Swift_ArgRegs[] = \x7b X20 \x7d;\n" ∧
      synthesized declaredSecond = some E1 ∧
      emitArgRegisterLists (declaredFirstEmitter.DelegateToMap.length + 1)
          declaredFirstEmitter = some (Tables, declaredFirstEmitter) ∧
      emitArgRegisterLists (E1.DelegateToMap.length + 1) E1 = some (Tables, E1) :=
  tables_independent_of_order declaredFirst declaredSecond declaredFirstEmitter
    (by decide) declaredFirst_rearranged (by decide)

/-! ## Lemmas on the numbering of constants -/

theorem following_zero (c : Nat) : following c 0 = [] := rfl

theorem following_length (c k : Nat) : (following c k).length = k := by
  simp [following]

theorem following_succ (c k : Nat) :
    following c (k + 1) = following c k ++ [(c + (k + 1)) % 4294967296] := by
  unfold following
  rw [List.range'_1_concat, List.map_append]
  simp [Nat.add_comm]

theorem following_append (c c' k k' : Nat)
    (h : c' % 4294967296 = (c + k) % 4294967296) :
    following c k ++ following c' k' = following c (k + k') := by
  induction k' with
  | zero => simp [following_zero]
  | succ n ih =>
    have e : k + (n + 1) = (k + n) + 1 := rfl
    rw [following_succ c' n, ← List.append_assoc, ih, e, following_succ c (k + n)]
    have hm : (c' + (n + 1)) % 4294967296 = (c + (k + n + 1)) % 4294967296 := by
      rw [Nat.add_mod c' (n + 1), h, ← Nat.add_mod]
      congr 1
      omega
    rw [hm]

theorem getLastD_append (l₁ l₂ : List Nat) (c : Nat) :
    (l₁ ++ l₂).getLastD c = l₂.getLastD (l₁.getLastD c) := by
  cases l₂ with
  | nil => simp
  | cons b l =>
    obtain ⟨x, hx⟩ : ∃ x, (b :: l).getLast? = some x :=
      ⟨_, List.getLast?_eq_getLast _ (List.cons_ne_nil _ _)⟩
    simp [List.getLastD_eq_getLast?, List.getLast?_append, hx]

theorem numbersByKind_following (R : ActionRecord) (c : Nat) (K : ActionKind) :
    ∃ k, numbersByKind R c K = following c k ∧
      ((numbersByKind R c K).getLastD c) % 4294967296 = (c + k) % 4294967296 := by
  have zero : ∃ k, ([] : List Nat) = following c k ∧
      (([] : List Nat).getLastD c) % 4294967296 = (c + k) % 4294967296 := ⟨0, rfl, rfl⟩
  have one : ∃ k, [nextCounter c] = following c k ∧
      ([nextCounter c].getLastD c) % 4294967296 = (c + k) % 4294967296 := by
    refine ⟨1, rfl, ?_⟩
    simp [nextCounter]
  have two : ∃ k, [nextCounter c, nextCounter (nextCounter c)] = following c k ∧
      ([nextCounter c, nextCounter (nextCounter c)].getLastD c) % 4294967296 =
        (c + k) % 4294967296 := by
    refine ⟨2, ?_, ?_⟩
    · simp only [following, nextCounter, List.range', List.map_cons, List.map_nil,
        List.cons.injEq, and_true, true_and]
      omega
    · simp only [nextCounter, List.getLastD_cons, List.getLastD_nil]
      omega
  cases K
  case AssignToReg =>
    unfold numbersByKind
    split_ifs
    · exact zero
    · exact one
  case AssignToRegWithShadow =>
    unfold numbersByKind
    split_ifs
    · exact zero
    · exact two
  case AssignToStack => exact one
  case AssignToStackWithShadow => exact two
  all_goals exact zero

theorem Action.numbers_following (A : Action) :
    ∀ c, ∃ k, A.numbers c = following c k ∧
      ((A.numbers c).getLastD c) % 4294967296 = (c + k) % 4294967296 := by
  induction A with
  | leaf R => intro c; exact numbersByKind_following R c R.kind
  | sub R S ih =>
    intro c
    unfold Action.numbers
    split_ifs
    · exact ih c
    · exact numbersByKind_following R c R.kind

/-- The numbers given while the actions of a list are emitted follow the counter one by
one, in 32-bit unsigned arithmetic. -/
theorem numbersOfActions_following (As : List Action) :
    ∀ c, ∃ k, numbersOfActions As c = following c k ∧
      ((numbersOfActions As c).getLastD c) % 4294967296 = (c + k) % 4294967296 := by
  induction As with
  | nil => intro c; exact ⟨0, rfl, rfl⟩
  | cons A Rest ih =>
    intro c
    obtain ⟨k₁, h₁, m₁⟩ := A.numbers_following c
    obtain ⟨k₂, h₂, m₂⟩ := ih ((A.numbers c).getLastD c)
    refine ⟨k₁ + k₂, ?_, ?_⟩
    · unfold numbersOfActions
      rw [h₂, h₁, following_append c _ k₁ k₂ (by rw [← h₁]; exact m₁)]
    · unfold numbersOfActions
      rw [getLastD_append, m₂, Nat.add_mod, m₁, ← Nat.add_mod, Nat.add_assoc]

/-- Below 2 to the 32 numbers, the numbers that follow 0 are 1, 2, and so on. -/
theorem following_zero_eq (k : Nat) (hk : k < 4294967296) :
    following 0 k = List.range' 1 k := by
  unfold following
  conv_rhs => rw [← List.map_id (List.range' 1 k)]
  refine List.map_congr_left (fun i hi => ?_)
  obtain ⟨j, hj, rfl⟩ := List.mem_range'.mp hi
  simp only [id, Nat.zero_add]
  exact Nat.mod_eq_of_lt (by omega)

theorem foldl_recordReg_counter (Names : List String) :
    ∀ E : Emitter, (Names.foldl recordReg E).Counter = E.Counter := by
  induction Names with
  | nil => intro E; rfl
  | cons n Names ih =>
    intro E
    rw [List.foldl_cons, ih]
    unfold recordReg
    split_ifs <;> rfl

/-- After an action that is not a predicate the counter is the last number the action
gave, and the counter it found if it gave none. -/
theorem emitByKind_counter {R : ActionRecord} {Indent : Nat} {E E1 : Emitter}
    {Text : String} {K : ActionKind} (h : emitByKind R Indent E K = .ok (Text, E1)) :
    E1.Counter = (numbersByKind R E.Counter K).getLastD E.Counter := by
  cases K
  case PredicateAction => cases h
  case Unknown => cases h
  case AssignToReg =>
    change emitAssignToReg R Indent E = _ at h
    unfold emitAssignToReg at h
    unfold numbersByKind
    split at h
    · rename_i Name hN
      rw [← ok_state_eq h, if_pos (by rw [hN]; rfl)]
      unfold recordReg
      split_ifs <;> rfl
    · rename_i hN
      have hl : ¬ R.RegList.length = 1 := by
        intro hl
        obtain ⟨x, hx⟩ := List.length_eq_one.mp hl
        exact hN x hx
      rw [← ok_state_eq h, if_neg hl, foldl_recordReg_counter]
      rfl
  case AssignToRegWithShadow =>
    change emitAssignToRegWithShadow R Indent E = _ at h
    unfold emitAssignToRegWithShadow at h
    unfold numbersByKind
    dsimp only
    split_ifs at h
    split at h
    · rename_i Name hN
      split at h
      · cases h
      · rw [← ok_state_eq h, if_pos (by rw [hN]; rfl)]
        rfl
    · rename_i hN
      have hl : ¬ R.RegList.length = 1 := by
        intro hl
        obtain ⟨x, hx⟩ := List.length_eq_one.mp hl
        exact hN x hx
      rw [← ok_state_eq h, if_neg hl]
      rfl
  case PromoteToUpperBitsInType =>
    change emitPromoteToUpperBitsInType R Indent E = _ at h
    unfold emitPromoteToUpperBitsInType at h
    split_ifs at h
    rw [← ok_state_eq h]
    rfl
  all_goals
    rw [← ok_state_eq h]
    rfl

theorem emitAction_counter (A : Action) :
    ∀ (Indent : Nat) (E E1 : Emitter) (Text : String),
      emitAction A Indent E = .ok (Text, E1) →
      E1.Counter = (A.numbers E.Counter).getLastD E.Counter := by
  induction A with
  | leaf R =>
    intro Indent E E1 Text h
    by_cases hp : R.isSubClassOf "CCPredicateAction" = true
    · obtain ⟨F, hF⟩ := emitAction_leaf_predicate Indent E hp
      rw [hF] at h
      cases h
    · have hk : (Action.leaf R).record.kind ≠ .PredicateAction := by
        rwa [Ne, kind_predicate_iff]
      rw [emitAction_eq_emitByKind _ _ _ hk] at h
      exact emitByKind_counter h
  | sub R S ih =>
    intro Indent E E1 Text h
    unfold Action.numbers
    by_cases hp : R.isSubClassOf "CCPredicateAction" = true
    · rw [if_pos hp]
      obtain ⟨Body, hS⟩ := emitAction_sub_predicate hp h
      exact ih _ _ _ _ hS
    · rw [if_neg hp]
      have hk : (Action.sub R S).record.kind ≠ .PredicateAction := by
        rwa [Ne, kind_predicate_iff]
      rw [emitAction_eq_emitByKind _ _ _ hk] at h
      exact emitByKind_counter h

theorem emitActions_counter (As : List Action) :
    ∀ (E E1 : Emitter) (Text : String), emitActions As E = .ok (Text, E1) →
      E1.Counter = (numbersOfActions As E.Counter).getLastD E.Counter := by
  induction As with
  | nil =>
    intro E E1 Text h
    rw [← ok_state_eq h]
    rfl
  | cons A Rest ih =>
    intro E E2 Text h
    obtain ⟨T, E1, M, hA, hR⟩ := emitActions_cons_ok h
    have h₁ := emitAction_counter A _ _ _ _ hA
    have h₂ := ih _ _ _ hR
    unfold numbersOfActions
    rw [getLastD_append, h₂, h₁]

/-! ## Lemmas on the numbered text -/

theorem nextCounter_eq {c : Nat} (h : c + 1 < 4294967296) : nextCounter c = c + 1 :=
  Nat.mod_eq_of_lt h

theorem not_length_one {L : List String} (h : ∀ x, L = [x] → False) : ¬ L.length = 1 := by
  intro hl
  obtain ⟨x, hx⟩ := List.length_eq_one.mp hl
  exact h x hx

/-- As long as the counter does not wrap, an action that is not a predicate writes the
text the specification's numbering gives it, its constants numbered from the counter
plus one, and moves the counter on by the number of its constants. -/
theorem emitByKind_numbered {R : ActionRecord} {Indent : Nat} {E E1 : Emitter}
    {Text : String} {K : ActionKind} (h : emitByKind R Indent E K = .ok (Text, E1))
    (hc : E.Counter + constantsByKind R K < 4294967296) :
    Text = numberedByKind R Indent (E.Counter + 1) K ∧
    E1.Counter = E.Counter + constantsByKind R K := by
  cases K
  case PredicateAction => cases h
  case Unknown => cases h
  case AssignToReg =>
    change emitAssignToReg R Indent E = _ at h
    unfold emitAssignToReg at h
    unfold numberedByKind constantsByKind at *
    dsimp only at *
    split at h
    · rename_i Name hN
      have hl : R.RegList.length = 1 := by rw [hN]; rfl
      rw [if_pos hl, if_pos hl, ← ok_state_eq h, ← ok_text_eq h]
      refine ⟨?_, ?_⟩
      · unfold unnumberedText emitByKind emitAssignToReg
        rw [hN]
      · exact foldl_recordReg_counter [Name] E
    · rename_i hN
      have hl := not_length_one hN
      rw [if_neg hl] at hc
      rw [if_neg hl, if_neg hl, ← ok_state_eq h, ← ok_text_eq h, foldl_recordReg_counter]
      dsimp only
      rw [nextCounter_eq hc]
      exact ⟨rfl, rfl⟩
  case AssignToRegWithShadow =>
    change emitAssignToRegWithShadow R Indent E = _ at h
    unfold emitAssignToRegWithShadow at h
    unfold numberedByKind constantsByKind at *
    dsimp only at *
    split_ifs at h with hv
    split at h
    · rename_i Name hN
      have hl : R.RegList.length = 1 := by rw [hN]; rfl
      split at h
      · cases h
      · rename_i Shadow hS
        rw [if_pos hl, if_pos hl, ← ok_state_eq h, ← ok_text_eq h]
        refine ⟨?_, rfl⟩
        unfold unnumberedText emitByKind emitAssignToRegWithShadow
        rw [if_neg hv, hN]
        dsimp only
        rw [hS]
    · rename_i hN
      have hl := not_length_one hN
      rw [if_neg hl] at hc
      have h₁ : nextCounter E.Counter = E.Counter + 1 := nextCounter_eq (by omega)
      have h₂ : nextCounter (E.Counter + 1) = E.Counter + 1 + 1 := nextCounter_eq (by omega)
      rw [if_neg hl, if_neg hl, ← ok_state_eq h, ← ok_text_eq h]
      dsimp only
      rw [h₁, h₂]
      exact ⟨rfl, rfl⟩
  case AssignToStack =>
    change emitAssignToStack R Indent E = _ at h
    unfold emitAssignToStack at h
    unfold numberedByKind constantsByKind at *
    dsimp only at *
    rw [← ok_state_eq h, ← ok_text_eq h]
    dsimp only
    rw [nextCounter_eq hc]
    exact ⟨rfl, rfl⟩
  case AssignToStackWithShadow =>
    change emitAssignToStackWithShadow R Indent E = _ at h
    unfold emitAssignToStackWithShadow at h
    unfold numberedByKind constantsByKind at *
    dsimp only at *
    have h₁ : nextCounter E.Counter = E.Counter + 1 := nextCounter_eq (by omega)
    have h₂ : nextCounter (E.Counter + 1) = E.Counter + 1 + 1 := nextCounter_eq (by omega)
    rw [← ok_state_eq h, ← ok_text_eq h]
    dsimp only
    rw [h₁, h₂]
    exact ⟨rfl, rfl⟩
  case PromoteToUpperBitsInType =>
    change emitPromoteToUpperBitsInType R Indent E = _ at h
    unfold emitPromoteToUpperBitsInType at h
    split_ifs at h with hv
    rw [← ok_state_eq h, ← ok_text_eq h]
    refine ⟨?_, rfl⟩
    unfold numberedByKind unnumberedText emitByKind emitPromoteToUpperBitsInType
    dsimp only
    rw [if_neg hv]
  all_goals
    rw [← ok_state_eq h, ← ok_text_eq h]
    exact ⟨rfl, rfl⟩

theorem emitActions_cons_text {A : Action} {Rest : List Action} {E E2 : Emitter}
    {Text : String} (h : emitActions (A :: Rest) E = .ok (Text, E2)) :
    ∃ T E1 M, emitAction A 2 { E with SwiftAction := isSwiftAction A } = .ok (T, E1) ∧
      emitActions Rest E1 = .ok (M, E2) ∧ Text = "\n" ++ T ++ M := by
  unfold emitActions at h
  split at h
  · cases h
  · rename_i T E1 hA
    split at h
    · cases h
    · rename_i M E3 hR
      rw [← ok_state_eq h]
      exact ⟨T, E1, M, hA, hR, (ok_text_eq h).symm⟩

theorem emitCallingConv_text {CC : CallingConv} {E E1 : Emitter} {Text : String}
    (h : emitCallingConv CC E = .ok (Text, E1)) :
    ∃ Body, emitActions CC.Actions
        { E with
          Counter := 0
          CurrentAction := CC.Name
          AssignedRegsMap := mapSubscript CC.Name (fun _ => []) E.AssignedRegsMap } =
        .ok (Body, E1) ∧
      Text = "\n\n" ++ signature CC.Name CC.Entry ++ " \x7b\n" ++ Body ++
        "\n  return true; // CC didn't match.\n" ++ "\x7d\n" := by
  unfold emitCallingConv at h
  dsimp only at h
  split at h
  · cases h
  · rename_i Body E2 hB
    rw [← ok_state_eq h]
    exact ⟨Body, hB, (ok_text_eq h).symm⟩

/-- As long as the counter does not wrap, an action tree is written as the
specification's numbering gives it, from the counter plus one. -/
theorem emitAction_numbered (A : Action) :
    ∀ (Indent : Nat) (E E1 : Emitter) (Text : String),
      emitAction A Indent E = .ok (Text, E1) → E.Counter + A.constants < 4294967296 →
      Text = A.numberedText Indent (E.Counter + 1) ∧
      E1.Counter = E.Counter + A.constants := by
  induction A with
  | leaf R =>
    intro Indent E E1 Text h hc
    by_cases hp : R.isSubClassOf "CCPredicateAction" = true
    · obtain ⟨F, hF⟩ := emitAction_leaf_predicate Indent E hp
      rw [hF] at h
      cases h
    · have hk : (Action.leaf R).record.kind ≠ .PredicateAction := by
        rwa [Ne, kind_predicate_iff]
      rw [emitAction_eq_emitByKind _ _ _ hk] at h
      exact emitByKind_numbered h hc
  | sub R S ih =>
    intro Indent E E1 Text h hc
    unfold Action.numberedText
    unfold Action.constants at hc ⊢
    by_cases hp : R.isSubClassOf "CCPredicateAction" = true
    · rw [if_pos hp] at hc ⊢
      rw [if_pos hp]
      unfold emitAction at h
      rw [if_pos hp] at h
      split at h
      · cases h
      · rename_i Cond hCond
        split at h
        · cases h
        · rename_i Body E2 hS
          obtain ⟨hT, hC⟩ := ih _ _ _ _ hS hc
          rw [← ok_state_eq h, ← ok_text_eq h, hCond, ← hT]
          exact ⟨rfl, hC⟩
    · rw [if_neg hp] at hc ⊢
      rw [if_neg hp]
      have hk : (Action.sub R S).record.kind ≠ .PredicateAction := by
        rwa [Ne, kind_predicate_iff]
      rw [emitAction_eq_emitByKind _ _ _ hk] at h
      exact emitByKind_numbered h hc

/-- As long as the counter does not wrap, the actions of a convention are written as the
specification's numbering gives them, from the counter plus one. -/
theorem emitActions_numbered (As : List Action) :
    ∀ (E E1 : Emitter) (Text : String), emitActions As E = .ok (Text, E1) →
      E.Counter + constantsOfActions As < 4294967296 →
      Text = numberedBody As (E.Counter + 1) ∧
      E1.Counter = E.Counter + constantsOfActions As := by
  induction As with
  | nil =>
    intro E E1 Text h _
    rw [← ok_state_eq h, ← ok_text_eq h]
    exact ⟨rfl, rfl⟩
  | cons A Rest ih =>
    intro E E2 Text h hc
    unfold constantsOfActions at hc ⊢
    obtain ⟨T, E1, M, hA, hR, hT⟩ := emitActions_cons_text h
    obtain ⟨h₁, h₂⟩ := emitAction_numbered A _ _ _ _ hA (by
      change E.Counter + A.constants < 4294967296
      omega)
    have h₂ : E1.Counter = E.Counter + A.constants := h₂
    obtain ⟨h₃, h₄⟩ := ih _ _ _ hR (by rw [h₂]; omega)
    refine ⟨?_, by rw [h₄, h₂]; omega⟩
    unfold numberedBody
    rw [hT, h₁, h₃, h₂]
    have e : E.Counter + A.constants + 1 = E.Counter + 1 + A.constants := by omega
    rw [e]

theorem numbersByKind_length (R : ActionRecord) (c : Nat) (K : ActionKind) :
    (numbersByKind R c K).length = constantsByKind R K := by
  cases K <;> unfold numbersByKind constantsByKind <;> dsimp only <;>
    first
      | rfl
      | (split_ifs <;> rfl)

theorem Action.numbers_length (A : Action) (c : Nat) :
    (A.numbers c).length = A.constants := by
  induction A with
  | leaf R => exact numbersByKind_length R c R.kind
  | sub R S ih =>
    unfold Action.numbers Action.constants
    split_ifs
    · exact ih
    · exact numbersByKind_length R c R.kind

theorem numbersOfActions_length (As : List Action) :
    ∀ c, (numbersOfActions As c).length = constantsOfActions As := by
  induction As with
  | nil => intro c; rfl
  | cons A Rest ih =>
    intro c
    unfold numbersOfActions constantsOfActions
    rw [List.length_append, ih, Action.numbers_length]

theorem emitActions_cons_intro {A : Action} {Rest : List Action} {E E1 E2 : Emitter}
    {T M : String}
    (hA : emitAction A 2 { E with SwiftAction := isSwiftAction A } = .ok (T, E1))
    (hR : emitActions Rest E1 = .ok (M, E2)) :
    emitActions (A :: Rest) E = .ok ("\n" ++ T ++ M, E2) := by
  unfold emitActions
  rw [hA]
  dsimp only
  rw [hR]

theorem emitActions_append (As Bs : List Action) :
    ∀ (E E1 E2 : Emitter) (T₁ T₂ : String), emitActions As E = .ok (T₁, E1) →
      emitActions Bs E1 = .ok (T₂, E2) → emitActions (As ++ Bs) E = .ok (T₁ ++ T₂, E2) := by
  induction As with
  | nil =>
    intro E E1 E2 T₁ T₂ h₁ h₂
    rw [List.nil_append, ← ok_text_eq h₁, String.empty_append, ok_state_eq h₁]
    exact h₂
  | cons A Rest ih =>
    intro E E1 E2 T₁ T₂ h₁ h₂
    obtain ⟨T, E0, M, hA, hR, hT⟩ := emitActions_cons_text h₁
    rw [List.cons_append, hT, String.append_assoc]
    exact emitActions_cons_intro hA (ih _ _ _ _ _ hR h₂)

theorem emitCallingConv_intro {CC : CallingConv} {E E1 : Emitter} {Body : String}
    (h : emitActions CC.Actions
        { E with
          Counter := 0
          CurrentAction := CC.Name
          AssignedRegsMap := mapSubscript CC.Name (fun _ => []) E.AssignedRegsMap } =
        .ok (Body, E1)) :
    emitCallingConv CC E =
      .ok ("\n\n" ++ signature CC.Name CC.Entry ++ " \x7b\n" ++ Body ++
        "\n  return true; // CC didn't match.\n" ++ "\x7d\n", E1) := by
  unfold emitCallingConv
  dsimp only
  rw [h]

theorem constantsOfActions_replicate (A : Action) (n : Nat) :
    constantsOfActions (List.replicate n A) = n * A.constants := by
  induction n with
  | zero => rw [Nat.zero_mul]; rfl
  | succ n ih =>
    rw [List.replicate_succ]
    unfold constantsOfActions
    rw [ih, Nat.succ_mul, Nat.add_comm]

/-- Emitting `CCAssignToStackWithShadow<8, 8, [S1]>` succeeds from every emitter and
moves the counter on twice. -/
theorem emitAction_stackSample (E : Emitter) :
    ∃ T, emitAction (assignToStackWithShadow 8 8 ["S1"]) 2 E =
      .ok (T, { E with Counter := nextCounter (nextCounter E.Counter) }) :=
  ⟨_, rfl⟩

/-- With the counter at 0, `CCAssignToStackWithShadow<8, 8, [S1]>` is written with its
constants numbered 1 and 2, and leaves the counter at 2. -/
theorem emitAction_stackSample_zero (E : Emitter) (h : E.Counter = 0) :
    ∃ E1, emitAction (assignToStackWithShadow 8 8 ["S1"]) 2 E =
        .ok ((assignToStackWithShadow 8 8 ["S1"]).numberedText 2 1, E1) ∧
      E1.Counter = 2 := by
  obtain ⟨T, hT⟩ := emitAction_stackSample E
  have hc : E.Counter + (assignToStackWithShadow 8 8 ["S1"]).constants < 4294967296 := by
    rw [h]
    decide
  obtain ⟨h₁, h₂⟩ := emitAction_numbered _ _ _ _ _ hT hc
  rw [h] at h₁
  rw [h₁] at hT
  refine ⟨_, hT, ?_⟩
  change nextCounter (nextCounter E.Counter) = 2
  rw [h]
  rfl

/-- Emitting `n` times `CCAssignToStackWithShadow<8, 8, [S1]>` succeeds and moves the
counter on by `2 * n`, in 32-bit unsigned arithmetic. -/
theorem emitActions_stackSample (n : Nat) :
    ∀ E : Emitter, E.Counter < 4294967296 →
      ∃ Mid E1, emitActions (List.replicate n (assignToStackWithShadow 8 8 ["S1"])) E =
          .ok (Mid, E1) ∧
        E1.Counter = (E.Counter + 2 * n) % 4294967296 := by
  induction n with
  | zero =>
    intro E h
    exact ⟨"", E, rfl, (Nat.mod_eq_of_lt h).symm⟩
  | succ n ih =>
    intro E h
    obtain ⟨E0, hE0, T, hT⟩ : ∃ E0 : Emitter,
        E0.Counter = nextCounter (nextCounter E.Counter) ∧
        ∃ T, emitAction (assignToStackWithShadow 8 8 ["S1"]) 2
          { E with SwiftAction := isSwiftAction (assignToStackWithShadow 8 8 ["S1"]) } =
          .ok (T, E0) :=
      ⟨_, rfl, emitAction_stackSample _⟩
    obtain ⟨Mid, E1, hM, hC⟩ := ih E0 (by
      rw [hE0]
      exact Nat.mod_lt _ (by decide))
    refine ⟨"\n" ++ T ++ Mid, E1, ?_, ?_⟩
    · rw [List.replicate_succ]
      exact emitActions_cons_intro hT hM
    · rw [hC, hE0]
      unfold nextCounter
      omega

/-- C17 (amended): whatever was emitted before, when the actions of a convention declare
fewer than 2 to the 32 anonymous constants, the body written for the convention is the
text of the specification's numbering from 1: the constants (register lists, shadow
register lists and stack offsets) carry the numbers 1, 2, and so on in the order of
emission; these numbers are the values the counter takes, they are pairwise distinct,
and the counter ends on their count. -/
theorem constants_numbered_from_one (CC : CallingConv) (E E1 : Emitter) (Text : String)
    (h : emitCallingConv CC E = .ok (Text, E1))
    (hk : constantsOfActions CC.Actions < 4294967296) :
    Text = "\n\n" ++ signature CC.Name CC.Entry ++ " \x7b\n" ++
      numberedBody CC.Actions 1 ++ "\n  return true; // CC didn't match.\n" ++ "\x7d\n" ∧
    numbersOfActions CC.Actions 0 = List.range' 1 (constantsOfActions CC.Actions) ∧
    (numbersOfActions CC.Actions 0).Nodup ∧
    E1.Counter = constantsOfActions CC.Actions := by
  obtain ⟨Body, hB, hT⟩ := emitCallingConv_text h
  obtain ⟨h₁, h₂⟩ := emitActions_numbered _ _ _ _ hB (by
    change 0 + constantsOfActions CC.Actions < 4294967296
    omega)
  obtain ⟨k, hf, -⟩ := numbersOfActions_following CC.Actions 0
  have hlen : k = constantsOfActions CC.Actions := by
    rw [← numbersOfActions_length CC.Actions 0, hf, following_length]
  have he : numbersOfActions CC.Actions 0 = List.range' 1 (constantsOfActions CC.Actions) := by
    rw [hf, hlen, following_zero_eq _ hk]
  refine ⟨?_, he, ?_, ?_⟩
  · rw [hT, h₁]
  · rw [he]
    exact List.nodup_range' 1 _
  · rw [h₂]
    exact Nat.zero_add _

set_option maxRecDepth 20000 in
/-- C17 (witness): `CC_M`, emitted after a run that left the counter at 77, declares
`RegList1`, `ShadowRegList2`, `Offset3` and `Offset4`. -/
theorem constants_numbered_from_one_witness :
    ∃ Text E1, emitCallingConv numberedActions { Counter := 77 } = .ok (Text, E1) ∧
      numberedBody numberedActions.Actions 1 =
        "\n  static const MCPhysReg RegList1[] = \x7b\n    R0, R1\n  \x7d;\n" ++
        "  if (MCRegister Reg = State.AllocateReg(RegList1)) \x7b\n" ++
        "    State.addLoc(CCValAssign::getReg(ValNo, ValVT, Reg, LocVT, LocInfo));\n" ++
        "    return false;\n  \x7d\n" ++
        "\n  if (LocVT == MVT::i64) \x7b\n" ++
        "    static const MCPhysReg ShadowRegList2[] = \x7b\n      S1\n    \x7d;\n" ++
        "    int64_t Offset3 = State.AllocateStack(8, Align(8), ShadowRegList2);\n" ++
        "    State.addLoc(CCValAssign::getMem(ValNo, ValVT, Offset3, LocVT, LocInfo));\n" ++
        "    return false;\n  \x7d\n" ++
        "\n  int64_t Offset4 = State.AllocateStack(4, Align(4));\n" ++
        "  State.addLoc(CCValAssign::getMem(ValNo, ValVT, Offset4, LocVT, LocInfo));\n" ++
        "  return false;\n" ∧
      (Text = "\n\n" ++ signature numberedActions.Name numberedActions.Entry ++ " \x7b\n" ++
          numberedBody numberedActions.Actions 1 ++
          "\n  return true; // CC didn't match.\n" ++ "\x7d\n" ∧
        numbersOfActions numberedActions.Actions 0 =
          List.range' 1 (constantsOfActions numberedActions.Actions) ∧
        (numbersOfActions numberedActions.Actions 0).Nodup ∧
        E1.Counter = constantsOfActions numberedActions.Actions) :=
  ⟨_, _, rfl, rfl,
    constants_numbered_from_one numberedActions { Counter := 77 } _ _ rfl (by decide)⟩

/-- C17 (counterexample): the convention `CC_K` of 2147483649 stack assignments with
shadow registers declares 4294967298 constants. Its body is emitted; the counter, a
32-bit unsigned, has wrapped before the last action, so that the last action is written
with the numbers 1 and 2 like the first, `ShadowRegList1` and `Offset2` are declared
twice in the body, the counter ends on 2, and the values the counter took are not
pairwise distinct. -/
theorem counter_wraps_in_long_convention :
    (assignToStackWithShadow 8 8 ["S1"]).numberedText 2 1 =
      "  static const MCPhysReg ShadowRegList1[] = \x7b\n    S1\n  \x7d;\n" ++
      "  int64_t Offset2 = State.AllocateStack(8, Align(8), ShadowRegList1);\n" ++
      "  State.addLoc(CCValAssign::getMem(ValNo, ValVT, Offset2, LocVT, LocInfo));\n" ++
      "  return false;\n" ∧
    (∃ Mid E1, emitCallingConv manyStackActions {} =
        .ok ("\n\n" ++ signature "CC_K" false ++ " \x7b\n" ++
              ("\n" ++ (assignToStackWithShadow 8 8 ["S1"]).numberedText 2 1 ++ Mid ++
               "\n" ++ (assignToStackWithShadow 8 8 ["S1"]).numberedText 2 1) ++
              "\n  return true; // CC didn't match.\n" ++ "\x7d\n", E1) ∧
      E1.Counter = 2) ∧
    constantsOfActions manyStackActions.Actions = 4294967298 ∧
    ¬ (numbersOfActions manyStackActions.Actions 0).Nodup := by
  have e : manyStackActions.Actions =
      List.replicate 2147483649 (assignToStackWithShadow 8 8 ["S1"]) := rfl
  have e₁ : manyStackActions.Actions =
      assignToStackWithShadow 8 8 ["S1"] ::
        (List.replicate 2147483647 (assignToStackWithShadow 8 8 ["S1"]) ++
          [assignToStackWithShadow 8 8 ["S1"]]) := by
    rw [e, ← List.replicate_succ', ← List.replicate_succ]
  have hlen : constantsOfActions manyStackActions.Actions = 4294967298 := by
    rw [e, constantsOfActions_replicate]
    rfl
  refine ⟨rfl, ?_, hlen, ?_⟩
  · obtain ⟨E1, h₁, c₁⟩ := emitAction_stackSample_zero
      { ({ ({} : Emitter) with
            Counter := 0
            CurrentAction := manyStackActions.Name
            AssignedRegsMap :=
              mapSubscript manyStackActions.Name (fun _ => []) ({} : Emitter).AssignedRegsMap }
          : Emitter) with
        SwiftAction := isSwiftAction (assignToStackWithShadow 8 8 ["S1"]) } rfl
    obtain ⟨Mid, E2, h₂, c₂⟩ := emitActions_stackSample 2147483647 E1 (by rw [c₁]; decide)
    rw [c₁] at c₂
    have c₃ : E2.Counter = 0 := by rw [c₂]
    obtain ⟨E3, h₃, c₄⟩ := emitAction_stackSample_zero
      { E2 with SwiftAction := isSwiftAction (assignToStackWithShadow 8 8 ["S1"]) } c₃
    have h₄ := emitActions_cons_intro h₃ (rfl : emitActions [] E3 = .ok ("", E3))
    have h₅ := emitActions_cons_intro h₁ (emitActions_append _ _ _ _ _ _ _ h₂ h₄)
    rw [← e₁] at h₅
    have h₆ := emitCallingConv_intro h₅
    refine ⟨Mid, E3, ?_, c₄⟩
    rw [h₆]
    simp only [String.append_assoc, String.append_empty]
    rfl
  · obtain ⟨k, hf, -⟩ := numbersOfActions_following manyStackActions.Actions 0
    have hk : k = 4294967298 := by
      rw [← hlen, ← numbersOfActions_length manyStackActions.Actions 0, hf, following_length]
    rw [hk] at hf
    intro hn
    rw [hf] at hn
    unfold following at hn
    have h₁ : 1 ∈ List.range' 1 4294967298 := List.mem_range'_1.mpr (by omega)
    have h₂ : 4294967297 ∈ List.range' 1 4294967298 := List.mem_range'_1.mpr (by omega)
    have := List.inj_on_of_nodup_map hn h₁ h₂ (by norm_num)
    omega

end CallingConvEmitter
